import Mathlib

/-!
quadpix: a region quadtree over axis-aligned bounding boxes.

A verification development for the Go package `quadpix` (files `entity.go`,
`errors.go`, `quadpix.go`).

Modelling conventions

* Go `float64` coordinates are exact rationals: the tree never does arithmetic
  on them other than comparing them and halving a sum for the centre.
* A Go slice is a list together with its capacity.  `cap(n.entities)` is read
  by `insert`, `collapse` and `new`, so the capacity is part of the state.
  What capacity `append` picks when it has to reallocate is left to the Go
  runtime; it is the parameter `grow` (old capacity to new capacity).
* Pointers to nodes are replaced by values: a function that mutates its
  receiver returns the new receiver.
* A Go `panic(err)` is `Except.error err`; a returned `error` value is an
  `Option Err` next to the state the call leaves behind.
* The goroutine and channel around each read-only query is dropped: the
  model is the synchronous call made inside it.
-/

namespace quadpix

/-! ## Geometry collaborator (package `pixel`) -/

/-- Modelled from the spec: the vector type of the geometry collaborator
`pixel.Vec`, a pair of coordinates. -/
structure Vec where
  X : ℚ
  Y : ℚ
deriving DecidableEq

/-- Modelled from the spec: the rectangle type of the geometry collaborator
`pixel.Rect`, given by its min and max corners. -/
structure Rect where
  Min : Vec
  Max : Vec
deriving DecidableEq

/-- Modelled from the spec: `pixel.R(minX, minY, maxX, maxY)` builds the
rectangle with these corners (no normalisation). -/
def R (minX minY maxX maxY : ℚ) : Rect := ⟨⟨minX, minY⟩, ⟨maxX, maxY⟩⟩

/-- Modelled from the spec: `Rect.Center`, the geometric centre of the
rectangle (midpoint of the two corners). -/
def Rect.Center (r : Rect) : Vec :=
  ⟨(r.Min.X + r.Max.X) / 2, (r.Min.Y + r.Max.Y) / 2⟩

/-- Modelled from the spec: `Rect.Intersects`, the boolean intersects test of
the geometry collaborator; rectangles that only touch at an edge intersect. -/
def Rect.Intersects (r s : Rect) : Bool :=
  !(decide (s.Max.X < r.Min.X) || decide (s.Min.X > r.Max.X) ||
    decide (s.Max.Y < r.Min.Y) || decide (s.Min.Y > r.Max.Y))

/-- A rectangle is well-formed when min is at most max on both axes. -/
def Rect.wf (r : Rect) : Bool :=
  decide (r.Min.X ≤ r.Max.X) && decide (r.Min.Y ≤ r.Max.Y)

/-! ## errors.go -/

/-- The three error values of `errors.go`. -/
inductive Err where
  | ErrNoEntityFound
  | ErrNoNodeFound
  | ErrNoEntitiesGiven
deriving DecidableEq

open Err

deriving instance DecidableEq for Except

/-! ## entity.go -/

/-- The `Entity` struct: bounds, ID (a `uint64`) and the attached actions.
An action is a Go function value; it is represented by an opaque handle. -/
structure Entity where
  Rect : Rect
  ID : Nat
  Actions : List Nat
deriving DecidableEq

/-- `Entity.IsEqual` on bounds whose coordinates are numbers: same ID and same
bounds. The comparison over all `float64` values, NaN included, is
`FEntity.IsEqual` below. -/
def Entity.IsEqual (e entity : Entity) : Bool :=
  decide (e.ID = entity.ID) && decide (e.Rect = entity.Rect)

/-- `Entity.Intersects`, promoted from the embedded `pixel.Rect`. -/
def Entity.Intersects (e : Entity) (rect : quadpix.Rect) : Bool :=
  e.Rect.Intersects rect

/-- The slice type `Entities`: the elements and the capacity. -/
structure Entities where
  list : List Entity
  cap : Nat
deriving DecidableEq

/-- The nil slice. -/
def Entities.nil : Entities := ⟨[], 0⟩

/-- `make(Entities, 0, c)`. -/
def Entities.make (c : Nat) : Entities := ⟨[], c⟩

/-- Go `append(e, x)` for one element: in place when the capacity allows,
otherwise into a new array whose capacity the runtime chooses. -/
def Entities.append (grow : Nat → Nat) (e : Entities) (x : Entity) : Entities :=
  ⟨e.list ++ [x], if e.list.length + 1 ≤ e.cap then e.cap else grow e.cap⟩

/-- The search loop of `Entities.Remove`: index of the first element that
`IsEqual` the given entity. -/
def Entities.firstMatch (entity : Entity) : List Entity → Option Nat
  | [] => none
  | x :: xs =>
    if x.IsEqual entity then some 0
    else (Entities.firstMatch entity xs).map (· + 1)

/-- `Entities.Remove`: the list without the first match and a nil error, or
the nil slice and `ErrNoEntityFound`. -/
def Entities.Remove (e : Entities) (entity : Entity) : Entities × Option Err :=
  match Entities.firstMatch entity e.list with
  | some i =>
    if e.list.length = 1 then (⟨e.list.take 0, e.cap⟩, none)
    else if e.list.length = i + 1 then (⟨e.list.take i, e.cap⟩, none)
    else (⟨e.list.take i ++ e.list.drop (i + 1), e.cap⟩, none)
  | none => (Entities.nil, some ErrNoEntityFound)

/-- `Entities.Contains`: some element `IsEqual` the given entity. -/
def Entities.Contains (e : Entities) (entity : Entity) : Bool :=
  e.list.any (fun x => x.IsEqual entity)

/-- `Entities.Merge`: append the given entities that are not yet contained. -/
def Entities.Merge (grow : Nat → Nat) (e : Entities) (entities : Entities) : Entities :=
  entities.list.foldl
    (fun acc x => if !acc.Contains x then acc.append grow x else acc) e

/-- `Entities.Intersect`: some element intersects the rectangle. -/
def Entities.Intersect (e : Entities) (rect : Rect) : Bool :=
  e.list.any (fun x => x.Intersects rect)

/-- `Entities.Intersects`: the elements that intersect the rectangle, in a
fresh slice built by `append`. -/
def Entities.Intersects (grow : Nat → Nat) (e : Entities) (rect : Rect) : Entities :=
  e.list.foldl
    (fun acc x => if x.Intersects rect then acc.append grow x else acc) Entities.nil

/-- `E(rect, actions...)`; the random 64-bit ID drawn by the constructor is
the parameter `id`. -/
def E (id : Nat) (rect : Rect) (actions : List Nat) : Entity :=
  ⟨rect, id, actions⟩

/-! ## quadpix.go: the tree node -/

/-- The `node` struct: region, entities, children, depth (a `uint16`). -/
inductive node where
  | mk (rect : Rect) (entities : Entities) (children : List node) (depth : Nat)

/-- Field `rect`. -/
def node.rect : node → Rect
  | .mk r _ _ _ => r

/-- Field `entities`. -/
def node.entities : node → Entities
  | .mk _ es _ _ => es

/-- Field `children`. -/
def node.children : node → List node
  | .mk _ _ cs _ => cs

/-- Field `depth`. -/
def node.depth : node → Nat
  | .mk _ _ _ d => d

/-- `node.new`: a fresh leaf one level below `n`, whose entity slice gets the
capacity `cap(n.entities)`; the depth is a `uint16`. -/
def node.new (n : node) (rect : Rect) : node :=
  .mk rect (Entities.make n.entities.cap) [] ((n.depth + 1) % 65536)

/-- `node.getQuadrant`: the children whose region intersects the rectangle. -/
def node.getQuadrant (n : node) (rect : Rect) : List node :=
  n.children.filter (fun c => c.rect.Intersects rect)

/-- `node.split`: append the four quadrant children. -/
def node.split (n : node) : node :=
  .mk n.rect n.entities
    (n.children ++
      [n.new (R n.rect.Min.X n.rect.Min.Y n.rect.Center.X n.rect.Center.Y),
       n.new (R n.rect.Center.X n.rect.Min.Y n.rect.Max.X n.rect.Center.Y),
       n.new (R n.rect.Min.X n.rect.Center.Y n.rect.Center.X n.rect.Max.Y),
       n.new (R n.rect.Center.X n.rect.Center.Y n.rect.Max.X n.rect.Max.Y)])
    n.depth

/-- The inner loop of `moveEntities`: append `e` to every child whose region
intersects its bounds. -/
def node.addToQuadrant (grow : Nat → Nat) (n : node) (e : Entity) : node :=
  .mk n.rect n.entities
    (n.children.map (fun c =>
      if c.rect.Intersects e.Rect then
        node.mk c.rect (c.entities.append grow e) c.children c.depth
      else c))
    n.depth

/-- The outer loop of `moveEntities` over the given entities; panics when an
entity intersects no child. -/
def moveLoop (grow : Nat → Nat) : List Entity → node → Except Err node
  | [], n => .ok n
  | e :: es, n =>
    if (n.getQuadrant e.Rect).length = 0 then .error ErrNoNodeFound
    else moveLoop grow es (n.addToQuadrant grow e)

/-- `node.moveEntities`: distribute the entities over the children, then
clear the own entity slice (`n.entities[:0]`). -/
def node.moveEntities (grow : Nat → Nat) (n : node) (entities : Entities) :
    Except Err node :=
  match moveLoop grow entities.list n with
  | .error p => .error p
  | .ok m => .ok (.mk m.rect ⟨m.entities.list.take 0, m.entities.cap⟩ m.children m.depth)

mutual
/-- `node.insert`. -/
def node.insert (grow : Nat → Nat) (entity : Entity) (maxDepth : Nat) :
    node → Except Err node
  | .mk rect entities children depth =>
    if children.length > 0 then
      if ((node.mk rect entities children depth).getQuadrant entity.Rect).length = 0 then
        .error ErrNoNodeFound
      else
        match insertEach grow entity maxDepth children with
        | .error p => .error p
        | .ok cs => .ok (.mk rect entities cs depth)
    else if entities.list.length + 1 > entities.cap ∧ depth < maxDepth then
      (node.mk rect entities children depth).split.moveEntities grow
        (entities.append grow entity)
    else .ok (.mk rect (entities.append grow entity) children depth)
/-- The loop of `node.insert` over the children found by `getQuadrant`. -/
def insertEach (grow : Nat → Nat) (entity : Entity) (maxDepth : Nat) :
    List node → Except Err (List node)
  | [] => .ok []
  | c :: cs =>
    if c.rect.Intersects entity.Rect then
      match node.insert grow entity maxDepth c with
      | .error p => .error p
      | .ok c' =>
        match insertEach grow entity maxDepth cs with
        | .error p => .error p
        | .ok cs' => .ok (c' :: cs')
    else
      match insertEach grow entity maxDepth cs with
      | .error p => .error p
      | .ok cs' => .ok (c :: cs')
end

/-- `node.collapse`: merge the entity slices of the children into a fresh
slice; when it fits the capacity of the own slice, take it and drop the
children. -/
def node.collapse (grow : Nat → Nat) (n : node) : node :=
  let entities :=
    n.children.foldl (fun acc c => acc.Merge grow c.entities) (Entities.make 0)
  if entities.list.length ≤ n.entities.cap then
    .mk n.rect entities (n.children.take 0) n.depth
  else n

mutual
/-- `node.remove`: the node after the call and the error it returns. -/
def node.remove (grow : Nat → Nat) (entity : Entity) :
    node → Except Err (node × Option Err)
  | .mk rect entities children depth =>
    if children.length > 0 then
      if ((node.mk rect entities children depth).getQuadrant entity.Rect).length = 0 then
        .error ErrNoNodeFound
      else
        match removeEach grow entity children with
        | .error p => .error p
        | .ok (cs, some err) => .ok (.mk rect entities cs depth, some err)
        | .ok (cs, none) => .ok ((node.mk rect entities cs depth).collapse grow, none)
    else
      match entities.Remove entity with
      | (_, some err) => .ok (.mk rect entities children depth, some err)
      | (es, none) => .ok (.mk rect es children depth, none)
/-- The loop of `node.remove` over the children found by `getQuadrant`; it
stops at the first child that returns an error. -/
def removeEach (grow : Nat → Nat) (entity : Entity) :
    List node → Except Err (List node × Option Err)
  | [] => .ok ([], none)
  | c :: cs =>
    if c.rect.Intersects entity.Rect then
      match node.remove grow entity c with
      | .error p => .error p
      | .ok (c', some err) => .ok (c' :: cs, some err)
      | .ok (c', none) =>
        match removeEach grow entity cs with
        | .error p => .error p
        | .ok (cs', r) => .ok (c' :: cs', r)
    else
      match removeEach grow entity cs with
      | .error p => .error p
      | .ok (cs', r) => .ok (c :: cs', r)
end

mutual
/-- `node.retrieve`. -/
def node.retrieve (grow : Nat → Nat) (rect : Rect) : node → Except Err Entities
  | .mk r entities children depth =>
    if children.length > 0 then
      if ((node.mk r entities children depth).getQuadrant rect).length = 0 then
        .error ErrNoNodeFound
      else retrieveEach grow rect Entities.nil children
    else .ok entities
/-- The loop of `node.retrieve`: merge what each child found by
`getQuadrant` retrieves into the result so far. -/
def retrieveEach (grow : Nat → Nat) (rect : Rect) :
    Entities → List node → Except Err Entities
  | acc, [] => .ok acc
  | acc, c :: cs =>
    if c.rect.Intersects rect then
      match node.retrieve grow rect c with
      | .error p => .error p
      | .ok es => retrieveEach grow rect (acc.Merge grow es) cs
    else retrieveEach grow rect acc cs
end

mutual
/-- `node.intersect`. -/
def node.intersect (rect : Rect) : node → Except Err Bool
  | .mk r entities children depth =>
    if children.length > 0 then
      if ((node.mk r entities children depth).getQuadrant rect).length = 0 then
        .error ErrNoNodeFound
      else intersectEach rect children
    else .ok (entities.Intersect rect)
/-- The loop of `node.intersect`; it returns at the first child that answers
true. -/
def intersectEach (rect : Rect) : List node → Except Err Bool
  | [] => .ok false
  | c :: cs =>
    if c.rect.Intersects rect then
      match node.intersect rect c with
      | .error p => .error p
      | .ok true => .ok true
      | .ok false => intersectEach rect cs
    else intersectEach rect cs
end

mutual
/-- `node.isEntity`. -/
def node.isEntity (entity : Entity) : node → Except Err Bool
  | .mk rect entities children depth =>
    if children.length > 0 then
      if ((node.mk rect entities children depth).getQuadrant entity.Rect).length = 0 then
        .error ErrNoNodeFound
      else isEntityEach entity children
    else .ok (entities.Contains entity)
/-- The loop of `node.isEntity`; it returns at the first child that answers
true. -/
def isEntityEach (entity : Entity) : List node → Except Err Bool
  | [] => .ok false
  | c :: cs =>
    if c.rect.Intersects entity.Rect then
      match node.isEntity entity c with
      | .error p => .error p
      | .ok true => .ok true
      | .ok false => isEntityEach entity cs
    else isEntityEach entity cs
end

/-! ## quadpix.go: the tree handle -/

/-- The `Quadpix` struct: the root node and the depth bound (a `uint16`). -/
structure Quadpix where
  node : node
  maxDepth : Nat

/-- `New(width, height, maxEntities, maxDepth)`; `maxEntities` is a `uint64`
that `make` accepts as a capacity, `maxDepth` a `uint16`. -/
def New (width height : ℚ) (maxEntities maxDepth : Nat) : Quadpix :=
  ⟨.mk (R 0 0 width height) (Entities.make maxEntities) [] 0, maxDepth⟩

/-- `Quadpix.Insert(rect, action...)`; `id` is the random ID that `E` draws. -/
def Quadpix.Insert (grow : Nat → Nat) (q : Quadpix) (id : Nat) (rect : Rect)
    (action : List Nat) : Except Err Quadpix :=
  match q.node.insert grow (E id rect action) q.maxDepth with
  | .error p => .error p
  | .ok n => .ok ⟨n, q.maxDepth⟩

/-- The loop of `Quadpix.InsertEntities`. -/
def insertAll (grow : Nat → Nat) (maxDepth : Nat) : List Entity → node → Except Err node
  | [], n => .ok n
  | e :: es, n =>
    match n.insert grow e maxDepth with
    | .error p => .error p
    | .ok n' => insertAll grow maxDepth es n'

/-- `Quadpix.InsertEntities(entities...)`: the tree after the call and the
error it returns. -/
def Quadpix.InsertEntities (grow : Nat → Nat) (q : Quadpix) (entities : List Entity) :
    Except Err (Quadpix × Option Err) :=
  if entities.length = 0 then .ok (q, some ErrNoEntitiesGiven)
  else
    match insertAll grow q.maxDepth entities q.node with
    | .error p => .error p
    | .ok n => .ok (⟨n, q.maxDepth⟩, none)

/-- `Quadpix.Remove(entity)`: the tree after the call and the error it
returns. -/
def Quadpix.Remove (grow : Nat → Nat) (q : Quadpix) (entity : Entity) :
    Except Err (Quadpix × Option Err) :=
  match q.node.remove grow entity with
  | .error p => .error p
  | .ok (n, r) => .ok (⟨n, q.maxDepth⟩, r)

/-- `Quadpix.Retrieve(rect)`: the value sent on the channel. -/
def Quadpix.Retrieve (grow : Nat → Nat) (q : Quadpix) (rect : Rect) : Except Err Entities :=
  q.node.retrieve grow rect

/-- `Quadpix.Intersect(rect)`: the value sent on the channel. -/
def Quadpix.Intersect (q : Quadpix) (rect : Rect) : Except Err Bool :=
  q.node.intersect rect

/-- `Quadpix.Intersects(rect)`: the value sent on the channel. -/
def Quadpix.Intersects (grow : Nat → Nat) (q : Quadpix) (rect : Rect) : Except Err Entities :=
  match q.node.retrieve grow rect with
  | .error p => .error p
  | .ok es => .ok (es.Intersects grow rect)

/-- `Quadpix.IsEntity(entity)`: the value sent on the channel. -/
def Quadpix.IsEntity (q : Quadpix) (entity : Entity) : Except Err Bool :=
  q.node.isEntity entity

/-- The growth of the gc runtime for a small slice of pointers that is
appended to one element at a time: capacity 0 becomes 1, otherwise it
doubles.  Used for concrete runs only. -/
def goGrow (c : Nat) : Nat := if c = 0 then 1 else 2 * c

/-! ## Specification-side notions -/

/-- The four quadrants of a region, in the order in which `split` creates the
children. -/
def Rect.quadrants (r : Rect) : List Rect :=
  [R r.Min.X r.Min.Y r.Center.X r.Center.Y,
   R r.Center.X r.Min.Y r.Max.X r.Center.Y,
   R r.Min.X r.Center.Y r.Center.X r.Max.Y,
   R r.Center.X r.Center.Y r.Max.X r.Max.Y]

/-- An entity a leaf of region `rect` may hold: well-formed bounds that
intersect the region. -/
def Entity.fits (rect : quadpix.Rect) (e : Entity) : Bool :=
  e.Rect.wf && rect.Intersects e.Rect

mutual
/-- Shape invariant of a tree: every region is well-formed; a node without
children holds only entities that fit its region; a node with children has
an empty entity list and its children are the four quadrants of its region. -/
def node.ok : node → Bool
  | .mk rect entities children _ =>
    rect.wf &&
      (if children.length > 0 then
        entities.list.isEmpty && decide (children.map node.rect = rect.quadrants) &&
          okEach children
      else entities.list.all (Entity.fits rect))
/-- Every node of the list satisfies the shape invariant. -/
def okEach : List node → Bool
  | [] => true
  | c :: cs => node.ok c && okEach cs
end

mutual
/-- The leaves of a tree, left to right. -/
def node.leaves : node → List node
  | .mk rect entities children depth =>
    if children.length > 0 then leavesEach children
    else [.mk rect entities children depth]
/-- The leaves below the nodes of a list. -/
def leavesEach : List node → List node
  | [] => []
  | c :: cs => node.leaves c ++ leavesEach cs
end

mutual
/-- The leaves that a traversal for the rectangle visits: below a node with
children, those under the children whose region intersects the rectangle. -/
def node.routed (r : Rect) : node → List node
  | .mk rect entities children depth =>
    if children.length > 0 then routedEach r children
    else [.mk rect entities children depth]
/-- The leaves visited below the nodes of a list. -/
def routedEach (r : Rect) : List node → List node
  | [] => []
  | c :: cs =>
    if c.rect.Intersects r then node.routed r c ++ routedEach r cs
    else routedEach r cs
end

/-- Number of elements of the list that `IsEqual` the entity. -/
def Entities.count (e : Entities) (entity : Entity) : Nat :=
  (e.list.filter (fun x => x.IsEqual entity)).length

/-- Repeated `append`, one element at a time. -/
def Entities.appendAll (grow : Nat → Nat) (e : Entities) (xs : List Entity) : Entities :=
  xs.foldl (Entities.append grow) e

/-- A child after `moveEntities` has run over `xs`: it has been appended, in
order, the entities of `xs` whose bounds intersect its region. -/
def node.receive (grow : Nat → Nat) (xs : List Entity) (c : node) : node :=
  .mk c.rect (c.entities.appendAll grow (xs.filter (fun x => c.rect.Intersects x.Rect)))
    c.children c.depth

/-- What a call `remove(entity)` that left `n'` behind and returned `r`
guarantees on a well-shaped tree `n`. -/
structure RemovePost (entity : Entity) (n n' : node) (r : Option Err) : Prop where
  ok : n'.ok = true
  rect : n'.rect = n.rect
  nil_iff : r = none ↔ ∀ l ∈ n.routed entity.Rect, l.entities.Contains entity = true
  err : r ≠ none → r = some ErrNoEntityFound
  same : (∀ l ∈ n.routed entity.Rect, l.entities.Contains entity = false) → n' = n
  gone : (∀ l ∈ n.routed entity.Rect, l.entities.count entity = 1) →
    ∀ l ∈ n'.leaves, l.entities.Contains entity = false
  frame : ∀ l' ∈ n'.leaves,
    (∃ l ∈ n.leaves, l'.entities.list.Sublist l.entities.list) ∨
    (l'.entities.list.Pairwise (fun a b => a.IsEqual b = false) ∧
      ∀ x ∈ l'.entities.list, ∃ l ∈ n.leaves, x ∈ l.entities.list)

/-- What a call `insert(entity, maxDepth)` that left `n'` behind guarantees on
a well-shaped tree `n`. -/
structure InsertPost (entity : Entity) (n n' : node) : Prop where
  ok : n'.ok = true
  rect : n'.rect = n.rect
  held : ∀ l ∈ n'.routed entity.Rect, l.entities.Contains entity = true
  frame : ∀ l' ∈ n'.leaves,
    ∃ l ∈ n.leaves, l'.entities.list.Sublist (l.entities.list ++ [entity])

mutual
/-- Decidable equality of trees. -/
def node.decEq : (a b : node) → Decidable (a = b)
  | .mk r1 e1 c1 d1, .mk r2 e2 c2 d2 =>
    if h1 : r1 = r2 then
      if h2 : e1 = e2 then
        match decEqEach c1 c2 with
        | isTrue h3 =>
          if h4 : d1 = d2 then isTrue (by rw [h1, h2, h3, h4])
          else isFalse (fun h => h4 (by injection h))
        | isFalse h3 => isFalse (fun h => h3 (by injection h))
      else isFalse (fun h => h2 (by injection h))
    else isFalse (fun h => h1 (by injection h))
/-- Decidable equality of lists of trees. -/
def decEqEach : (as bs : List node) → Decidable (as = bs)
  | [], [] => isTrue rfl
  | [], _ :: _ => isFalse (fun h => by cases h)
  | _ :: _, [] => isFalse (fun h => by cases h)
  | a :: as, b :: bs =>
    match node.decEq a b with
    | isTrue h1 =>
      match decEqEach as bs with
      | isTrue h2 => isTrue (by rw [h1, h2])
      | isFalse h2 => isFalse (fun h => h2 (by injection h))
    | isFalse h1 => isFalse (fun h => h1 (by injection h))
end

instance : DecidableEq node := node.decEq

deriving instance DecidableEq for Quadpix

/-! ## Reachable trees -/

/-- An entity admitted for a tree over the root region `(0,0,w,h)`:
well-formed bounds that intersect the root region. -/
def admissible (w h : ℚ) (e : Entity) : Bool :=
  e.Rect.wf && (R 0 0 w h).Intersects e.Rect

/-- The trees reachable from `New(w, h, maxEntities, maxDepth)`, `w, h ≥ 0`,
by calls of `Insert`, `InsertEntities` and `Remove` on admissible entities.
A call that returns an error still leaves a reachable tree behind. -/
inductive Reachable (grow : Nat → Nat) (w h : ℚ) (maxEntities maxDepth : Nat) :
    Quadpix → Prop where
  | new : 0 ≤ w → 0 ≤ h →
      Reachable grow w h maxEntities maxDepth (New w h maxEntities maxDepth)
  | insert {q q' : Quadpix} (id : Nat) (rect : Rect) (action : List Nat) :
      Reachable grow w h maxEntities maxDepth q →
      admissible w h (E id rect action) = true →
      q.Insert grow id rect action = .ok q' →
      Reachable grow w h maxEntities maxDepth q'
  | insertEntities {q q' : Quadpix} {r : Option Err} (entities : List Entity) :
      Reachable grow w h maxEntities maxDepth q →
      (∀ e ∈ entities, admissible w h e = true) →
      q.InsertEntities grow entities = .ok (q', r) →
      Reachable grow w h maxEntities maxDepth q'
  | remove {q q' : Quadpix} {r : Option Err} (entity : Entity) :
      Reachable grow w h maxEntities maxDepth q →
      admissible w h entity = true →
      q.Remove grow entity = .ok (q', r) →
      Reachable grow w h maxEntities maxDepth q'

/-- Every leaf of the tree holds pairwise non-equal entities, all of them
from `S`. -/
def node.distinctWithin (S : List Entity) (n : node) : Prop :=
  ∀ l ∈ n.leaves, l.entities.list.Pairwise (fun a b => a.IsEqual b = false) ∧
    ∀ x ∈ l.entities.list, x ∈ S

/-- The trees built from `New(w, h, maxEntities, maxDepth)`, `w, h ≥ 0`, by
inserting pairwise non-equal admissible entities and removing some of them;
the list holds the entities inserted so far. -/
inductive Built (grow : Nat → Nat) (w h : ℚ) (maxEntities maxDepth : Nat) :
    List Entity → Quadpix → Prop where
  | new : 0 ≤ w → 0 ≤ h →
      Built grow w h maxEntities maxDepth [] (New w h maxEntities maxDepth)
  | insert {L : List Entity} {q q' : Quadpix} (id : Nat) (rect : Rect) (action : List Nat) :
      Built grow w h maxEntities maxDepth L q →
      admissible w h (E id rect action) = true →
      (∀ x ∈ L, x.IsEqual (E id rect action) = false) →
      q.Insert grow id rect action = .ok q' →
      Built grow w h maxEntities maxDepth (E id rect action :: L) q'
  | insertEntities {L : List Entity} {q q' : Quadpix} {r : Option Err}
      (entities : List Entity) :
      Built grow w h maxEntities maxDepth L q →
      (∀ e ∈ entities, admissible w h e = true) →
      (entities.reverse ++ L).Pairwise (fun a b => a.IsEqual b = false) →
      q.InsertEntities grow entities = .ok (q', r) →
      Built grow w h maxEntities maxDepth (entities.reverse ++ L) q'
  | remove {L : List Entity} {q q' : Quadpix} {r : Option Err} (entity : Entity) :
      Built grow w h maxEntities maxDepth L q →
      entity ∈ L →
      admissible w h entity = true →
      q.Remove grow entity = .ok (q', r) →
      Built grow w h maxEntities maxDepth L q'

/-! ## Concrete runs -/

/-- The tree that a call leaves behind (the tree before it, had it panicked). -/
def Quadpix.after (q : Quadpix) (x : Except Err (Quadpix × Option Err)) : Quadpix :=
  match x with
  | .ok (q', _) => q'
  | .error _ => q

/-- First rectangle of the test `insert with a split`, with ID 1. -/
def s1 : Entity := ⟨R 0 0 50 50, 1, []⟩

/-- Second rectangle of the test `insert with a split`, with ID 2. -/
def s2 : Entity := ⟨R 20 20 40 40, 2, []⟩

/-- Third rectangle of the test `insert with a split`, with ID 3. -/
def s3 : Entity := ⟨R 25 25 70 70, 3, []⟩

/-- `New(800, 600, 2, 4)` after `InsertEntities(s1, s2)`: a full root leaf. -/
def splitTree2 : Quadpix :=
  (New 800 600 2 4).after ((New 800 600 2 4).InsertEntities goGrow [s1, s2])

/-- The entity of the test `remove last entity from list`: ID 1 at
`(0,0,50,50)`. -/
def dup : Entity := ⟨R 0 0 50 50, 1, []⟩

/-- `New(800, 600, 10, 4)` after `InsertEntities(dup, dup)`: the same entity
inserted twice. -/
def dupTree : Quadpix :=
  (New 800 600 10 4).after ((New 800 600 10 4).InsertEntities goGrow [dup, dup])

/-- An entity across the centre of the region `(0,0,800,600)`: its bounds
intersect all four quadrants. -/
def mid : Entity := ⟨R 390 290 410 310, 2, []⟩

/-- `New(800, 600, 1, 4)` after `InsertEntities(s1, mid)`: the root has
split and `mid` is held by all four leaves. -/
def straddleTree : Quadpix :=
  (New 800 600 1 4).after ((New 800 600 1 4).InsertEntities goGrow [s1, mid])

/-- An entity across the border between the bottom-left and the bottom-right
quadrant of `(0,0,160,160)`. -/
def k1 : Entity := ⟨R 70 5 90 15, 1, []⟩

/-- An entity inside the top-right quadrant of `(0,0,160,160)`. -/
def k2 : Entity := ⟨R 90 90 100 100, 2, []⟩

/-- An entity inside the top-left quadrant of the bottom-left quadrant. -/
def k3 : Entity := ⟨R 10 50 20 60, 3, []⟩

/-- An entity inside the bottom-right quadrant of the bottom-left quadrant,
next to `k1` there. -/
def k4 : Entity := ⟨R 45 25 55 35, 4, []⟩

/-- `New(160, 160, 1, 3)` after `InsertEntities(k1, k2, k3, k4)`: the root has
split, its bottom-left child has split, and the bottom-right child of that
child has split too. No entity slice of a node was appended to beyond its
capacity, so the run is the same for every growth policy of `append`. -/
def deepTree : Quadpix :=
  (New 160 160 1 3).after ((New 160 160 1 3).InsertEntities goGrow [k1, k2, k3, k4])

/-- The tree `deepTree` after `Remove(k3)`. -/
def lostTree : Quadpix := deepTree.after (deepTree.Remove goGrow k3)

/-- A query rectangle inside the bottom-left quadrant of `(0,0,160,160)` that
intersects the bounds of `k1`. -/
def probe : Rect := R 70 5 75 15

/-- `New(800, 600, 10, 4)` after `InsertEntities(s1)`: a single root leaf. -/
def oneTree : Quadpix :=
  (New 800 600 10 4).after ((New 800 600 10 4).InsertEntities goGrow [s1])

/-- A rectangle outside the region `(0,0,800,600)`. -/
def far : Rect := R 900 900 950 950

/-- An entity inside the bottom-left quadrant of the bottom-left quadrant of
`(0,0,160,160)`. -/
def u1 : Entity := ⟨R 10 10 20 20, 1, []⟩

/-- An entity inside the bottom-right quadrant of the bottom-left quadrant of
`(0,0,160,160)`. -/
def u2 : Entity := ⟨R 50 10 60 20, 2, []⟩

/-- An entity inside the top-right quadrant of `(0,0,160,160)`. -/
def u3 : Entity := ⟨R 90 90 100 100, 3, []⟩

/-- `New(160, 160, 1, 2)` after `InsertEntities(u1, u3, u2)`: the root has
split and its bottom-left child has split. No entity slice of a node was
appended to beyond its capacity. -/
def nestTree : Quadpix :=
  (New 160 160 1 2).after ((New 160 160 1 2).InsertEntities goGrow [u1, u3, u2])

/-- The tree `nestTree` after `Remove(u3)`. -/
def emptiedTree : Quadpix := nestTree.after (nestTree.Remove goGrow u3)

/-- `New(800, 600, 2, 4)` after `InsertEntities(s1, s2, s3)`, the test
`insert with a split`. -/
def splitTree3 : Quadpix :=
  (New 800 600 2 4).after ((New 800 600 2 4).InsertEntities goGrow [s1, s2, s3])

/-! ## Entity lists, in the words of the specification -/

/-- The elements that `Merge` adds, in the words of the specification: going
through `m` in order, those that are not `IsEqual` to any element already in
the result `acc`. -/
def Entities.fresh : List Entity → List Entity → List Entity
  | _, [] => []
  | acc, x :: xs =>
    if acc.any (fun a => a.IsEqual x) then Entities.fresh acc xs
    else x :: Entities.fresh (acc ++ [x]) xs

/-! ## The tree handle, in the words of the specification -/

/-- Inserting the entities one by one, in the given order, each by its own
call `InsertEntities(e)`; a panic ends the run. -/
def insertOneByOne (grow : Nat → Nat) : List Entity → Quadpix → Except Err Quadpix
  | [], q => .ok q
  | e :: es, q =>
    match q.InsertEntities grow [e] with
    | .error p => .error p
    | .ok (q', _) => insertOneByOne grow es q'

mutual
/-- All nodes of a tree: the node itself and the nodes below its children. -/
def node.nodes : node → List node
  | .mk rect entities children depth =>
    .mk rect entities children depth :: nodesEach children
/-- All nodes below the nodes of a list. -/
def nodesEach : List node → List node
  | [] => []
  | c :: cs => node.nodes c ++ nodesEach cs
end

mutual
/-- Depth invariant of a tree for the bound `maxDepth`: no node is deeper than
`maxDepth` and every child is exactly one level below its parent. -/
def node.depthOk (maxDepth : Nat) : node → Bool
  | .mk _ _ children depth =>
    decide (depth ≤ maxDepth) && depthOkEach maxDepth depth children
/-- Every node of the list is one level below `depth` and satisfies the depth
invariant. -/
def depthOkEach (maxDepth : Nat) (depth : Nat) : List node → Bool
  | [] => true
  | c :: cs =>
    decide (c.depth = depth + 1) && node.depthOk maxDepth c &&
      depthOkEach maxDepth depth cs
end

/-! ## Runs that change the capacity of an entity slice -/

/-- An entity inside the bottom-left quadrant of `(0,0,160,160)`. -/
def v1 : Entity := ⟨R 10 10 20 20, 1, []⟩

/-- An entity inside the bottom-right quadrant of `(0,0,160,160)`. -/
def v2 : Entity := ⟨R 90 10 100 20, 2, []⟩

/-- An entity inside the top-left quadrant of `(0,0,160,160)`. -/
def v3 : Entity := ⟨R 10 90 20 100, 3, []⟩

/-- An entity inside the top-right quadrant of `(0,0,160,160)`. -/
def v4 : Entity := ⟨R 90 90 100 100, 4, []⟩

/-- `New(160, 160, 3, 2)` after `InsertEntities(v1, v2, v3, v4)`: the root has
split and each of its four children holds one entity. -/
def quadTree : Quadpix :=
  (New 160 160 3 2).after ((New 160 160 3 2).InsertEntities goGrow [v1, v2, v3, v4])

/-- The tree `quadTree` after `Remove(v4)`: the root has collapsed into a leaf
that holds `v1`, `v2`, `v3`. -/
def mergedTree : Quadpix := quadTree.after (quadTree.Remove goGrow v4)

/-- `New(800, 600, 1, 0)` after `InsertEntities(s1, s2)`: a root leaf at the
depth bound, appended to beyond its capacity. -/
def fullLeaf (grow : Nat → Nat) : Quadpix :=
  (New 800 600 1 0).after ((New 800 600 1 0).InsertEntities grow [s1, s2])

/-- The tree `emptiedTree` after `InsertEntities(u3)`. -/
def resplitTree : Quadpix := emptiedTree.after (emptiedTree.InsertEntities goGrow [u3])

/-! ## Trees built by insertions only -/

/-- The trees built from `New(w, h, maxEntities, maxDepth)`, `w, h ≥ 0`, by
calls of `Insert` and `InsertEntities` only, on admissible entities, together
with the list of the entities inserted so far, in insertion order. -/
inductive Grown (grow : Nat → Nat) (w h : ℚ) (maxEntities maxDepth : Nat) :
    List Entity → Quadpix → Prop where
  | new : 0 ≤ w → 0 ≤ h →
      Grown grow w h maxEntities maxDepth [] (New w h maxEntities maxDepth)
  | insert {L : List Entity} {q q' : Quadpix} (id : Nat) (rect : Rect) (action : List Nat) :
      Grown grow w h maxEntities maxDepth L q →
      admissible w h (E id rect action) = true →
      q.Insert grow id rect action = .ok q' →
      Grown grow w h maxEntities maxDepth (L ++ [E id rect action]) q'
  | insertEntities {L : List Entity} {q q' : Quadpix} {r : Option Err}
      (entities : List Entity) :
      Grown grow w h maxEntities maxDepth L q →
      (∀ e ∈ entities, admissible w h e = true) →
      q.InsertEntities grow entities = .ok (q', r) →
      Grown grow w h maxEntities maxDepth (L ++ entities) q'

/-! ## A query rectangle with swapped corners -/

/-- A rectangle whose `Min.X` is greater than its `Max.X`, placed across the
vertical centre line of `(0,0,800,600)`. -/
def flipped : Rect := R 405 295 395 305

/-- `New(800, 600, 1, 4)` after `InsertEntities(mid)`: a single root leaf. -/
def midTree : Quadpix :=
  (New 800 600 1 4).after ((New 800 600 1 4).InsertEntities goGrow [mid])

/-- The tree `midTree` after `InsertEntities(s1)`: the root has split. -/
def midSplitTree : Quadpix := midTree.after (midTree.InsertEntities goGrow [s1])

/-! ## Two stored entities that are equal by `IsEqual` -/

/-- A second entity with the ID and the bounds of `s1`; its actions tell the
two apart. -/
def twin : Entity := ⟨R 0 0 50 50, 1, [7]⟩

/-- `New(800, 600, 2, 4)` after `InsertEntities(s1, twin)`: a full root leaf
that holds both. -/
def twinTree : Quadpix :=
  (New 800 600 2 4).after ((New 800 600 2 4).InsertEntities goGrow [s1, twin])

/-- The tree `twinTree` after `InsertEntities(s2)`: the root has split. -/
def twinSplitTree : Quadpix := twinTree.after (twinTree.InsertEntities goGrow [s2])

/-! ## entity.go over `float64` bounds

The tree code above compares and halves coordinates, and every entity it
stores passed `Min ≤ Max`, which no NaN coordinate does; there the
coordinates are numbers. `IsEqual`, `Contains` and `Merge` take any entity,
also one with a NaN coordinate, so they are given here over `float64` values
as `==` sees them. -/

/-- Modelled from the spec: a `float64` value as the comparison `==` sees it:
a number (the two zeros compare equal and are one number here), an infinity,
or NaN. -/
inductive F64 where
  | num (q : ℚ)
  | inf (negative : Bool)
  | nan
deriving DecidableEq

/-- Go `==` on `float64`, which `reflect.DeepEqual` applies to a field of kind
`Float64`: NaN is equal to no value, itself included. -/
def F64.eq : F64 → F64 → Bool
  | .num a, .num b => decide (a = b)
  | .inf a, .inf b => decide (a = b)
  | _, _ => false

/-- The value is NaN. -/
def F64.isNaN : F64 → Bool
  | .nan => true
  | _ => false

/-- Modelled from the spec: `pixel.Vec`, two `float64` fields. -/
structure FVec where
  X : F64
  Y : F64
deriving DecidableEq

/-- Modelled from the spec: `pixel.Rect`, the two corners. -/
structure FRect where
  Min : FVec
  Max : FVec
deriving DecidableEq

/-- `reflect.DeepEqual` on two `pixel.Rect` values: the structs are compared
field by field, down to the four `float64` coordinates. -/
def FRect.DeepEqual (r s : FRect) : Bool :=
  F64.eq r.Min.X s.Min.X && F64.eq r.Min.Y s.Min.Y &&
    F64.eq r.Max.X s.Max.X && F64.eq r.Max.Y s.Max.Y

/-- Some coordinate of the rectangle is NaN. -/
def FRect.hasNaN (r : FRect) : Bool :=
  r.Min.X.isNaN || r.Min.Y.isNaN || r.Max.X.isNaN || r.Max.Y.isNaN

/-- The `Entity` struct with `float64` bounds. -/
structure FEntity where
  Rect : FRect
  ID : Nat
  Actions : List Nat
deriving DecidableEq

/-- `Entity.IsEqual`: `e.ID == entity.ID && reflect.DeepEqual(e.Rect,
entity.Rect)`. -/
def FEntity.IsEqual (e entity : FEntity) : Bool :=
  decide (e.ID = entity.ID) && e.Rect.DeepEqual entity.Rect

/-- The slice type `Entities` over entities with `float64` bounds. -/
structure FEntities where
  list : List FEntity
  cap : Nat
deriving DecidableEq

/-- Go `append(e, x)` for one element. -/
def FEntities.append (grow : Nat → Nat) (e : FEntities) (x : FEntity) : FEntities :=
  ⟨e.list ++ [x], if e.list.length + 1 ≤ e.cap then e.cap else grow e.cap⟩

/-- `Entities.Contains`: some element `IsEqual` the given entity. -/
def FEntities.Contains (e : FEntities) (entity : FEntity) : Bool :=
  e.list.any (fun x => x.IsEqual entity)

/-- `Entities.Merge`: append the given entities that are not yet contained. -/
def FEntities.Merge (grow : Nat → Nat) (e : FEntities) (entities : FEntities) : FEntities :=
  entities.list.foldl
    (fun acc x => if !acc.Contains x then acc.append grow x else acc) e

/-- The elements that `Merge` adds, in the words of the specification: going
through `m` in order, those that are not `IsEqual` to any element already in
the result `acc`. -/
def FEntities.fresh : List FEntity → List FEntity → List FEntity
  | _, [] => []
  | acc, x :: xs =>
    if acc.any (fun a => a.IsEqual x) then FEntities.fresh acc xs
    else x :: FEntities.fresh (acc ++ [x]) xs

/-- A rectangle with number coordinates as a `float64` rectangle. -/
def Rect.toF64 (r : Rect) : FRect :=
  ⟨⟨.num r.Min.X, .num r.Min.Y⟩, ⟨.num r.Max.X, .num r.Max.Y⟩⟩

/-- An entity with number coordinates as an entity with `float64` bounds. -/
def Entity.toF64 (e : Entity) : FEntity := ⟨e.Rect.toF64, e.ID, e.Actions⟩

/-- A slice of entities with number coordinates as a slice of entities with
`float64` bounds. -/
def Entities.toF64 (e : Entities) : FEntities := ⟨e.list.map Entity.toF64, e.cap⟩

/-- An entity whose `Min.X` is NaN. -/
def nanEntity : FEntity := ⟨⟨⟨.nan, .num 0⟩, ⟨.num 10, .num 10⟩⟩, 1, []⟩

/-! # Theorems -/

/-! ## Geometry -/

theorem Rect.Intersects_iff (r s : Rect) :
    r.Intersects s = true ↔
      r.Min.X ≤ s.Max.X ∧ s.Min.X ≤ r.Max.X ∧ r.Min.Y ≤ s.Max.Y ∧ s.Min.Y ≤ r.Max.Y := by
  simp [Rect.Intersects, not_or, not_lt, and_assoc]

theorem Rect.wf_iff (r : Rect) : r.wf = true ↔ r.Min.X ≤ r.Max.X ∧ r.Min.Y ≤ r.Max.Y := by
  simp [Rect.wf]

theorem Rect.quadrants_wf {r q : Rect} (hr : r.wf = true) (hq : q ∈ r.quadrants) :
    q.wf = true := by
  rw [Rect.wf_iff] at hr ⊢
  obtain ⟨hx, hy⟩ := hr
  simp only [Rect.quadrants, List.mem_cons, List.mem_singleton, List.mem_nil_iff, or_false] at hq
  rcases hq with rfl | rfl | rfl | rfl <;>
    simp only [R, Rect.Center] <;> constructor <;> linarith

theorem Rect.quadrants_sub {r q s : Rect} (hr : r.wf = true) (hq : q ∈ r.quadrants)
    (h : q.Intersects s = true) : r.Intersects s = true := by
  rw [Rect.wf_iff] at hr
  rw [Rect.Intersects_iff] at h ⊢
  obtain ⟨hx, hy⟩ := hr
  simp only [Rect.quadrants, List.mem_cons, List.mem_singleton, List.mem_nil_iff, or_false] at hq
  rcases hq with rfl | rfl | rfl | rfl <;>
    simp only [R, Rect.Center] at h <;> obtain ⟨h1, h2, h3, h4⟩ := h <;>
    refine ⟨?_, ?_, ?_, ?_⟩ <;> linarith

theorem Rect.quadrants_cover {r s : Rect} (hs : s.wf = true)
    (h : r.Intersects s = true) : ∃ q ∈ r.quadrants, q.Intersects s = true := by
  rw [Rect.wf_iff] at hs
  rw [Rect.Intersects_iff] at h
  obtain ⟨hx, hy⟩ := hs
  obtain ⟨h1, h2, h3, h4⟩ := h
  by_cases cx : s.Min.X ≤ r.Center.X <;> by_cases cy : s.Min.Y ≤ r.Center.Y
  · exact ⟨_, List.mem_cons_self _ _, by
      rw [Rect.Intersects_iff]; simp only [R]; exact ⟨h1, cx, h3, cy⟩⟩
  · refine ⟨R r.Min.X r.Center.Y r.Center.X r.Max.Y, by simp [Rect.quadrants], ?_⟩
    rw [Rect.Intersects_iff]; simp only [R]
    exact ⟨h1, cx, by linarith, h4⟩
  · refine ⟨R r.Center.X r.Min.Y r.Max.X r.Center.Y, by simp [Rect.quadrants], ?_⟩
    rw [Rect.Intersects_iff]; simp only [R]
    exact ⟨by linarith, h2, h3, cy⟩
  · refine ⟨R r.Center.X r.Center.Y r.Max.X r.Max.Y, by simp [Rect.quadrants], ?_⟩
    rw [Rect.Intersects_iff]; simp only [R]
    exact ⟨by linarith, h2, by linarith, h4⟩

/-! ## Induction over trees and the shape invariant -/

theorem node.induct {P : node → Prop}
    (h : ∀ rect es cs d, (∀ c ∈ cs, P c) → P (.mk rect es cs d)) (n : node) : P n :=
  @node.rec P (fun cs => ∀ c ∈ cs, P c) (fun rect es cs d ih => h rect es cs d ih)
    (fun c hc => absurd hc (List.not_mem_nil c))
    (fun c cs ihc ihcs x hx => by
      rcases List.mem_cons.1 hx with rfl | hx
      · exact ihc
      · exact ihcs x hx) n

theorem okEach_iff (cs : List node) : okEach cs = true ↔ ∀ c ∈ cs, c.ok = true := by
  induction cs with
  | nil => simp [okEach]
  | cons c cs ih => simp [okEach, ih]

theorem node.ok_leaf (rect : Rect) (es : Entities) (d : Nat) :
    (node.mk rect es [] d).ok = true ↔
      rect.wf = true ∧ ∀ e ∈ es.list, e.fits rect = true := by
  simp [node.ok]

theorem node.ok_inner (rect : Rect) (es : Entities) (cs : List node) (d : Nat)
    (h : 0 < cs.length) :
    (node.mk rect es cs d).ok = true ↔
      rect.wf = true ∧ es.list = [] ∧ cs.map node.rect = rect.quadrants ∧
        ∀ c ∈ cs, c.ok = true := by
  simp [node.ok, h, okEach_iff, and_assoc]

theorem node.ok_wf {n : node} (h : n.ok = true) : n.rect.wf = true := by
  cases n with
  | mk rect es cs d =>
    simp only [node.ok, Bool.and_eq_true] at h
    exact h.1

/-- Below a well-shaped node with children, a well-formed rectangle that
intersects the region intersects the region of some child. -/
theorem getQuadrant_ne_nil {rect : Rect} {cs : List node} {r : Rect}
    (hq : cs.map node.rect = rect.quadrants) (hr : r.wf = true)
    (hi : rect.Intersects r = true) :
    ∃ c ∈ cs, c.rect.Intersects r = true := by
  obtain ⟨q, hq1, hq2⟩ := Rect.quadrants_cover hr hi
  rw [← hq] at hq1
  obtain ⟨c, hc, rfl⟩ := List.mem_map.1 hq1
  exact ⟨c, hc, hq2⟩

theorem getQuadrant_length {rect : Rect} {es : Entities} {cs : List node} {d : Nat} {r : Rect}
    (h : ∃ c ∈ cs, c.rect.Intersects r = true) :
    (((node.mk rect es cs d).getQuadrant r).length = 0) = False := by
  obtain ⟨c, hc, hi⟩ := h
  have : c ∈ (node.mk rect es cs d).getQuadrant r := by
    simp [node.getQuadrant, node.children, hc, hi]
  simp only [eq_iff_iff, iff_false]
  intro h0
  rw [List.length_eq_zero] at h0
  rw [h0] at this
  exact absurd this (List.not_mem_nil c)

/-! ## The traversals in terms of the leaves they visit -/

theorem isEntityEach_eq (e : Entity) (cs : List node)
    (ih : ∀ c ∈ cs, c.rect.Intersects e.Rect = true →
      c.isEntity e = .ok ((c.routed e.Rect).any (fun l => l.entities.Contains e))) :
    isEntityEach e cs = .ok ((routedEach e.Rect cs).any (fun l => l.entities.Contains e)) := by
  induction cs with
  | nil => simp [isEntityEach, routedEach]
  | cons c cs ihl =>
    have ihl := ihl (fun c hc => ih c (List.mem_cons_of_mem _ hc))
    by_cases hi : c.rect.Intersects e.Rect = true
    · have h1 := ih c (List.mem_cons_self _ _) hi
      simp only [isEntityEach, routedEach, hi, if_true, h1, List.any_append]
      cases hb : (c.routed e.Rect).any (fun l => l.entities.Contains e)
      · simp [ihl]
      · simp
    · simp only [isEntityEach, routedEach, hi, if_false, ihl]
      simp

/-- On a well-shaped tree `isEntity` does not panic for an entity that fits
the root region, and it answers whether some visited leaf contains it. -/
theorem node.isEntity_eq (e : Entity) (he : e.Rect.wf = true) (n : node) :
    n.ok = true → n.rect.Intersects e.Rect = true →
      n.isEntity e = .ok ((n.routed e.Rect).any (fun l => l.entities.Contains e)) := by
  induction n using node.induct with
  | h rect es cs d ih =>
    intro hok hi
    by_cases hc : 0 < cs.length
    · rw [node.ok_inner _ _ _ _ hc] at hok
      obtain ⟨hwf, -, hq, hcs⟩ := hok
      have hne := getQuadrant_ne_nil hq he hi
      simp only [node.isEntity, node.routed, gt_iff_lt, hc, if_true,
        getQuadrant_length hne, if_false]
      exact isEntityEach_eq e cs (fun c hc hic => ih c hc (hcs c hc) hic)
    · simp [node.isEntity, node.routed, hc, node.entities]

theorem intersectEach_eq (r : Rect) (cs : List node)
    (ih : ∀ c ∈ cs, c.rect.Intersects r = true →
      c.intersect r = .ok ((c.routed r).any (fun l => l.entities.Intersect r))) :
    intersectEach r cs = .ok ((routedEach r cs).any (fun l => l.entities.Intersect r)) := by
  induction cs with
  | nil => simp [intersectEach, routedEach]
  | cons c cs ihl =>
    have ihl := ihl (fun c hc => ih c (List.mem_cons_of_mem _ hc))
    by_cases hi : c.rect.Intersects r = true
    · have h1 := ih c (List.mem_cons_self _ _) hi
      simp only [intersectEach, routedEach, hi, if_true, h1, List.any_append]
      cases hb : (c.routed r).any (fun l => l.entities.Intersect r)
      · simp [ihl]
      · simp
    · simp only [intersectEach, routedEach, hi, if_false, ihl]
      simp

/-- On a well-shaped tree `intersect` does not panic for a well-formed
rectangle that intersects the root region, and it answers whether some
visited leaf has an entity that intersects the rectangle. -/
theorem node.intersect_eq (r : Rect) (hr : r.wf = true) (n : node) :
    n.ok = true → n.rect.Intersects r = true →
      n.intersect r = .ok ((n.routed r).any (fun l => l.entities.Intersect r)) := by
  induction n using node.induct with
  | h rect es cs d ih =>
    intro hok hi
    by_cases hc : 0 < cs.length
    · rw [node.ok_inner _ _ _ _ hc] at hok
      obtain ⟨hwf, -, hq, hcs⟩ := hok
      have hne := getQuadrant_ne_nil hq hr hi
      simp only [node.intersect, node.routed, gt_iff_lt, hc, if_true,
        getQuadrant_length hne, if_false]
      exact intersectEach_eq r cs (fun c hc hic => ih c hc (hcs c hc) hic)
    · simp [node.intersect, node.routed, hc, node.entities]

/-! ## Entity lists -/

theorem Entity.IsEqual_iff (a b : Entity) :
    a.IsEqual b = true ↔ a.ID = b.ID ∧ a.Rect = b.Rect := by
  simp [Entity.IsEqual]

theorem Entity.IsEqual_refl (a : Entity) : a.IsEqual a = true := by
  simp [Entity.IsEqual]

theorem Entity.IsEqual_symm {a b : Entity} (h : a.IsEqual b = true) :
    b.IsEqual a = true := by
  rw [Entity.IsEqual_iff] at h ⊢
  exact ⟨h.1.symm, h.2.symm⟩

theorem Entity.IsEqual_trans {a b c : Entity} (h : a.IsEqual b = true)
    (h' : b.IsEqual c = true) : a.IsEqual c = true := by
  rw [Entity.IsEqual_iff] at h h' ⊢
  exact ⟨h.1.trans h'.1, h.2.trans h'.2⟩

theorem Entity.IsEqual_rect {a b : Entity} (h : a.IsEqual b = true) : a.Rect = b.Rect :=
  ((Entity.IsEqual_iff a b).1 h).2

theorem Entities.Contains_iff (e : Entities) (y : Entity) :
    e.Contains y = true ↔ ∃ x ∈ e.list, x.IsEqual y = true := by
  simp [Entities.Contains]

theorem Entities.Contains_append (grow : Nat → Nat) (e : Entities) (x y : Entity) :
    (e.append grow x).Contains y = (e.Contains y || x.IsEqual y) := by
  simp [Entities.Contains, Entities.append]

theorem Entities.mergeLoop_Contains (grow : Nat → Nat) (y : Entity) (l : List Entity) :
    ∀ e : Entities,
      (l.foldl (fun acc x => if !acc.Contains x then acc.append grow x else acc) e).Contains y
        = (e.Contains y || l.any (fun x => x.IsEqual y)) := by
  induction l with
  | nil => intro e; simp
  | cons x xs ih =>
    intro e
    rw [List.foldl_cons, ih]
    by_cases hx : e.Contains x = true
    · simp only [hx, Bool.not_true, Bool.false_eq_true, if_false, List.any_cons]
      by_cases hxy : x.IsEqual y = true
      · have : e.Contains y = true := by
          rw [Entities.Contains_iff] at hx ⊢
          obtain ⟨z, hz, hzx⟩ := hx
          exact ⟨z, hz, Entity.IsEqual_trans hzx hxy⟩
        simp [this]
      · simp [hxy]
    · simp only [hx, Bool.not_false, if_true, List.any_cons, Entities.Contains_append,
        Bool.or_assoc]

theorem Entities.Merge_Contains (grow : Nat → Nat) (e m : Entities) (y : Entity) :
    (e.Merge grow m).Contains y = (e.Contains y || m.Contains y) := by
  rw [Entities.Merge, Entities.mergeLoop_Contains]
  rfl

theorem retrieveEach_spec (grow : Nat → Nat) (r : Rect) (cs : List node)
    (ih : ∀ c ∈ cs, c.rect.Intersects r = true →
      ∃ res, c.retrieve grow r = .ok res ∧
        ∀ y, res.Contains y = (c.routed r).any (fun l => l.entities.Contains y)) :
    ∀ acc : Entities, ∃ res, retrieveEach grow r acc cs = .ok res ∧
      ∀ y, res.Contains y =
        (acc.Contains y || (routedEach r cs).any (fun l => l.entities.Contains y)) := by
  induction cs with
  | nil => intro acc; exact ⟨acc, by simp [retrieveEach], by simp [routedEach]⟩
  | cons c cs ihl =>
    intro acc
    have ihl := ihl (fun c hc => ih c (List.mem_cons_of_mem _ hc))
    by_cases hi : c.rect.Intersects r = true
    · obtain ⟨es, h1, h2⟩ := ih c (List.mem_cons_self _ _) hi
      obtain ⟨res, h3, h4⟩ := ihl (acc.Merge grow es)
      refine ⟨res, by simp [retrieveEach, hi, h1, h3], fun y => ?_⟩
      rw [h4, Entities.Merge_Contains, h2]
      simp [routedEach, hi, Bool.or_assoc]
    · obtain ⟨res, h3, h4⟩ := ihl acc
      exact ⟨res, by simp [retrieveEach, hi, h3], fun y => by rw [h4]; simp [routedEach, hi]⟩

/-- On a well-shaped tree `retrieve` does not panic for a well-formed
rectangle that intersects the root region, and the result contains exactly
what the visited leaves contain. -/
theorem node.retrieve_spec (grow : Nat → Nat) (r : Rect) (hr : r.wf = true) (n : node) :
    n.ok = true → n.rect.Intersects r = true →
      ∃ res, n.retrieve grow r = .ok res ∧
        ∀ y, res.Contains y = (n.routed r).any (fun l => l.entities.Contains y) := by
  induction n using node.induct with
  | h rect es cs d ih =>
    intro hok hi
    by_cases hc : 0 < cs.length
    · rw [node.ok_inner _ _ _ _ hc] at hok
      obtain ⟨hwf, -, hq, hcs⟩ := hok
      have hne := getQuadrant_ne_nil hq hr hi
      obtain ⟨res, h1, h2⟩ := retrieveEach_spec grow r cs
        (fun c hc hic => ih c hc (hcs c hc) hic) Entities.nil
      refine ⟨res, ?_, fun y => ?_⟩
      · simp only [node.retrieve, gt_iff_lt, hc, if_true, getQuadrant_length hne, if_false, h1]
      · rw [h2]; simp [node.routed, hc, Entities.Contains, Entities.nil]
    · exact ⟨es, by simp [node.retrieve, hc], by simp [node.routed, hc, node.entities]⟩

/-! ## Leaves -/

theorem leavesEach_mem {cs : List node} {l : node} :
    l ∈ leavesEach cs ↔ ∃ c ∈ cs, l ∈ c.leaves := by
  induction cs with
  | nil => simp [leavesEach]
  | cons c cs ih => simp [leavesEach, ih]

theorem routedEach_mem {r : Rect} {cs : List node} {l : node} :
    l ∈ routedEach r cs ↔ ∃ c ∈ cs, c.rect.Intersects r = true ∧ l ∈ c.routed r := by
  induction cs with
  | nil => simp [routedEach]
  | cons c cs ih =>
    by_cases hi : c.rect.Intersects r = true
    · simp [routedEach, hi, ih]
    · simp [routedEach, hi, ih]

/-- A leaf of a well-shaped tree is a well-shaped node without children whose
region lies inside the region of the root. -/
theorem node.leaves_ok (n : node) :
    n.ok = true → ∀ l ∈ n.leaves, l.ok = true ∧ l.children = [] ∧
      ∀ r, l.rect.Intersects r = true → n.rect.Intersects r = true := by
  induction n using node.induct with
  | h rect es cs d ih =>
    intro hok l hl
    by_cases hc : 0 < cs.length
    · have hok' := (node.ok_inner _ _ _ _ hc).1 hok
      obtain ⟨hwf, -, hq, hcs⟩ := hok'
      simp only [node.leaves, gt_iff_lt, hc, if_true, leavesEach_mem] at hl
      obtain ⟨c, hcm, hlc⟩ := hl
      obtain ⟨h1, h2, h3⟩ := ih c hcm (hcs c hcm) l hlc
      refine ⟨h1, h2, fun r hlr => ?_⟩
      have hcq : c.rect ∈ rect.quadrants := by
        rw [← hq]; exact List.mem_map_of_mem _ hcm
      exact Rect.quadrants_sub hwf hcq (h3 r hlr)
    · have hnil : cs = [] := by
        cases cs with
        | nil => rfl
        | cons a b => simp at hc
      subst hnil
      simp only [node.leaves, List.length_nil, gt_iff_lt, lt_self_iff_false, if_false,
        List.mem_singleton] at hl
      subst hl
      exact ⟨hok, rfl, fun r h => h⟩

/-- On a well-shaped tree the leaves a traversal visits are the leaves whose
region intersects the rectangle. -/
theorem node.routed_iff (r : Rect) (n : node) :
    n.ok = true → n.rect.Intersects r = true →
      ∀ l, l ∈ n.routed r ↔ l ∈ n.leaves ∧ l.rect.Intersects r = true := by
  induction n using node.induct with
  | h rect es cs d ih =>
    intro hok hi l
    by_cases hc : 0 < cs.length
    · have hok' := (node.ok_inner _ _ _ _ hc).1 hok
      obtain ⟨hwf, -, hq, hcs⟩ := hok'
      simp only [node.routed, node.leaves, gt_iff_lt, hc, if_true, leavesEach_mem,
        routedEach_mem]
      constructor
      · rintro ⟨c, hcm, hic, hlc⟩
        have := (ih c hcm (hcs c hcm) hic l).1 hlc
        exact ⟨⟨c, hcm, this.1⟩, this.2⟩
      · rintro ⟨⟨c, hcm, hlc⟩, hlr⟩
        have hic := (node.leaves_ok c (hcs c hcm) l hlc).2.2 r hlr
        exact ⟨c, hcm, hic, (ih c hcm (hcs c hcm) hic l).2 ⟨hlc, hlr⟩⟩
    · simp only [node.routed, node.leaves, gt_iff_lt, hc, if_false, List.mem_singleton]
      constructor
      · rintro rfl; exact ⟨rfl, hi⟩
      · rintro ⟨rfl, -⟩; rfl

/-! ## Split and redistribution -/

@[simp] theorem node.rect_mk (r : Rect) (es : Entities) (cs : List node) (d : Nat) :
    (node.mk r es cs d).rect = r := rfl

@[simp] theorem node.entities_mk (r : Rect) (es : Entities) (cs : List node) (d : Nat) :
    (node.mk r es cs d).entities = es := rfl

@[simp] theorem node.children_mk (r : Rect) (es : Entities) (cs : List node) (d : Nat) :
    (node.mk r es cs d).children = cs := rfl

@[simp] theorem node.depth_mk (r : Rect) (es : Entities) (cs : List node) (d : Nat) :
    (node.mk r es cs d).depth = d := rfl

theorem node.eta (n : node) : node.mk n.rect n.entities n.children n.depth = n := by
  cases n; rfl

theorem Entities.appendAll_list (grow : Nat → Nat) (xs : List Entity) :
    ∀ e : Entities, (e.appendAll grow xs).list = e.list ++ xs := by
  induction xs with
  | nil => intro e; simp [Entities.appendAll]
  | cons x xs ih =>
    intro e
    have := ih (e.append grow x)
    simp only [Entities.appendAll, List.foldl_cons] at this ⊢
    rw [this]
    simp [Entities.append]

@[simp] theorem node.receive_rect (grow : Nat → Nat) (xs : List Entity) (c : node) :
    (c.receive grow xs).rect = c.rect := rfl

@[simp] theorem node.receive_children (grow : Nat → Nat) (xs : List Entity) (c : node) :
    (c.receive grow xs).children = c.children := rfl

theorem node.receive_cons (grow : Nat → Nat) (x : Entity) (xs : List Entity) (c : node) :
    (if c.rect.Intersects x.Rect = true then
        node.mk c.rect (c.entities.append grow x) c.children c.depth
      else c).receive grow xs = c.receive grow (x :: xs) := by
  cases c with
  | mk r es cs d =>
    by_cases hi : r.Intersects x.Rect = true
    · simp [node.receive, hi, Entities.appendAll]
    · simp [node.receive, hi]

theorem node.addToQuadrant_cover (grow : Nat → Nat) (n : node) (x : Entity) (r : Rect) :
    (∃ c ∈ (n.addToQuadrant grow x).children, c.rect.Intersects r = true) ↔
      ∃ c ∈ n.children, c.rect.Intersects r = true := by
  have key : ∀ a : node, (if a.rect.Intersects x.Rect = true then
      node.mk a.rect (a.entities.append grow x) a.children a.depth else a).rect = a.rect := by
    intro a
    by_cases hi : a.rect.Intersects x.Rect = true
    · simp [hi]
    · simp [hi]
  simp only [node.addToQuadrant, node.children_mk, List.mem_map]
  constructor
  · rintro ⟨c, ⟨a, ha, rfl⟩, hc⟩
    rw [key] at hc
    exact ⟨a, ha, hc⟩
  · rintro ⟨a, ha, hc⟩
    exact ⟨_, ⟨a, ha, rfl⟩, by rw [key]; exact hc⟩

/-- The loop of `moveEntities` does not panic when every entity intersects
the region of some child, and then every child has received its share. -/
theorem moveLoop_eq (grow : Nat → Nat) (xs : List Entity) :
    ∀ n : node, (∀ x ∈ xs, ∃ c ∈ n.children, c.rect.Intersects x.Rect = true) →
      moveLoop grow xs n =
        .ok (.mk n.rect n.entities (n.children.map (node.receive grow xs)) n.depth) := by
  induction xs with
  | nil =>
    intro n _
    have : n.children.map (node.receive grow []) = n.children := by
      conv_rhs => rw [← List.map_id n.children]
      apply List.map_congr_left
      intro c _
      simp [node.receive, Entities.appendAll, node.eta]
    simp [moveLoop, this, node.eta]
  | cons x xs ih =>
    intro n h
    have hx := h x (List.mem_cons_self _ _)
    have hlen : ((n.getQuadrant x.Rect).length = 0) = False := by
      have := @getQuadrant_length n.rect n.entities n.children n.depth x.Rect hx
      rwa [node.eta] at this
    have h' : ∀ y ∈ xs, ∃ c ∈ (n.addToQuadrant grow x).children,
        c.rect.Intersects y.Rect = true :=
      fun y hy => (node.addToQuadrant_cover grow n x y.Rect).2
        (h y (List.mem_cons_of_mem _ hy))
    simp only [moveLoop, hlen, if_false]
    rw [ih _ h']
    simp only [node.addToQuadrant, node.rect_mk, node.entities_mk, node.children_mk,
      node.depth_mk, List.map_map]
    congr 2
    apply List.map_congr_left
    intro c _
    exact node.receive_cons grow x xs c

/-- What `moveEntities` returns on a node whose children are the quadrants of
its region, for entities that fit the region. -/
theorem node.moveEntities_eq (grow : Nat → Nat) (rect : Rect) (es : Entities)
    (cs : List node) (d : Nat) (xs : Entities)
    (hq : cs.map node.rect = rect.quadrants)
    (hfit : ∀ x ∈ xs.list, x.fits rect = true) :
    (node.mk rect es cs d).moveEntities grow xs =
      .ok (.mk rect ⟨[], es.cap⟩ (cs.map (node.receive grow xs.list)) d) := by
  have hcover : ∀ x ∈ xs.list,
      ∃ c ∈ (node.mk rect es cs d).children, c.rect.Intersects x.Rect = true := by
    intro x hx
    have := hfit x hx
    simp only [Entity.fits, Bool.and_eq_true] at this
    exact getQuadrant_ne_nil hq this.1 this.2
  rw [node.moveEntities, moveLoop_eq grow _ _ hcover]
  simp

theorem node.receive_ok (grow : Nat → Nat) (xs : List Entity) (c : node)
    (hc : c.ok = true) (hl : c.children = []) (hx : ∀ x ∈ xs, x.Rect.wf = true) :
    (c.receive grow xs).ok = true := by
  cases c with
  | mk rect es cs d =>
    simp only [node.children_mk] at hl
    subst hl
    rw [node.ok_leaf] at hc
    simp only [node.receive, node.rect_mk, node.entities_mk, node.children_mk, node.depth_mk]
    rw [node.ok_leaf]
    refine ⟨hc.1, fun e he => ?_⟩
    rw [Entities.appendAll_list] at he
    rcases List.mem_append.1 he with he | he
    · exact hc.2 e he
    · rw [List.mem_filter] at he
      simp [Entity.fits, hx e he.1, he.2]

theorem node.new_ok (n : node) (q : Rect) (hq : q.wf = true) : (n.new q).ok = true := by
  simp [node.new, node.ok, hq, Entities.make]

theorem node.split_leaf (rect : Rect) (es : Entities) (d : Nat) :
    ∃ cs, (node.mk rect es [] d).split = .mk rect es cs d ∧ 0 < cs.length ∧
      cs.map node.rect = rect.quadrants ∧
      ∀ a ∈ cs, a.children = [] ∧ a.entities = Entities.make es.cap ∧
        a.depth = (d + 1) % 65536 := by
  refine ⟨[(node.mk rect es [] d).new (R rect.Min.X rect.Min.Y rect.Center.X rect.Center.Y),
      (node.mk rect es [] d).new (R rect.Center.X rect.Min.Y rect.Max.X rect.Center.Y),
      (node.mk rect es [] d).new (R rect.Min.X rect.Center.Y rect.Center.X rect.Max.Y),
      (node.mk rect es [] d).new (R rect.Center.X rect.Center.Y rect.Max.X rect.Max.Y)],
    ?_, by simp, by simp [node.new, Rect.quadrants], ?_⟩
  · simp only [node.split, node.rect_mk, node.entities_mk, node.children_mk,
      node.depth_mk, List.nil_append]
  · intro a ha
    simp only [List.mem_cons, List.mem_singleton, List.mem_nil_iff, or_false] at ha
    rcases ha with rfl | rfl | rfl | rfl <;> simp [node.new]

/-- Inserting into a leaf that splits: the result is well-shaped with the
same region, every visited leaf contains the entity, and every new leaf holds
a sublist of what the old leaf held followed by the entity. -/
theorem node.insert_split (grow : Nat → Nat) (e : Entity) (rect : Rect) (es : Entities)
    (d : Nat) (hok : (node.mk rect es [] d).ok = true) (he : e.Rect.wf = true)
    (hi : rect.Intersects e.Rect = true) :
    ∃ n', (node.mk rect es [] d).split.moveEntities grow (es.append grow e) = .ok n' ∧
      InsertPost e (node.mk rect es [] d) n' := by
  rw [node.ok_leaf] at hok
  obtain ⟨hwf, hes⟩ := hok
  have hfit : ∀ x ∈ (es.append grow e).list, x.fits rect = true := by
    intro x hx
    simp only [Entities.append, List.mem_append, List.mem_singleton] at hx
    rcases hx with hx | rfl
    · exact hes x hx
    · simp [Entity.fits, he, hi]
  obtain ⟨cs, hsplit, hlen, hq, hcs⟩ := node.split_leaf rect es d
  rw [hsplit, node.moveEntities_eq grow rect es cs d _ hq hfit]
  have hlen' : 0 < (cs.map (node.receive grow (es.append grow e).list)).length := by
    simpa using hlen
  have hleaf : ∀ a ∈ cs, ∀ l, l ∈ (a.receive grow (es.append grow e).list).routed e.Rect ∨
      l ∈ (a.receive grow (es.append grow e).list).leaves →
      l = a.receive grow (es.append grow e).list := by
    intro a ha l hl
    have hal : a.children = [] := (hcs a ha).1
    cases a with
    | mk r es' cs' d' =>
      simp only [node.children_mk] at hal
      subst hal
      simpa [node.receive, node.routed, node.leaves] using hl
  refine ⟨_, rfl, ?_, rfl, ?_, ?_⟩
  · rw [node.ok_inner _ _ _ _ hlen']
    refine ⟨hwf, rfl, ?_, ?_⟩
    · rw [List.map_map, ← hq]
      apply List.map_congr_left
      intro c _
      rfl
    · intro c hc
      obtain ⟨a, ha, rfl⟩ := List.mem_map.1 hc
      have haq : a.rect ∈ rect.quadrants := by
        rw [← hq]; exact List.mem_map_of_mem _ ha
      have haok : a.ok = true := by
        have h1 := hcs a ha
        have h2 := Rect.quadrants_wf hwf haq
        cases a with
        | mk r es' cs' d' =>
          simp only [node.children_mk, node.entities_mk] at h1
          obtain ⟨rfl, rfl, -⟩ := h1
          rw [node.ok_leaf]
          exact ⟨h2, by simp [Entities.make]⟩
      exact node.receive_ok grow _ a haok (hcs a ha).1
        (fun x hx => by
          have := hfit x hx
          simp only [Entity.fits, Bool.and_eq_true] at this
          exact this.1)
  · intro l hl
    simp only [node.routed, gt_iff_lt, hlen', if_true, routedEach_mem] at hl
    obtain ⟨c, hc, hic, hlc⟩ := hl
    obtain ⟨a, ha, rfl⟩ := List.mem_map.1 hc
    have := hleaf a ha l (Or.inl hlc)
    subst this
    simp only [node.receive, node.entities_mk, Entities.Contains_iff, Entities.appendAll_list]
    refine ⟨e, ?_, Entity.IsEqual_refl e⟩
    apply List.mem_append_right
    rw [List.mem_filter]
    exact ⟨by simp [Entities.append], by simpa using hic⟩
  · intro l hl
    simp only [node.leaves, gt_iff_lt, hlen', if_true, leavesEach_mem] at hl
    obtain ⟨c, hc, hlc⟩ := hl
    obtain ⟨a, ha, rfl⟩ := List.mem_map.1 hc
    have := hleaf a ha l (Or.inr hlc)
    subst this
    refine ⟨node.mk rect es [] d, by simp [node.leaves], ?_⟩
    have hae : a.entities = Entities.make es.cap := (hcs a ha).2.1
    simp only [node.receive, node.entities_mk, Entities.appendAll_list, hae, Entities.make,
      List.nil_append]
    exact List.filter_sublist _

/-! ## Insert -/

theorem insertEach_spec (grow : Nat → Nat) (e : Entity) (md : Nat) (cs : List node)
    (ih : ∀ c ∈ cs, c.ok = true → c.rect.Intersects e.Rect = true →
      ∃ c', c.insert grow e md = .ok c' ∧ InsertPost e c c')
    (hok : ∀ c ∈ cs, c.ok = true) :
    ∃ cs', insertEach grow e md cs = .ok cs' ∧ cs'.map node.rect = cs.map node.rect ∧
      (∀ c' ∈ cs', c'.ok = true) ∧
      (∀ l ∈ routedEach e.Rect cs', l.entities.Contains e = true) ∧
      ∀ l' ∈ leavesEach cs',
        ∃ l ∈ leavesEach cs, l'.entities.list.Sublist (l.entities.list ++ [e]) := by
  induction cs with
  | nil => exact ⟨[], by simp [insertEach], rfl, by simp, by simp [routedEach],
      by simp [leavesEach]⟩
  | cons c cs ihl =>
    obtain ⟨cs', h1, h2, h3, h4, h5⟩ := ihl (fun c hc => ih c (List.mem_cons_of_mem _ hc))
      (fun c hc => hok c (List.mem_cons_of_mem _ hc))
    have hrest : ∀ l' ∈ leavesEach cs',
        ∃ l ∈ leavesEach (c :: cs), l'.entities.list.Sublist (l.entities.list ++ [e]) := by
      intro l' hl'
      obtain ⟨l, hl, hs⟩ := h5 l' hl'
      exact ⟨l, by simp only [leavesEach, List.mem_append]; exact Or.inr hl, hs⟩
    by_cases hi : c.rect.Intersects e.Rect = true
    · obtain ⟨c', g1, g⟩ :=
        ih c (List.mem_cons_self _ _) (hok c (List.mem_cons_self _ _)) hi
      refine ⟨c' :: cs', by simp [insertEach, hi, g1, h1], by simp [g.rect, h2], ?_, ?_, ?_⟩
      · intro x hx
        rcases List.mem_cons.1 hx with rfl | hx
        · exact g.ok
        · exact h3 x hx
      · intro l hl
        simp only [routedEach, g.rect, hi, if_true, List.mem_append] at hl
        rcases hl with hl | hl
        · exact g.held l hl
        · exact h4 l hl
      · intro l' hl'
        simp only [leavesEach, List.mem_append] at hl'
        rcases hl' with hl' | hl'
        · obtain ⟨l, hl, hs⟩ := g.frame l' hl'
          exact ⟨l, by simp only [leavesEach, List.mem_append]; exact Or.inl hl, hs⟩
        · exact hrest l' hl'
    · refine ⟨c :: cs', by simp [insertEach, hi, h1], by simp [h2], ?_, ?_, ?_⟩
      · intro x hx
        rcases List.mem_cons.1 hx with rfl | hx
        · exact hok _ (List.mem_cons_self _ _)
        · exact h3 x hx
      · intro l hl
        simp only [routedEach, hi, if_false] at hl
        exact h4 l hl
      · intro l' hl'
        simp only [leavesEach, List.mem_append] at hl'
        rcases hl' with hl' | hl'
        · exact ⟨l', by simp only [leavesEach, List.mem_append]; exact Or.inl hl',
            List.sublist_append_left _ _⟩
        · exact hrest l' hl'

/-- Insert on a well-shaped tree, for an entity that fits the root region:
the call does not panic, the result is well-shaped with the same region,
every leaf a traversal for the entity visits contains it, and every leaf
holds a sublist of what an old leaf held followed by the entity. -/
theorem node.insert_spec (grow : Nat → Nat) (e : Entity) (md : Nat)
    (he : e.Rect.wf = true) (n : node) :
    n.ok = true → n.rect.Intersects e.Rect = true →
      ∃ n', n.insert grow e md = .ok n' ∧ InsertPost e n n' := by
  induction n using node.induct with
  | h rect es cs d ih =>
    intro hok hi
    by_cases hc : 0 < cs.length
    · have hok' := (node.ok_inner _ _ _ _ hc).1 hok
      obtain ⟨hwf, hnil, hq, hcs⟩ := hok'
      have hne := getQuadrant_ne_nil hq he hi
      obtain ⟨cs', h1, h2, h3, h4, h5⟩ := insertEach_spec grow e md cs
        (fun c hc hcok hic => ih c hc hcok hic) hcs
      have hc' : 0 < cs'.length := by
        have := congrArg List.length h2
        simp only [List.length_map] at this
        omega
      refine ⟨.mk rect es cs' d, ?_, ?_, rfl, ?_, ?_⟩
      · simp only [node.insert, gt_iff_lt, hc, if_true, getQuadrant_length hne, if_false, h1]
      · rw [node.ok_inner _ _ _ _ hc']
        exact ⟨hwf, hnil, h2.trans hq, h3⟩
      · intro l hl
        simp only [node.routed, gt_iff_lt, hc', if_true] at hl
        exact h4 l hl
      · intro l hl
        simp only [node.leaves, gt_iff_lt, hc', if_true] at hl
        simp only [node.leaves, gt_iff_lt, hc, if_true]
        exact h5 l hl
    · have hnil : cs = [] := by
        cases cs with
        | nil => rfl
        | cons a b => simp at hc
      subst hnil
      by_cases hs : es.list.length + 1 > es.cap ∧ d < md
      · obtain ⟨n', g1, g⟩ := node.insert_split grow e rect es d hok he hi
        exact ⟨n', by simp only [node.insert, List.length_nil, gt_iff_lt, lt_self_iff_false,
          if_false, hs, and_self, if_true, g1], g⟩
      · refine ⟨.mk rect (es.append grow e) [] d, ?_, ?_, rfl, ?_, ?_⟩
        · simp only [node.insert, List.length_nil, gt_iff_lt, lt_self_iff_false, if_false]
          rw [if_neg hs]
        · rw [node.ok_leaf] at hok ⊢
          refine ⟨hok.1, fun x hx => ?_⟩
          simp only [Entities.append, List.mem_append, List.mem_singleton] at hx
          rcases hx with hx | rfl
          · exact hok.2 x hx
          · simp [Entity.fits, he]
            exact hi
        · intro l hl
          simp only [node.routed, List.length_nil, gt_iff_lt, lt_self_iff_false, if_false,
            List.mem_singleton] at hl
          subst hl
          simp [Entities.Contains_append, Entity.IsEqual_refl]
        · intro l hl
          simp only [node.leaves, List.length_nil, gt_iff_lt, lt_self_iff_false, if_false,
            List.mem_singleton] at hl
          subst hl
          exact ⟨node.mk rect es [] d, by simp [node.leaves], by simp [Entities.append]⟩

/-- In a well-shaped tree a traversal for a well-formed rectangle that
intersects the root region visits at least one leaf. -/
theorem node.routed_ne_nil (r : Rect) (hr : r.wf = true) (n : node) :
    n.ok = true → n.rect.Intersects r = true → n.routed r ≠ [] := by
  induction n using node.induct with
  | h rect es cs d ih =>
    intro hok hi
    by_cases hc : 0 < cs.length
    · have hok' := (node.ok_inner _ _ _ _ hc).1 hok
      obtain ⟨hwf, hnil, hq, hcs⟩ := hok'
      obtain ⟨c, hcm, hic⟩ := getQuadrant_ne_nil hq hr hi
      have hcr := ih c hcm (hcs c hcm) hic
      obtain ⟨l, hl⟩ := List.exists_mem_of_ne_nil _ hcr
      have : l ∈ (node.mk rect es cs d).routed r := by
        simp only [node.routed, gt_iff_lt, hc, if_true, routedEach_mem]
        exact ⟨c, hcm, hic, hl⟩
      exact List.ne_nil_of_mem this
    · simp [node.routed, hc]

/-! ## Entities.Remove and Entities.Merge -/

theorem Entities.firstMatch_none (x : Entity) (l : List Entity) :
    Entities.firstMatch x l = none ↔ l.any (fun y => y.IsEqual x) = false := by
  induction l with
  | nil => simp [Entities.firstMatch]
  | cons a t ih =>
    by_cases ha : a.IsEqual x = true
    · simp [Entities.firstMatch, ha]
    · have ha' : a.IsEqual x = false := by simpa using ha
      rw [List.any_cons, ha', Bool.false_or, ← ih]
      simp [Entities.firstMatch, ha]

theorem Entities.firstMatch_some (x : Entity) (l : List Entity) :
    ∀ i, Entities.firstMatch x l = some i →
      i < l.length ∧ l.take i ++ l.drop (i + 1) = l.eraseP (fun y => y.IsEqual x) := by
  induction l with
  | nil => intro i h; simp [Entities.firstMatch] at h
  | cons a t ih =>
    intro i h
    by_cases ha : a.IsEqual x = true
    · simp only [Entities.firstMatch, ha, if_true, Option.some.injEq] at h
      subst h
      simp [List.eraseP_cons, ha]
    · have ha' : a.IsEqual x = false := by simpa using ha
      cases hj : Entities.firstMatch x t with
      | none => simp [Entities.firstMatch, ha', hj] at h
      | some j =>
        simp only [Entities.firstMatch, ha', hj, Bool.false_eq_true, if_false,
          Option.map_some', Option.some.injEq] at h
        subst h
        obtain ⟨h1, h2⟩ := ih j hj
        refine ⟨by simp; omega, ?_⟩
        simp [List.eraseP_cons, ha, h2]

/-- `Entities.Remove` in closed form: when the list contains the entity, the
first match is erased and the capacity kept; otherwise the nil slice and
`ErrNoEntityFound`. -/
theorem Entities.Remove_eq (e : Entities) (x : Entity) :
    e.Remove x =
      if e.Contains x = true then
        (⟨e.list.eraseP (fun y => y.IsEqual x), e.cap⟩, none)
      else (Entities.nil, some ErrNoEntityFound) := by
  cases hm : Entities.firstMatch x e.list with
  | none =>
    have := (Entities.firstMatch_none x e.list).1 hm
    simp [Entities.Remove, hm, Entities.Contains, this]
  | some i =>
    obtain ⟨h1, h2⟩ := Entities.firstMatch_some x e.list i hm
    have hc : e.Contains x = true := by
      by_contra hcon
      have := (Entities.firstMatch_none x e.list).2 (by simpa [Entities.Contains] using hcon)
      rw [this] at hm
      cases hm
    simp only [Entities.Remove, hm, hc, if_true]
    by_cases hl1 : e.list.length = 1
    · have hi0 : i = 0 := by omega
      subst hi0
      have hd : e.list.drop (0 + 1) = [] := by
        apply List.drop_eq_nil_of_le; omega
      rw [hd] at h2
      simp only [hl1, if_true]
      rw [← h2]
      simp
    · by_cases hl2 : e.list.length = i + 1
      · have hd : e.list.drop (i + 1) = [] := by
          apply List.drop_eq_nil_of_le; omega
        rw [hd, List.append_nil] at h2
        rw [if_neg hl1, if_pos hl2, h2]
      · simp only [hl1, hl2, if_false, h2]

theorem List.any_eraseP_of_count_one {α : Type} (p : α → Bool) (l : List α)
    (h : (l.filter p).length = 1) : (l.eraseP p).any p = false := by
  induction l with
  | nil => simp
  | cons a t ih =>
    by_cases ha : p a = true
    · have h0 : (t.filter p).length = 0 := by
        simpa [List.filter_cons, ha] using h
      have h1 : t.filter p = [] := List.length_eq_zero.1 h0
      rw [List.eraseP_cons, ha, cond_true]
      rw [List.filter_eq_nil_iff] at h1
      rw [List.any_eq_false]
      exact h1
    · have ha' : p a = false := by simpa using ha
      have h0 : (t.filter p).length = 1 := by
        simpa [List.filter_cons, ha'] using h
      rw [List.eraseP_cons, ha', cond_false, List.any_cons, ih h0, ha']
      rfl

theorem Entities.mergeLoop_mem (grow : Nat → Nat) (y : Entity) (l : List Entity) :
    ∀ e : Entities,
      y ∈ (l.foldl (fun acc x => if !acc.Contains x then acc.append grow x else acc) e).list →
        y ∈ e.list ∨ y ∈ l := by
  induction l with
  | nil => intro e h; exact Or.inl h
  | cons x xs ih =>
    intro e h
    rw [List.foldl_cons] at h
    rcases ih _ h with h | h
    · by_cases hx : e.Contains x = true
      · simp only [hx, Bool.not_true, Bool.false_eq_true, if_false] at h
        exact Or.inl h
      · simp only [hx, Bool.not_false, if_true, Entities.append, List.mem_append,
          List.mem_singleton] at h
        rcases h with h | rfl
        · exact Or.inl h
        · exact Or.inr (List.mem_cons_self _ _)
    · exact Or.inr (List.mem_cons_of_mem _ h)

theorem Entities.Merge_mem {grow : Nat → Nat} {e m : Entities} {y : Entity}
    (h : y ∈ (e.Merge grow m).list) : y ∈ e.list ∨ y ∈ m.list :=
  Entities.mergeLoop_mem grow y m.list e h

theorem mergeChildren_Contains (grow : Nat → Nat) (y : Entity) (cs : List node) :
    ∀ e : Entities,
      (cs.foldl (fun acc c => acc.Merge grow c.entities) e).Contains y =
        (e.Contains y || cs.any (fun c => c.entities.Contains y)) := by
  induction cs with
  | nil => intro e; simp
  | cons c cs ih =>
    intro e
    rw [List.foldl_cons, ih, Entities.Merge_Contains]
    simp [Bool.or_assoc]

theorem mergeChildren_mem (grow : Nat → Nat) (y : Entity) (cs : List node) :
    ∀ e : Entities, y ∈ (cs.foldl (fun acc c => acc.Merge grow c.entities) e).list →
      y ∈ e.list ∨ ∃ c ∈ cs, y ∈ c.entities.list := by
  induction cs with
  | nil => intro e h; exact Or.inl h
  | cons c cs ih =>
    intro e h
    rw [List.foldl_cons] at h
    rcases ih _ h with h | ⟨a, ha, hy⟩
    · rcases Entities.Merge_mem h with h | h
      · exact Or.inl h
      · exact Or.inr ⟨c, List.mem_cons_self _ _, h⟩
    · exact Or.inr ⟨a, List.mem_cons_of_mem _ ha, hy⟩

theorem Entities.mergeLoop_pairwise (grow : Nat → Nat) (l : List Entity) :
    ∀ e : Entities, e.list.Pairwise (fun a b => a.IsEqual b = false) →
      (l.foldl (fun acc x => if !acc.Contains x then acc.append grow x else acc)
        e).list.Pairwise (fun a b => a.IsEqual b = false) := by
  induction l with
  | nil => intro e h; exact h
  | cons x xs ih =>
    intro e h
    rw [List.foldl_cons]
    apply ih
    by_cases hx : e.Contains x = true
    · simpa [hx] using h
    · have hx' : e.Contains x = false := by simpa using hx
      simp only [hx', Bool.not_false, if_true, Entities.append]
      rw [List.pairwise_append]
      refine ⟨h, List.pairwise_singleton _ _, fun a ha b hb => ?_⟩
      rw [List.mem_singleton] at hb
      subst hb
      simp only [Entities.Contains, List.any_eq_false] at hx'
      simpa using hx' a ha

theorem Entities.Merge_pairwise (grow : Nat → Nat) (e m : Entities)
    (h : e.list.Pairwise (fun a b => a.IsEqual b = false)) :
    (e.Merge grow m).list.Pairwise (fun a b => a.IsEqual b = false) :=
  Entities.mergeLoop_pairwise grow m.list e h

theorem mergeChildren_pairwise (grow : Nat → Nat) (cs : List node) :
    ∀ e : Entities, e.list.Pairwise (fun a b => a.IsEqual b = false) →
      (cs.foldl (fun acc c => acc.Merge grow c.entities) e).list.Pairwise
        (fun a b => a.IsEqual b = false) := by
  induction cs with
  | nil => intro e h; exact h
  | cons c cs ih =>
    intro e h
    rw [List.foldl_cons]
    exact ih _ (Entities.Merge_pairwise grow e c.entities h)

/-! ## Collapse -/

/-- In a well-shaped tree the own entity list of any node fits its region. -/
theorem node.ok_fits {n : node} (h : n.ok = true) : ∀ x ∈ n.entities.list, x.fits n.rect = true := by
  cases n with
  | mk rect es cs d =>
    by_cases hc : 0 < cs.length
    · rw [node.ok_inner _ _ _ _ hc] at h
      simp [h.2.1]
    · have hnil : cs = [] := by
        cases cs with
        | nil => rfl
        | cons a b => simp at hc
      subst hnil
      rw [node.ok_leaf] at h
      exact h.2

/-- In a well-shaped tree an entity contained in the own list of a node is
contained in the list of one of its leaves. -/
theorem node.ok_held {n : node} (h : n.ok = true) {y : Entity}
    (hy : n.entities.Contains y = true) : ∃ l ∈ n.leaves, l.entities.Contains y = true := by
  cases n with
  | mk rect es cs d =>
    by_cases hc : 0 < cs.length
    · rw [node.ok_inner _ _ _ _ hc] at h
      simp [Entities.Contains, h.2.1] at hy
    · exact ⟨_, by simp [node.leaves, hc], hy⟩

/-- In a well-shaped tree an entity in the own list of a node is in the list
of one of its leaves. -/
theorem node.ok_mem {n : node} (h : n.ok = true) {y : Entity}
    (hy : y ∈ n.entities.list) : ∃ l ∈ n.leaves, y ∈ l.entities.list := by
  cases n with
  | mk rect es cs d =>
    by_cases hc : 0 < cs.length
    · rw [node.ok_inner _ _ _ _ hc] at h
      simp [h.2.1] at hy
    · exact ⟨_, by simp [node.leaves, hc], hy⟩

/-- Collapse keeps a well-shaped node with children well-shaped, keeps its
region, cannot bring in an entity that no leaf below a child contains, and
leaves either the old leaves or one leaf without equal entities whose
entities come from the old leaves. -/
theorem node.collapse_spec (grow : Nat → Nat) (rect : Rect) (es : Entities)
    (cs : List node) (d : Nat) (hc : 0 < cs.length)
    (hok : (node.mk rect es cs d).ok = true) :
    ((node.mk rect es cs d).collapse grow).ok = true ∧
      ((node.mk rect es cs d).collapse grow).rect = rect ∧
      (∀ y, (∀ c ∈ cs, ∀ l ∈ c.leaves, l.entities.Contains y = false) →
        ∀ l ∈ ((node.mk rect es cs d).collapse grow).leaves,
          l.entities.Contains y = false) ∧
      ∀ l' ∈ ((node.mk rect es cs d).collapse grow).leaves,
        l' ∈ leavesEach cs ∨
        (l'.entities.list.Pairwise (fun a b => a.IsEqual b = false) ∧
          ∀ x ∈ l'.entities.list, ∃ l ∈ leavesEach cs, x ∈ l.entities.list) := by
  have hok' := (node.ok_inner _ _ _ _ hc).1 hok
  obtain ⟨hwf, hnil, hq, hcs⟩ := hok'
  by_cases hfit : (cs.foldl (fun acc c => acc.Merge grow c.entities)
      (Entities.make 0)).list.length ≤ es.cap
  · simp only [node.collapse, node.children_mk, node.entities_mk, node.rect_mk, node.depth_mk,
      hfit, if_true, List.take_zero]
    refine ⟨?_, trivial, ?_, ?_⟩
    · rw [node.ok_leaf]
      refine ⟨hwf, fun x hx => ?_⟩
      rcases mergeChildren_mem grow x cs _ hx with h | ⟨c, hcm, hxc⟩
      · simp [Entities.make] at h
      · have h1 := node.ok_fits (hcs c hcm) x hxc
        simp only [Entity.fits, Bool.and_eq_true] at h1 ⊢
        have hcq : c.rect ∈ rect.quadrants := by
          rw [← hq]; exact List.mem_map_of_mem _ hcm
        exact ⟨h1.1, Rect.quadrants_sub hwf hcq h1.2⟩
    · intro y hy l hl
      simp only [node.leaves, List.length_nil, gt_iff_lt, lt_self_iff_false, if_false,
        List.mem_singleton] at hl
      subst hl
      simp only [node.entities_mk, mergeChildren_Contains, Bool.or_eq_false_iff,
        List.any_eq_false]
      refine ⟨by simp [Entities.Contains, Entities.make], fun c hcm hcon => ?_⟩
      have hcon' : c.entities.Contains y = true := by simpa using hcon
      obtain ⟨l, hl, hly⟩ := node.ok_held (hcs c hcm) hcon'
      rw [hy c hcm l hl] at hly
      cases hly
    · intro l hl
      simp only [node.leaves, List.length_nil, gt_iff_lt, lt_self_iff_false, if_false,
        List.mem_singleton] at hl
      subst hl
      right
      refine ⟨mergeChildren_pairwise grow cs _ (by simp [Entities.make]), fun x hx => ?_⟩
      rcases mergeChildren_mem grow x cs _ hx with h | ⟨c, hcm, hxc⟩
      · simp [Entities.make] at h
      · obtain ⟨l, hl, hxl⟩ := node.ok_mem (hcs c hcm) hxc
        exact ⟨l, leavesEach_mem.2 ⟨c, hcm, hl⟩, hxl⟩
  · simp only [node.collapse, node.children_mk, node.entities_mk, node.rect_mk, node.depth_mk,
      hfit, if_false]
    refine ⟨hok, trivial, ?_, ?_⟩
    · intro y hy l hl
      simp only [node.leaves, gt_iff_lt, hc, if_true, leavesEach_mem] at hl
      obtain ⟨c, hcm, hlc⟩ := hl
      exact hy c hcm l hlc
    · intro l hl
      simp only [node.leaves, gt_iff_lt, hc, if_true] at hl
      exact Or.inl hl

/-! ## Remove -/

/-- In a well-shaped tree no leaf contains an entity whose bounds miss the
region of the root. -/
theorem node.not_held (e : Entity) (n : node) (hok : n.ok = true)
    (hi : n.rect.Intersects e.Rect = false) :
    ∀ l ∈ n.leaves, l.entities.Contains e = false := by
  intro l hl
  obtain ⟨h1, -, h3⟩ := node.leaves_ok n hok l hl
  by_contra hcon
  have hcon' : l.entities.Contains e = true := by simpa using hcon
  rw [Entities.Contains_iff] at hcon'
  obtain ⟨y, hy, hye⟩ := hcon'
  have hfit := node.ok_fits h1 y hy
  simp only [Entity.fits, Bool.and_eq_true] at hfit
  rw [Entity.IsEqual_rect hye] at hfit
  rw [h3 _ hfit.2] at hi
  cases hi

theorem Entities.Contains_of_count {e : Entities} {x : Entity} (h : e.count x = 1) :
    e.Contains x = true := by
  simp only [Entities.count] at h
  have : e.list.filter (fun y => y.IsEqual x) ≠ [] := by
    intro h0
    rw [h0] at h
    simp at h
  obtain ⟨y, hy⟩ := List.exists_mem_of_ne_nil _ this
  rw [List.mem_filter] at hy
  exact (Entities.Contains_iff e x).2 ⟨y, hy.1, hy.2⟩

theorem removeEach_spec (grow : Nat → Nat) (e : Entity) (cs : List node)
    (ih : ∀ c ∈ cs, c.ok = true → c.rect.Intersects e.Rect = true →
      ∃ c' r, c.remove grow e = .ok (c', r) ∧ RemovePost e c c' r)
    (hok : ∀ c ∈ cs, c.ok = true) :
    ∃ cs' r, removeEach grow e cs = .ok (cs', r) ∧
      cs'.map node.rect = cs.map node.rect ∧ (∀ c' ∈ cs', c'.ok = true) ∧
      (r = none ↔ ∀ l ∈ routedEach e.Rect cs, l.entities.Contains e = true) ∧
      (r ≠ none → r = some ErrNoEntityFound) ∧
      ((∀ l ∈ routedEach e.Rect cs, l.entities.Contains e = false) → cs' = cs) ∧
      ((∀ l ∈ routedEach e.Rect cs, l.entities.count e = 1) →
        ∀ c' ∈ cs', ∀ l ∈ c'.leaves, l.entities.Contains e = false) ∧
      ∀ l' ∈ leavesEach cs',
        (∃ l ∈ leavesEach cs, l'.entities.list.Sublist l.entities.list) ∨
        (l'.entities.list.Pairwise (fun a b => a.IsEqual b = false) ∧
          ∀ x ∈ l'.entities.list, ∃ l ∈ leavesEach cs, x ∈ l.entities.list) := by
  induction cs with
  | nil =>
    exact ⟨[], none, by simp [removeEach], rfl, by simp, by simp [routedEach], by simp,
      fun _ => rfl, by simp, by simp [leavesEach]⟩
  | cons c cs ihl =>
    obtain ⟨cs', r, h1, h2, h3, h4, h5, h6, h7, h8⟩ :=
      ihl (fun c hc => ih c (List.mem_cons_of_mem _ hc))
        (fun c hc => hok c (List.mem_cons_of_mem _ hc))
    have hcok := hok c (List.mem_cons_self _ _)
    have hkeep : ∀ l' ∈ leavesEach cs,
        (∃ l ∈ leavesEach (c :: cs), l'.entities.list.Sublist l.entities.list) ∨
        (l'.entities.list.Pairwise (fun a b => a.IsEqual b = false) ∧
          ∀ x ∈ l'.entities.list, ∃ l ∈ leavesEach (c :: cs), x ∈ l.entities.list) :=
      fun l' hl' => Or.inl ⟨l', by simp only [leavesEach, List.mem_append]; exact Or.inr hl',
        List.Sublist.refl _⟩
    have hrest : ∀ l' ∈ leavesEach cs',
        (∃ l ∈ leavesEach (c :: cs), l'.entities.list.Sublist l.entities.list) ∨
        (l'.entities.list.Pairwise (fun a b => a.IsEqual b = false) ∧
          ∀ x ∈ l'.entities.list, ∃ l ∈ leavesEach (c :: cs), x ∈ l.entities.list) := by
      intro l' hl'
      rcases h8 l' hl' with ⟨l, hl, hs⟩ | ⟨hp, hm⟩
      · exact Or.inl ⟨l, by simp only [leavesEach, List.mem_append]; exact Or.inr hl, hs⟩
      · refine Or.inr ⟨hp, fun x hx => ?_⟩
        obtain ⟨l, hl, hxl⟩ := hm x hx
        exact ⟨l, by simp only [leavesEach, List.mem_append]; exact Or.inr hl, hxl⟩
    have hfirst : ∀ c' r', RemovePost e c c' r' → ∀ l' ∈ c'.leaves,
        (∃ l ∈ leavesEach (c :: cs), l'.entities.list.Sublist l.entities.list) ∨
        (l'.entities.list.Pairwise (fun a b => a.IsEqual b = false) ∧
          ∀ x ∈ l'.entities.list, ∃ l ∈ leavesEach (c :: cs), x ∈ l.entities.list) := by
      intro c' r' g l' hl'
      rcases g.frame l' hl' with ⟨l, hl, hs⟩ | ⟨hp, hm⟩
      · exact Or.inl ⟨l, by simp only [leavesEach, List.mem_append]; exact Or.inl hl, hs⟩
      · refine Or.inr ⟨hp, fun x hx => ?_⟩
        obtain ⟨l, hl, hxl⟩ := hm x hx
        exact ⟨l, by simp only [leavesEach, List.mem_append]; exact Or.inl hl, hxl⟩
    by_cases hi : c.rect.Intersects e.Rect = true
    · obtain ⟨c', rc, g1, g⟩ := ih c (List.mem_cons_self _ _) hcok hi
      have hroute : ∀ P : node → Prop, (∀ l ∈ routedEach e.Rect (c :: cs), P l) ↔
          (∀ l ∈ c.routed e.Rect, P l) ∧ ∀ l ∈ routedEach e.Rect cs, P l := by
        intro P
        simp only [routedEach, hi, if_true, List.mem_append]
        constructor
        · intro h; exact ⟨fun l hl => h l (Or.inl hl), fun l hl => h l (Or.inr hl)⟩
        · rintro ⟨ha, hb⟩ l (hl | hl)
          · exact ha l hl
          · exact hb l hl
      cases rc with
      | some err =>
        have herr := g.err (by simp)
        have hnot : ¬ ∀ l ∈ c.routed e.Rect, l.entities.Contains e = true := by
          intro hall
          have := g.nil_iff.2 hall
          cases this
        refine ⟨c' :: cs, some err, by simp [removeEach, hi, g1], by simp [g.rect], ?_, ?_,
          fun _ => herr, ?_, ?_, ?_⟩
        · intro x hx
          rcases List.mem_cons.1 hx with rfl | hx
          · exact g.ok
          · exact hok x (List.mem_cons_of_mem _ hx)
        · rw [hroute]
          constructor
          · intro h; cases h
          · intro h; exact absurd h.1 hnot
        · intro h
          rw [hroute (fun l => l.entities.Contains e = false)] at h
          rw [g.same h.1]
        · intro h
          rw [hroute (fun l => l.entities.count e = 1)] at h
          exact absurd (fun l hl => Entities.Contains_of_count (h.1 l hl)) hnot
        · intro l' hl'
          simp only [leavesEach, List.mem_append] at hl'
          rcases hl' with hl' | hl'
          · exact hfirst c' _ g l' hl'
          · exact hkeep l' hl'
      | none =>
        have hall := g.nil_iff.1 rfl
        refine ⟨c' :: cs', r, by simp [removeEach, hi, g1, h1], by simp [g.rect, h2], ?_, ?_,
          h5, ?_, ?_, ?_⟩
        · intro x hx
          rcases List.mem_cons.1 hx with rfl | hx
          · exact g.ok
          · exact h3 x hx
        · rw [hroute, h4]
          constructor
          · intro h; exact ⟨hall, h⟩
          · intro h; exact h.2
        · intro h
          rw [hroute (fun l => l.entities.Contains e = false)] at h
          rw [g.same h.1, h6 h.2]
        · intro h x hx
          rw [hroute (fun l => l.entities.count e = 1)] at h
          rcases List.mem_cons.1 hx with rfl | hx
          · exact g.gone h.1
          · exact h7 h.2 x hx
        · intro l' hl'
          simp only [leavesEach, List.mem_append] at hl'
          rcases hl' with hl' | hl'
          · exact hfirst c' _ g l' hl'
          · exact hrest l' hl'
    · have hi' : c.rect.Intersects e.Rect = false := by simpa using hi
      have hroute : routedEach e.Rect (c :: cs) = routedEach e.Rect cs := by
        simp [routedEach, hi]
      refine ⟨c :: cs', r, by simp [removeEach, hi, h1], by simp [h2], ?_, ?_, h5, ?_, ?_, ?_⟩
      · intro x hx
        rcases List.mem_cons.1 hx with rfl | hx
        · exact hcok
        · exact h3 x hx
      · rw [hroute]; exact h4
      · rw [hroute]; intro h; rw [h6 h]
      · rw [hroute]
        intro h x hx
        rcases List.mem_cons.1 hx with rfl | hx
        · exact node.not_held e _ hcok hi'
        · exact h7 h x hx
      · intro l' hl'
        simp only [leavesEach, List.mem_append] at hl'
        rcases hl' with hl' | hl'
        · exact Or.inl ⟨l', by simp only [leavesEach, List.mem_append]; exact Or.inl hl',
            List.Sublist.refl _⟩
        · exact hrest l' hl'

/-- Remove on a well-shaped tree, for an entity that fits the root region:
the call does not panic and leaves a well-shaped tree with the same region;
it returns nil exactly when every visited leaf contains the entity; when no
visited leaf contains it the tree is untouched; when every visited leaf
contains it exactly once no leaf contains it afterwards. -/
theorem node.remove_spec (grow : Nat → Nat) (e : Entity) (he : e.Rect.wf = true) (n : node) :
    n.ok = true → n.rect.Intersects e.Rect = true →
      ∃ n' r, n.remove grow e = .ok (n', r) ∧ RemovePost e n n' r := by
  induction n using node.induct with
  | h rect es cs d ih =>
    intro hok hi
    by_cases hc : 0 < cs.length
    · have hok' := (node.ok_inner _ _ _ _ hc).1 hok
      obtain ⟨hwf, hnil, hq, hcs⟩ := hok'
      have hne := getQuadrant_ne_nil hq he hi
      obtain ⟨cs', r, h1, h2, h3, h4, h5, h6, h7, h8⟩ := removeEach_spec grow e cs
        (fun c hc hcok hic => ih c hc hcok hic) hcs
      have hc' : 0 < cs'.length := by
        have := congrArg List.length h2
        simp only [List.length_map] at this
        omega
      have hok2 : (node.mk rect es cs' d).ok = true := by
        rw [node.ok_inner _ _ _ _ hc']
        exact ⟨hwf, hnil, h2.trans hq, h3⟩
      have hrouted : (node.mk rect es cs d).routed e.Rect = routedEach e.Rect cs := by
        simp only [node.routed, gt_iff_lt, hc, if_true]
      have hleaves : (node.mk rect es cs d).leaves = leavesEach cs := by
        simp only [node.leaves, gt_iff_lt, hc, if_true]
      cases r with
      | some err =>
        refine ⟨.mk rect es cs' d, some err, ?_, hok2, rfl, ?_, h5, ?_, ?_, ?_⟩
        · simp only [node.remove, gt_iff_lt, hc, if_true, getQuadrant_length hne, if_false, h1]
        · rw [hrouted]; exact h4
        · rw [hrouted]; intro h; rw [h6 h]
        · rw [hrouted]
          intro h
          have : (some err : Option Err) = none :=
            h4.2 (fun l hl => Entities.Contains_of_count (h l hl))
          cases this
        · rw [hleaves]
          intro l' hl'
          simp only [node.leaves, gt_iff_lt, hc', if_true] at hl'
          exact h8 l' hl'
      | none =>
        obtain ⟨k1, k2, k3, k4⟩ := node.collapse_spec grow rect es cs' d hc' hok2
        refine ⟨(node.mk rect es cs' d).collapse grow, none, ?_, k1, k2, ?_, h5, ?_, ?_, ?_⟩
        · simp only [node.remove, gt_iff_lt, hc, if_true, getQuadrant_length hne, if_false, h1]
        · rw [hrouted]; exact h4
        · rw [hrouted]
          intro h
          exfalso
          obtain ⟨c, hcm, hic⟩ := hne
          have hcr := node.routed_ne_nil e.Rect he c (hcs c hcm) hic
          obtain ⟨l, hl⟩ := List.exists_mem_of_ne_nil _ hcr
          have hl' : l ∈ routedEach e.Rect cs := routedEach_mem.2 ⟨c, hcm, hic, hl⟩
          have := h4.1 rfl l hl'
          rw [h l hl'] at this
          cases this
        · rw [hrouted]
          intro h
          exact k3 e (h7 h)
        · rw [hleaves]
          intro l' hl'
          rcases k4 l' hl' with hl' | ⟨hp, hm⟩
          · exact h8 l' hl'
          · refine Or.inr ⟨hp, fun x hx => ?_⟩
            obtain ⟨l, hl, hxl⟩ := hm x hx
            rcases h8 l hl with ⟨l0, hl0, hs⟩ | ⟨-, hm0⟩
            · exact ⟨l0, hl0, hs.subset hxl⟩
            · exact hm0 x hxl
    · have hnil : cs = [] := by
        cases cs with
        | nil => rfl
        | cons a b => simp at hc
      subst hnil
      have hrouted : (node.mk rect es [] d).routed e.Rect = [node.mk rect es [] d] := by
        simp [node.routed]
      have hleaves : (node.mk rect es [] d).leaves = [node.mk rect es [] d] := by
        simp [node.leaves]
      by_cases hcon : es.Contains e = true
      · refine ⟨.mk rect ⟨es.list.eraseP (fun y => y.IsEqual e), es.cap⟩ [] d, none, ?_, ?_, rfl,
          ?_, by simp, ?_, ?_, ?_⟩
        · simp [node.remove, Entities.Remove_eq, hcon]
        · rw [node.ok_leaf] at hok ⊢
          exact ⟨hok.1, fun x hx => hok.2 x (List.mem_of_mem_eraseP hx)⟩
        · simp [hrouted, hcon]
        · rw [hrouted]
          intro h
          have := h _ (List.mem_singleton_self _)
          simp only [node.entities_mk] at this
          rw [hcon] at this
          cases this
        · rw [hrouted]
          intro h l hl
          have h1 := h _ (List.mem_singleton_self _)
          simp only [node.leaves, List.length_nil, gt_iff_lt, lt_self_iff_false, if_false,
            List.mem_singleton] at hl
          subst hl
          simp only [node.entities_mk, Entities.count] at h1
          simp only [node.entities_mk, Entities.Contains]
          exact List.any_eraseP_of_count_one _ _ h1
        · intro l' hl'
          simp only [node.leaves, List.length_nil, gt_iff_lt, lt_self_iff_false, if_false,
            List.mem_singleton] at hl'
          subst hl'
          exact Or.inl ⟨node.mk rect es [] d, by rw [hleaves]; exact List.mem_singleton_self _,
            List.eraseP_sublist _⟩
      · have hcon' : es.Contains e = false := by simpa using hcon
        refine ⟨.mk rect es [] d, some ErrNoEntityFound, ?_, hok, rfl, ?_, fun _ => rfl,
          fun _ => rfl, ?_, ?_⟩
        · simp [node.remove, Entities.Remove_eq, hcon']
        · simp [hrouted, hcon']
        · rw [hrouted]
          intro h
          have := Entities.Contains_of_count (h _ (List.mem_singleton_self _))
          simp only [node.entities_mk] at this
          rw [hcon'] at this
          cases this
        · intro l' hl'
          exact Or.inl ⟨l', hl', List.Sublist.refl _⟩

/-! ## Reachable trees are well-shaped -/

theorem New_ok (w h : ℚ) (me md : Nat) (hw : 0 ≤ w) (hh : 0 ≤ h) :
    (New w h me md).node.ok = true := by
  simp [New, node.ok, Entities.make, Rect.wf, R, hw, hh]

theorem insertAll_spec (grow : Nat → Nat) (md : Nat) (rect : Rect) (es : List Entity) :
    ∀ n : node, n.ok = true → n.rect = rect → (∀ e ∈ es, e.fits rect = true) →
      ∃ n', insertAll grow md es n = .ok n' ∧ n'.ok = true ∧ n'.rect = rect := by
  induction es with
  | nil => intro n hok hr _; exact ⟨n, rfl, hok, hr⟩
  | cons e es ih =>
    intro n hok hr hes
    have he := hes e (List.mem_cons_self _ _)
    simp only [Entity.fits, Bool.and_eq_true] at he
    obtain ⟨n1, h1, g⟩ := node.insert_spec grow e md he.1 n hok (by rw [hr]; exact he.2)
    obtain ⟨n2, g1, g2, g3⟩ := ih n1 g.ok (g.rect.trans hr)
      (fun x hx => hes x (List.mem_cons_of_mem _ hx))
    exact ⟨n2, by simp [insertAll, h1, g1], g2, g3⟩

/-- Every reachable tree is well-shaped, its root region is `(0,0,w,h)` and
its depth bound is the one given to `New`. -/
theorem Reachable.shape {grow : Nat → Nat} {w h : ℚ} {me md : Nat} {q : Quadpix}
    (hq : Reachable grow w h me md q) :
    q.node.ok = true ∧ q.node.rect = R 0 0 w h ∧ q.maxDepth = md := by
  induction hq with
  | new hw hh => exact ⟨New_ok w h me md hw hh, rfl, rfl⟩
  | @insert q q' id rect action _ ha hins ih =>
    obtain ⟨h1, h2, h3⟩ := ih
    simp only [admissible, Bool.and_eq_true] at ha
    obtain ⟨n', g1, g⟩ := node.insert_spec grow (E id rect action) q.maxDepth ha.1
      q.node h1 (by rw [h2]; exact ha.2)
    simp only [Quadpix.Insert, g1, Except.ok.injEq] at hins
    subst hins
    exact ⟨g.ok, g.rect.trans h2, h3⟩
  | @insertEntities q q' r entities _ ha hins ih =>
    obtain ⟨h1, h2, h3⟩ := ih
    by_cases hlen : entities.length = 0
    · simp only [Quadpix.InsertEntities, hlen, if_true, Except.ok.injEq, Prod.mk.injEq] at hins
      rw [← hins.1]
      exact ⟨h1, h2, h3⟩
    · obtain ⟨n', g1, g2, g3⟩ := insertAll_spec grow q.maxDepth (R 0 0 w h) entities q.node h1 h2
        (fun e he => by simpa [Entity.fits, admissible] using ha e he)
      simp only [Quadpix.InsertEntities, hlen, if_false, g1, Except.ok.injEq,
        Prod.mk.injEq] at hins
      rw [← hins.1]
      exact ⟨g2, g3, h3⟩
  | @remove q q' r entity _ ha hrem ih =>
    obtain ⟨h1, h2, h3⟩ := ih
    simp only [admissible, Bool.and_eq_true] at ha
    obtain ⟨n', r', g1, g⟩ := node.remove_spec grow entity ha.1 q.node h1
      (by rw [h2]; exact ha.2)
    simp only [Quadpix.Remove, g1, Except.ok.injEq, Prod.mk.injEq] at hrem
    rw [← hrem.1]
    exact ⟨g.ok, g.rect.trans h2, h3⟩

/-- On a well-shaped tree, when every leaf visited for a fitting entity
contains it, `isEntity` answers true. -/
theorem node.isEntity_of_held (e : Entity) (he : e.Rect.wf = true) (n : node)
    (hok : n.ok = true) (hi : n.rect.Intersects e.Rect = true)
    (h : ∀ l ∈ n.routed e.Rect, l.entities.Contains e = true) :
    n.isEntity e = .ok true := by
  rw [node.isEntity_eq e he n hok hi]
  obtain ⟨l, hl⟩ := List.exists_mem_of_ne_nil _ (node.routed_ne_nil e.Rect he n hok hi)
  have : (n.routed e.Rect).any (fun l => l.entities.Contains e) = true :=
    List.any_eq_true.2 ⟨l, hl, h l hl⟩
  rw [this]

/-! ## Claims -/

/-- C1: on every tree reachable from `New(w,h,maxEntities,maxDepth)`, for
every entity with well-formed bounds that intersect the root region, both
`InsertEntities(E)` and `Insert` of its bounds complete without panic and
without error, and `IsEntity(E)` is true afterwards. -/
theorem C1_insert_then_isEntity (grow : Nat → Nat) (w h : ℚ) (me md : Nat) (q : Quadpix)
    (hq : Reachable grow w h me md q) (e : Entity) (he : admissible w h e = true) :
    (∃ q', q.InsertEntities grow [e] = .ok (q', none) ∧ q'.IsEntity e = .ok true) ∧
    (∃ q', q.Insert grow e.ID e.Rect e.Actions = .ok q' ∧ q'.IsEntity e = .ok true) := by
  obtain ⟨h1, h2, -⟩ := hq.shape
  simp only [admissible, Bool.and_eq_true] at he
  obtain ⟨n', g1, g⟩ := node.insert_spec grow e q.maxDepth he.1 q.node h1
    (by rw [h2]; exact he.2)
  have hent : n'.isEntity e = .ok true :=
    node.isEntity_of_held e he.1 n' g.ok (by rw [g.rect, h2]; exact he.2) g.held
  refine ⟨⟨⟨n', q.maxDepth⟩, ?_, hent⟩, ⟨⟨n', q.maxDepth⟩, ?_, hent⟩⟩
  · simp [Quadpix.InsertEntities, insertAll, g1]
  · have : E e.ID e.Rect e.Actions = e := rfl
    simp [Quadpix.Insert, this, g1]

theorem splitTree2_reachable : Reachable goGrow 800 600 2 4 splitTree2 :=
  Reachable.insertEntities [s1, s2] (Reachable.new (by norm_num) (by norm_num))
    (by decide!) (r := none) (by decide!)

/-- Witness of C1: the third insert of the test `insert with a split`, which
splits the root. -/
theorem C1_witness :
    (∃ q', splitTree2.InsertEntities goGrow [s3] = .ok (q', none) ∧
      q'.IsEntity s3 = .ok true) ∧
    (∃ q', splitTree2.Insert goGrow s3.ID s3.Rect s3.Actions = .ok q' ∧
      q'.IsEntity s3 = .ok true) :=
  C1_insert_then_isEntity goGrow 800 600 2 4 splitTree2 splitTree2_reachable s3 (by decide!)

theorem dupTree_reachable : Reachable goGrow 800 600 10 4 dupTree :=
  Reachable.insertEntities [dup, dup] (Reachable.new (by norm_num) (by norm_num))
    (by decide!) (r := none) (by decide!)

/-- C2, counterexample: after `InsertEntities(dup, dup)` on
`New(800,600,10,4)` the entity `dup` is in the tree, `Remove(dup)` returns nil,
and `IsEntity(dup)` is still true. -/
theorem C2_counterexample :
    Reachable goGrow 800 600 10 4 dupTree ∧ admissible 800 600 dup = true ∧
      dupTree.IsEntity dup = .ok true ∧
      ∃ q', dupTree.Remove goGrow dup = .ok (q', none) ∧ q'.IsEntity dup = .ok true :=
  ⟨dupTree_reachable, by decide!, by decide!,
    dupTree.after (dupTree.Remove goGrow dup), by decide!, by decide!⟩

/-- C2, amended: on every reachable tree, for every admissible entity `E` such
that every leaf whose region intersects the bounds of `E` holds exactly one
entity equal to `E`: `IsEntity(E)` is true, `Remove(E)` returns nil without
panic, and `IsEntity(E)` is false afterwards. -/
theorem C2_remove_then_absent (grow : Nat → Nat) (w h : ℚ) (me md : Nat) (q : Quadpix)
    (hq : Reachable grow w h me md q) (e : Entity) (he : admissible w h e = true)
    (hheld : ∀ l ∈ q.node.leaves, l.rect.Intersects e.Rect = true →
      l.entities.count e = 1) :
    q.IsEntity e = .ok true ∧
      ∃ q', q.Remove grow e = .ok (q', none) ∧ q'.IsEntity e = .ok false := by
  obtain ⟨h1, h2, -⟩ := hq.shape
  simp only [admissible, Bool.and_eq_true] at he
  have hi : q.node.rect.Intersects e.Rect = true := by rw [h2]; exact he.2
  have hcount : ∀ l ∈ q.node.routed e.Rect, l.entities.count e = 1 := by
    intro l hl
    have := (node.routed_iff e.Rect q.node h1 hi l).1 hl
    exact hheld l this.1 this.2
  obtain ⟨n', r, g1, g⟩ := node.remove_spec grow e he.1 q.node h1 hi
  have hr : r = none := g.nil_iff.2 (fun l hl => Entities.Contains_of_count (hcount l hl))
  subst hr
  refine ⟨node.isEntity_of_held e he.1 q.node h1 hi
    (fun l hl => Entities.Contains_of_count (hcount l hl)), ⟨n', q.maxDepth⟩, ?_, ?_⟩
  · simp [Quadpix.Remove, g1]
  · have hi' : n'.rect.Intersects e.Rect = true := by rw [g.rect]; exact hi
    simp only [Quadpix.IsEntity]
    rw [node.isEntity_eq e he.1 n' g.ok hi']
    have : (n'.routed e.Rect).any (fun l => l.entities.Contains e) = false := by
      rw [List.any_eq_false]
      intro l hl
      have hl' := (node.routed_iff e.Rect n' g.ok hi' l).1 hl
      simp [g.gone hcount l hl'.1]
    rw [this]

theorem straddleTree_reachable : Reachable goGrow 800 600 1 4 straddleTree :=
  Reachable.insertEntities [s1, mid] (Reachable.new (by norm_num) (by norm_num))
    (by decide!) (r := none) (by decide!)

/-- Witness of C2 (amended): removing the entity `mid`, which all four leaves
of `straddleTree` hold once. -/
theorem C2_witness :
    straddleTree.IsEntity mid = .ok true ∧
      ∃ q', straddleTree.Remove goGrow mid = .ok (q', none) ∧ q'.IsEntity mid = .ok false :=
  C2_remove_then_absent goGrow 800 600 1 4 straddleTree straddleTree_reachable mid
    (by decide!) (by decide!)

theorem deepTree_reachable : Reachable goGrow 160 160 1 3 deepTree :=
  Reachable.insertEntities [k1, k2, k3, k4] (Reachable.new (by norm_num) (by norm_num))
    (by decide!) (r := none) (by decide!)

theorem lostTree_reachable : Reachable goGrow 160 160 1 3 lostTree :=
  Reachable.remove k3 deepTree_reachable (by decide!) (r := none) (by decide!)

/-- C3, the code at the failing input: in `deepTree` the bottom-left child of
the root has four children, one of which has children of its own, and `k4` is
in the tree. `Remove(k3)` returns nil; afterwards that child is a leaf with an
empty entity list and `IsEntity(k4)` is false, although `k4` is not equal to
`k3`. -/
theorem C3_collapse_drops_grandchildren :
    Reachable goGrow 160 160 1 3 deepTree ∧
      deepTree.node.children.map (fun c => (c.children.length, c.entities.list.length)) =
        [(4, 0), (0, 1), (0, 0), (0, 1)] ∧
      deepTree.IsEntity k4 = .ok true ∧ k4.IsEqual k3 = false ∧
      deepTree.Remove goGrow k3 = .ok (lostTree, none) ∧
      lostTree.node.children.map (fun c => (c.children.length, c.entities.list.length)) =
        [(0, 0), (0, 1), (0, 0), (0, 1)] ∧
      lostTree.IsEntity k4 = .ok false :=
  ⟨deepTree_reachable, by decide!, by decide!, by decide!, by decide!, by decide!, by decide!⟩

/-- C4, the code at the failing input: in `lostTree` the entity `k1` is in the
tree (`IsEntity` is true, a leaf holds it), `probe` is a well-formed rectangle
that intersects the root region and the bounds of `k1`, and `Retrieve(probe)`
returns a list that does not contain `k1`. -/
theorem C4_retrieve_misses_overlapping :
    Reachable goGrow 160 160 1 3 lostTree ∧ lostTree.IsEntity k1 = .ok true ∧
      lostTree.node.leaves.any (fun l => l.entities.Contains k1) = true ∧
      probe.wf = true ∧ lostTree.node.rect.Intersects probe = true ∧
      k1.Rect.Intersects probe = true ∧
      ∃ res, lostTree.Retrieve goGrow probe = .ok res ∧ res.Contains k1 = false :=
  ⟨lostTree_reachable, by decide!, by decide!, by decide!, by decide!, by decide!,
    Entities.make 0, by decide!, by decide!⟩

/-- C5, the code at the failing input: in `lostTree` the entity `k1` is held by
a leaf and its bounds intersect `probe`, yet `Intersects(probe)` returns the
empty list. -/
theorem C5_intersects_misses_overlapping :
    Reachable goGrow 160 160 1 3 lostTree ∧
      lostTree.node.leaves.any (fun l => l.entities.Contains k1) = true ∧
      probe.wf = true ∧ lostTree.node.rect.Intersects probe = true ∧
      k1.Intersects probe = true ∧
      ∃ res, lostTree.Intersects goGrow probe = .ok res ∧ res.list = [] :=
  ⟨lostTree_reachable, by decide!, by decide!, by decide!, by decide!,
    Entities.nil, by decide!, by decide!⟩

/-- C6, the code at the failing input: in `lostTree` the entity `k1` is held by
a leaf and its bounds intersect `probe`, yet `Intersect(probe)` returns
false. -/
theorem C6_intersect_misses_overlapping :
    Reachable goGrow 160 160 1 3 lostTree ∧
      lostTree.node.leaves.any (fun l => l.entities.Contains k1) = true ∧
      probe.wf = true ∧ lostTree.node.rect.Intersects probe = true ∧
      k1.Intersects probe = true ∧ lostTree.Intersect probe = .ok false :=
  ⟨lostTree_reachable, by decide!, by decide!, by decide!, by decide!, by decide!⟩

/-- The scenario of C4 holds on the code: after inserting the three rectangles
of the test `insert with a split` into `New(800,600,2,4)`, `Retrieve` of the
third rectangle contains all three. -/
theorem C4_scenario :
    ∃ q res, splitTree2.InsertEntities goGrow [s3] = .ok (q, none) ∧
      q.Retrieve goGrow s3.Rect = .ok res ∧
      res.Contains s1 = true ∧ res.Contains s2 = true ∧ res.Contains s3 = true :=
  ⟨splitTree2.after (splitTree2.InsertEntities goGrow [s3]),
    ⟨[s1, s2, s3], 4⟩, by decide!, by decide!, by decide!, by decide!, by decide!⟩

/-- The scenario of C6 holds on the code: with one entity at `(0,0,50,50)` in
`New(800,600,10,4)`, `Intersect` is false for `(60,60,70,70)` and true for
`(5,5,10,10)`. -/
theorem C6_scenario :
    oneTree.Intersect (R 60 60 70 70) = .ok false ∧
      oneTree.Intersect (R 5 5 10 10) = .ok true :=
  ⟨by decide!, by decide!⟩

theorem oneTree_reachable : Reachable goGrow 800 600 10 4 oneTree :=
  Reachable.insertEntities [s1] (Reachable.new (by norm_num) (by norm_num))
    (by decide!) (r := none) (by decide!)

/-- C8, counterexample: `oneTree` is a single root leaf of region
`(0,0,800,600)` holding `s1`; the rectangle `far` intersects the region of no
leaf, yet `retrieve(far)` returns a list that contains `s1`. -/
theorem C8_counterexample :
    Reachable goGrow 800 600 10 4 oneTree ∧
      oneTree.node.leaves.any (fun l => l.rect.Intersects far) = false ∧
      ∃ res, oneTree.node.retrieve goGrow far = .ok res ∧ res.Contains s1 = true :=
  ⟨oneTree_reachable, by decide!, ⟨[s1], 10⟩, by decide!, by decide!⟩

/-- C8, amended: for every well-shaped tree (every reachable tree is one) and
every well-formed rectangle `r` that intersects the root region, `retrieve(r)`
returns a list, and an entity is contained in it if and only if it is
contained in the list of some leaf whose region intersects `r`. -/
theorem C8_retrieve_exact (grow : Nat → Nat) (n : node) (r : Rect)
    (hok : n.ok = true) (hr : r.wf = true) (hi : n.rect.Intersects r = true) :
    ∃ res, n.retrieve grow r = .ok res ∧
      ∀ e, res.Contains e = true ↔
        ∃ l ∈ n.leaves, l.rect.Intersects r = true ∧ l.entities.Contains e = true := by
  obtain ⟨res, h1, h2⟩ := node.retrieve_spec grow r hr n hok hi
  refine ⟨res, h1, fun e => ?_⟩
  rw [h2 e, List.any_eq_true]
  constructor
  · rintro ⟨l, hl, hc⟩
    have := (node.routed_iff r n hok hi l).1 hl
    exact ⟨l, this.1, this.2, hc⟩
  · rintro ⟨l, hl, hlr, hc⟩
    exact ⟨l, (node.routed_iff r n hok hi l).2 ⟨hl, hlr⟩, hc⟩

/-- Witness of C8 (amended): `retrieve(probe)` on the tree `deepTree`, whose
root has split three levels deep. -/
theorem C8_witness :
    ∃ res, deepTree.node.retrieve goGrow probe = .ok res ∧
      ∀ e, res.Contains e = true ↔
        ∃ l ∈ deepTree.node.leaves,
          l.rect.Intersects probe = true ∧ l.entities.Contains e = true :=
  C8_retrieve_exact goGrow deepTree.node probe (by decide!) (by decide!) (by decide!)

/-- C9: on every well-shaped tree (every reachable tree is one) in which no
leaf holds an entity equal to `E`, for `E` with well-formed bounds that
intersect the root region, `Remove(E)` returns `ErrNoEntityFound` and leaves
exactly the tree it was given. -/
theorem C9_remove_absent (grow : Nat → Nat) (q : Quadpix) (e : Entity)
    (hok : q.node.ok = true) (he : e.Rect.wf = true)
    (hi : q.node.rect.Intersects e.Rect = true)
    (habs : ∀ l ∈ q.node.leaves, l.entities.Contains e = false) :
    q.Remove grow e = .ok (q, some ErrNoEntityFound) := by
  obtain ⟨n', r, g1, g⟩ := node.remove_spec grow e he q.node hok hi
  have hrouted : ∀ l ∈ q.node.routed e.Rect, l.entities.Contains e = false :=
    fun l hl => habs l ((node.routed_iff e.Rect q.node hok hi l).1 hl).1
  have hsame : n' = q.node := g.same hrouted
  have hr : r = some ErrNoEntityFound := by
    apply g.err
    intro hnone
    obtain ⟨l, hl⟩ := List.exists_mem_of_ne_nil _ (node.routed_ne_nil e.Rect he q.node hok hi)
    have := g.nil_iff.1 hnone l hl
    rw [hrouted l hl] at this
    cases this
  subst hsame hr
  simp [Quadpix.Remove, g1]

/-- Witness of C9: `Remove(s1)` on `deepTree`, which does not hold `s1`. -/
theorem C9_witness : deepTree.Remove goGrow s1 = .ok (deepTree, some ErrNoEntityFound) :=
  C9_remove_absent goGrow deepTree s1 (by decide!) (by decide!) (by decide!) (by decide!)

/-- C10, counterexample: in `lostTree` the bounds of `k1` route to two leaves,
of which the second holds `k1` and the first does not; `Remove(k1)` returns
`ErrNoEntityFound`, the tree is unchanged and still holds `k1`. -/
theorem C10_counterexample :
    Reachable goGrow 160 160 1 3 lostTree ∧
      (lostTree.node.routed k1.Rect).map (fun l => l.entities.Contains k1) = [false, true] ∧
      lostTree.Remove goGrow k1 = .ok (lostTree, some ErrNoEntityFound) ∧
      lostTree.IsEntity k1 = .ok true :=
  ⟨lostTree_reachable, by decide!, by decide!, by decide!⟩

/-- C10, amended: on every well-shaped tree (every reachable tree is one), for
`E` with well-formed bounds that intersect the root region, `Remove(E)`
returns without panic; it returns nil if and only if every leaf whose region
intersects the bounds of `E` holds `E`, and otherwise `ErrNoEntityFound`, also
when some of these leaves hold `E`. -/
theorem C10_remove_all_or_error (grow : Nat → Nat) (q : Quadpix) (e : Entity)
    (hok : q.node.ok = true) (he : e.Rect.wf = true)
    (hi : q.node.rect.Intersects e.Rect = true) :
    ∃ q' r, q.Remove grow e = .ok (q', r) ∧
      (r = none ↔
        ∀ l ∈ q.node.leaves, l.rect.Intersects e.Rect = true →
          l.entities.Contains e = true) ∧
      (r ≠ none → r = some ErrNoEntityFound) := by
  obtain ⟨n', r, g1, g⟩ := node.remove_spec grow e he q.node hok hi
  refine ⟨⟨n', q.maxDepth⟩, r, by simp [Quadpix.Remove, g1], ?_, g.err⟩
  rw [g.nil_iff]
  constructor
  · intro h l hl hlr
    exact h l ((node.routed_iff e.Rect q.node hok hi l).2 ⟨hl, hlr⟩)
  · intro h l hl
    have := (node.routed_iff e.Rect q.node hok hi l).1 hl
    exact h l this.1 this.2

/-- Witness of C10 (amended): `Remove(k1)` on `lostTree`. -/
theorem C10_witness :
    ∃ q' r, lostTree.Remove goGrow k1 = .ok (q', r) ∧
      (r = none ↔
        ∀ l ∈ lostTree.node.leaves, l.rect.Intersects k1.Rect = true →
          l.entities.Contains k1 = true) ∧
      (r ≠ none → r = some ErrNoEntityFound) :=
  C10_remove_all_or_error goGrow lostTree k1 (by decide!) (by decide!) (by decide!)

/-! ## Entities that every leaf in reach holds -/

theorem Rect.quadrants_cover2 {rect r s : Rect} (hr : r.wf = true) (hs : s.wf = true)
    (h1 : rect.Intersects r = true) (h2 : rect.Intersects s = true)
    (h3 : r.Intersects s = true) :
    ∃ q ∈ rect.quadrants, q.Intersects r = true ∧ q.Intersects s = true := by
  rw [Rect.wf_iff] at hr hs
  rw [Rect.Intersects_iff] at h1 h2 h3
  obtain ⟨rx, ry⟩ := hr
  obtain ⟨sx, sy⟩ := hs
  obtain ⟨a1, a2, a3, a4⟩ := h1
  obtain ⟨b1, b2, b3, b4⟩ := h2
  obtain ⟨c1, c2, c3, c4⟩ := h3
  by_cases cx : r.Min.X ≤ rect.Center.X ∧ s.Min.X ≤ rect.Center.X <;>
    by_cases cy : r.Min.Y ≤ rect.Center.Y ∧ s.Min.Y ≤ rect.Center.Y
  · refine ⟨R rect.Min.X rect.Min.Y rect.Center.X rect.Center.Y, by simp [Rect.quadrants], ?_, ?_⟩
    · rw [Rect.Intersects_iff]; simp only [R]; exact ⟨a1, cx.1, a3, cy.1⟩
    · rw [Rect.Intersects_iff]; simp only [R]; exact ⟨b1, cx.2, b3, cy.2⟩
  · have hy : rect.Center.Y ≤ r.Max.Y ∧ rect.Center.Y ≤ s.Max.Y := by
      rw [not_and_or, not_le, not_le] at cy
      rcases cy with cy | cy <;> constructor <;> linarith
    refine ⟨R rect.Min.X rect.Center.Y rect.Center.X rect.Max.Y, by simp [Rect.quadrants], ?_, ?_⟩
    · rw [Rect.Intersects_iff]; simp only [R]; exact ⟨a1, cx.1, hy.1, a4⟩
    · rw [Rect.Intersects_iff]; simp only [R]; exact ⟨b1, cx.2, hy.2, b4⟩
  · have hx : rect.Center.X ≤ r.Max.X ∧ rect.Center.X ≤ s.Max.X := by
      rw [not_and_or, not_le, not_le] at cx
      rcases cx with cx | cx <;> constructor <;> linarith
    refine ⟨R rect.Center.X rect.Min.Y rect.Max.X rect.Center.Y, by simp [Rect.quadrants], ?_, ?_⟩
    · rw [Rect.Intersects_iff]; simp only [R]; exact ⟨hx.1, a2, a3, cy.1⟩
    · rw [Rect.Intersects_iff]; simp only [R]; exact ⟨hx.2, b2, b3, cy.2⟩
  · have hx : rect.Center.X ≤ r.Max.X ∧ rect.Center.X ≤ s.Max.X := by
      rw [not_and_or, not_le, not_le] at cx
      rcases cx with cx | cx <;> constructor <;> linarith
    have hy : rect.Center.Y ≤ r.Max.Y ∧ rect.Center.Y ≤ s.Max.Y := by
      rw [not_and_or, not_le, not_le] at cy
      rcases cy with cy | cy <;> constructor <;> linarith
    refine ⟨R rect.Center.X rect.Center.Y rect.Max.X rect.Max.Y, by simp [Rect.quadrants], ?_, ?_⟩
    · rw [Rect.Intersects_iff]; simp only [R]; exact ⟨hx.1, a2, hy.1, a4⟩
    · rw [Rect.Intersects_iff]; simp only [R]; exact ⟨hx.2, b2, hy.2, b4⟩

/-- In a well-shaped tree two well-formed rectangles that intersect each other
and the root region both intersect the region of some leaf. -/
theorem node.common_leaf (r s : Rect) (hr : r.wf = true) (hs : s.wf = true)
    (hrs : r.Intersects s = true) (n : node) :
    n.ok = true → n.rect.Intersects r = true → n.rect.Intersects s = true →
      ∃ l ∈ n.leaves, l.rect.Intersects r = true ∧ l.rect.Intersects s = true := by
  induction n using node.induct with
  | h rect es cs d ih =>
    intro hok h1 h2
    by_cases hc : 0 < cs.length
    · have hok' := (node.ok_inner _ _ _ _ hc).1 hok
      obtain ⟨hwf, -, hq, hcs⟩ := hok'
      obtain ⟨q, hqm, hq1, hq2⟩ := Rect.quadrants_cover2 hr hs h1 h2 hrs
      rw [node.rect_mk, ← hq] at hqm
      obtain ⟨c, hcm, rfl⟩ := List.mem_map.1 hqm
      obtain ⟨l, hl, hl1, hl2⟩ := ih c hcm (hcs c hcm) hq1 hq2
      refine ⟨l, ?_, hl1, hl2⟩
      simp only [node.leaves, gt_iff_lt, hc, if_true]
      exact leavesEach_mem.2 ⟨c, hcm, hl⟩
    · exact ⟨_, by simp [node.leaves, hc], h1, h2⟩

/-- On a well-shaped tree, an entity that every leaf in reach of its bounds
holds is contained in what `retrieve(r)` returns for every well-formed `r`
that intersects its bounds and the root region. -/
theorem node.retrieve_held (grow : Nat → Nat) (n : node) (r : Rect) (e : Entity)
    (hok : n.ok = true) (hr : r.wf = true) (hi : n.rect.Intersects r = true)
    (he : e.Rect.wf = true) (hie : n.rect.Intersects e.Rect = true)
    (hre : e.Rect.Intersects r = true)
    (hheld : ∀ l ∈ n.leaves, l.rect.Intersects e.Rect = true →
      l.entities.Contains e = true) :
    ∃ res, n.retrieve grow r = .ok res ∧ res.Contains e = true := by
  obtain ⟨res, h1, h2⟩ := node.retrieve_spec grow r hr n hok hi
  refine ⟨res, h1, ?_⟩
  obtain ⟨l, hl, hl1, hl2⟩ := node.common_leaf e.Rect r he hr hre n hok hie hi
  rw [h2 e, List.any_eq_true]
  exact ⟨l, (node.routed_iff r n hok hi l).2 ⟨hl, hl2⟩, hheld l hl hl1⟩

/-! ## No two equal entities -/

theorem Entities.count_of_pairwise (e : Entities) (x : Entity)
    (hp : e.list.Pairwise (fun a b => a.IsEqual b = false)) (hc : e.Contains x = true) :
    e.count x = 1 := by
  cases e with
  | mk l cap =>
    simp only [Entities.count, Entities.Contains] at hc ⊢
    induction l with
    | nil => simp at hc
    | cons a t ih =>
      rw [List.pairwise_cons] at hp
      by_cases ha : a.IsEqual x = true
      · have : t.filter (fun y => y.IsEqual x) = [] := by
          rw [List.filter_eq_nil_iff]
          intro b hb hbx
          have := hp.1 b hb
          rw [Entity.IsEqual_trans ha (Entity.IsEqual_symm hbx)] at this
          cases this
        simp [List.filter_cons, ha, this]
      · have ha' : a.IsEqual x = false := by simpa using ha
        rw [List.any_cons, ha', Bool.false_or] at hc
        simp only [List.filter_cons, ha', Bool.false_eq_true, if_false]
        exact ih hp.2 hc

theorem Entities.Intersects_list (grow : Nat → Nat) (e : Entities) (r : Rect) :
    (e.Intersects grow r).list = e.list.filter (fun x => x.Intersects r) := by
  have key : ∀ (l : List Entity) (acc : Entities),
      (l.foldl (fun acc x => if x.Intersects r then acc.append grow x else acc) acc).list =
        acc.list ++ l.filter (fun x => x.Intersects r) := by
    intro l
    induction l with
    | nil => intro acc; simp
    | cons a t ih =>
      intro acc
      rw [List.foldl_cons, ih]
      by_cases ha : a.Intersects r = true
      · simp [ha, Entities.append]
      · simp [ha]
  rw [Entities.Intersects, key]
  simp [Entities.nil]

theorem retrieveEach_pairwise (grow : Nat → Nat) (r : Rect) (cs : List node) :
    ∀ acc res, acc.list.Pairwise (fun a b => a.IsEqual b = false) →
      retrieveEach grow r acc cs = .ok res →
      res.list.Pairwise (fun a b => a.IsEqual b = false) := by
  induction cs with
  | nil =>
    intro acc res h hres
    simp only [retrieveEach, Except.ok.injEq] at hres
    rw [← hres]; exact h
  | cons c cs ih =>
    intro acc res h hres
    by_cases hi : c.rect.Intersects r = true
    · simp only [retrieveEach, hi, if_true] at hres
      cases hc : node.retrieve grow r c with
      | error p => rw [hc] at hres; cases hres
      | ok es =>
        rw [hc] at hres
        exact ih _ res (Entities.Merge_pairwise grow acc es h) hres
    · simp only [retrieveEach, hi, if_false] at hres
      exact ih acc res h hres

/-- Whatever `retrieve` returns holds no two equal entities, provided no leaf
of the tree does. -/
theorem node.retrieve_pairwise (grow : Nat → Nat) (r : Rect) (n : node) (res : Entities)
    (hl : ∀ l ∈ n.leaves, l.entities.list.Pairwise (fun a b => a.IsEqual b = false))
    (hres : n.retrieve grow r = .ok res) :
    res.list.Pairwise (fun a b => a.IsEqual b = false) := by
  cases n with
  | mk rect es cs d =>
    by_cases hc : 0 < cs.length
    · simp only [node.retrieve, gt_iff_lt, hc, if_true] at hres
      by_cases hq : ((node.mk rect es cs d).getQuadrant r).length = 0
      · rw [if_pos hq] at hres; cases hres
      · rw [if_neg hq] at hres
        exact retrieveEach_pairwise grow r cs _ res (by simp [Entities.nil]) hres
    · simp only [node.retrieve, gt_iff_lt, hc, if_false, Except.ok.injEq] at hres
      rw [← hres]
      exact hl (node.mk rect es cs d) (by simp [node.leaves, hc])

theorem Entity.IsEqual_false_symm {a b : Entity} (h : a.IsEqual b = false) :
    b.IsEqual a = false := by
  by_contra hcon
  have hcon' : b.IsEqual a = true := by simpa using hcon
  rw [Entity.IsEqual_symm hcon'] at h
  cases h

theorem node.insert_distinct (grow : Nat → Nat) (e : Entity) (md : Nat) (S : List Entity)
    (n n' : node) (he : e.Rect.wf = true) (hok : n.ok = true)
    (hi : n.rect.Intersects e.Rect = true) (hS : n.distinctWithin S)
    (hnew : ∀ x ∈ S, x.IsEqual e = false) (hins : n.insert grow e md = .ok n') :
    n'.ok = true ∧ n'.rect = n.rect ∧ n'.distinctWithin (e :: S) := by
  obtain ⟨n'', g1, g⟩ := node.insert_spec grow e md he n hok hi
  rw [hins, Except.ok.injEq] at g1
  subst g1
  refine ⟨g.ok, g.rect, fun l' hl' => ?_⟩
  obtain ⟨l, hl, hs⟩ := g.frame l' hl'
  obtain ⟨hp, hm⟩ := hS l hl
  constructor
  · apply List.Pairwise.sublist hs
    rw [List.pairwise_append]
    refine ⟨hp, List.pairwise_singleton _ _, fun a ha b hb => ?_⟩
    rw [List.mem_singleton] at hb
    subst hb
    exact hnew a (hm a ha)
  · intro x hx
    have := hs.subset hx
    rw [List.mem_append, List.mem_singleton] at this
    rcases this with h | rfl
    · exact List.mem_cons_of_mem _ (hm x h)
    · exact List.mem_cons_self _ _

theorem insertAll_distinct (grow : Nat → Nat) (md : Nat) (rect : Rect) (es : List Entity) :
    ∀ (S : List Entity) (n n' : node), n.ok = true → n.rect = rect →
      (∀ e ∈ es, e.fits rect = true) → n.distinctWithin S →
      (es.reverse ++ S).Pairwise (fun a b => a.IsEqual b = false) →
      insertAll grow md es n = .ok n' →
      n'.ok = true ∧ n'.rect = rect ∧ n'.distinctWithin (es.reverse ++ S) := by
  induction es with
  | nil =>
    intro S n n' hok hr _ hS _ hins
    simp only [insertAll, Except.ok.injEq] at hins
    subst hins
    exact ⟨hok, hr, by simpa using hS⟩
  | cons e es ih =>
    intro S n n' hok hr hfit hS hp hins
    have he := hfit e (List.mem_cons_self _ _)
    simp only [Entity.fits, Bool.and_eq_true] at he
    have hp' : (es.reverse ++ e :: S).Pairwise (fun a b => a.IsEqual b = false) := by
      simpa using hp
    have hnew : ∀ x ∈ S, x.IsEqual e = false := by
      intro x hx
      have h1 := (List.pairwise_append.1 hp').2.1
      rw [List.pairwise_cons] at h1
      exact Entity.IsEqual_false_symm (h1.1 x hx)
    cases h1 : n.insert grow e md with
    | error p => simp [insertAll, h1] at hins
    | ok n1 =>
      simp only [insertAll, h1] at hins
      obtain ⟨g1, g2, g3⟩ := node.insert_distinct grow e md S n n1 he.1 hok
        (by rw [hr]; exact he.2) hS hnew h1
      obtain ⟨k1, k2, k3⟩ := ih (e :: S) n1 n' g1 (g2.trans hr)
        (fun x hx => hfit x (List.mem_cons_of_mem _ hx)) g3 hp' hins
      refine ⟨k1, k2, ?_⟩
      simpa using k3

theorem node.remove_distinct (grow : Nat → Nat) (e : Entity) (S : List Entity)
    (n n' : node) (r : Option Err) (he : e.Rect.wf = true) (hok : n.ok = true)
    (hi : n.rect.Intersects e.Rect = true) (hS : n.distinctWithin S)
    (hrem : n.remove grow e = .ok (n', r)) :
    n'.ok = true ∧ n'.rect = n.rect ∧ n'.distinctWithin S := by
  obtain ⟨n'', r', g1, g⟩ := node.remove_spec grow e he n hok hi
  rw [hrem, Except.ok.injEq, Prod.mk.injEq] at g1
  obtain ⟨rfl, rfl⟩ := g1
  refine ⟨g.ok, g.rect, fun l' hl' => ?_⟩
  rcases g.frame l' hl' with ⟨l, hl, hs⟩ | ⟨hp, hm⟩
  · obtain ⟨hp, hm⟩ := hS l hl
    exact ⟨hp.sublist hs, fun x hx => hm x (hs.subset hx)⟩
  · refine ⟨hp, fun x hx => ?_⟩
    obtain ⟨l, hl, hxl⟩ := hm x hx
    exact (hS l hl).2 x hxl

/-- A tree built from pairwise non-equal entities is well-shaped, its root
region is `(0,0,w,h)`, and no leaf holds two equal entities. -/
theorem Built.inv {grow : Nat → Nat} {w h : ℚ} {me md : Nat} {L : List Entity}
    {q : Quadpix} (hq : Built grow w h me md L q) :
    q.node.ok = true ∧ q.node.rect = R 0 0 w h ∧ q.node.distinctWithin L := by
  induction hq with
  | new hw hh =>
    refine ⟨New_ok w h me md hw hh, rfl, fun l hl => ?_⟩
    simp only [New, node.leaves, List.length_nil, gt_iff_lt, lt_self_iff_false, if_false,
      List.mem_singleton] at hl
    subst hl
    simp [Entities.make]
  | @insert L q q' id rect action _ ha hnew hins ih =>
    obtain ⟨h1, h2, h3⟩ := ih
    simp only [admissible, Bool.and_eq_true] at ha
    cases hn : q.node.insert grow (E id rect action) q.maxDepth with
    | error p => simp [Quadpix.Insert, hn] at hins
    | ok n' =>
      simp only [Quadpix.Insert, hn, Except.ok.injEq] at hins
      subst hins
      obtain ⟨g1, g2, g3⟩ := node.insert_distinct grow _ _ L q.node n' ha.1 h1
        (by rw [h2]; exact ha.2) h3 hnew hn
      exact ⟨g1, g2.trans h2, g3⟩
  | @insertEntities L q q' r entities _ ha hp hins ih =>
    obtain ⟨h1, h2, h3⟩ := ih
    by_cases hlen : entities.length = 0
    · simp only [Quadpix.InsertEntities, hlen, if_true, Except.ok.injEq, Prod.mk.injEq] at hins
      rw [← hins.1]
      have : entities = [] := List.length_eq_zero.1 hlen
      subst this
      exact ⟨h1, h2, by simpa using h3⟩
    · cases hn : insertAll grow q.maxDepth entities q.node with
      | error p => simp [Quadpix.InsertEntities, hlen, hn] at hins
      | ok n' =>
        simp only [Quadpix.InsertEntities, hlen, if_false, hn, Except.ok.injEq,
          Prod.mk.injEq] at hins
        rw [← hins.1]
        exact insertAll_distinct grow q.maxDepth (R 0 0 w h) entities L q.node n' h1 h2
          (fun e he => by simpa [Entity.fits, admissible] using ha e he) h3 hp hn
  | @remove L q q' r entity _ _ ha hrem ih =>
    obtain ⟨h1, h2, h3⟩ := ih
    simp only [admissible, Bool.and_eq_true] at ha
    cases hn : q.node.remove grow entity with
    | error p => simp [Quadpix.Remove, hn] at hrem
    | ok res =>
      obtain ⟨n', r'⟩ := res
      simp only [Quadpix.Remove, hn, Except.ok.injEq, Prod.mk.injEq] at hrem
      rw [← hrem.1]
      obtain ⟨g1, g2, g3⟩ := node.remove_distinct grow entity L q.node n' r' ha.1 h1
        (by rw [h2]; exact ha.2) h3 hn
      exact ⟨g1, g2.trans h2, g3⟩

/-- On every tree built from `New(w,h,maxEntities,maxDepth)` by inserting
pairwise non-equal admissible entities and removing some of them, and for
every rectangle `r`: whatever `Retrieve(r)` and `Intersects(r)` return holds
no two equal entities, so an entity contained in the result occurs in it
exactly once. For a well-formed `r` that intersects the root region both calls
return, and an entity that every leaf in reach of its bounds holds occurs
exactly once in `Retrieve(r)` whenever `r` intersects the region of a leaf
that its bounds intersect, and exactly once in `Intersects(r)` whenever its
bounds are well-formed and intersect `r` and the root region. -/
theorem Built.results_deduplicated (grow : Nat → Nat) (w h : ℚ) (me md : Nat)
    (L : List Entity) (q : Quadpix) (hq : Built grow w h me md L q) (r : Rect) :
    (∀ res, q.Retrieve grow r = .ok res ∨ q.Intersects grow r = .ok res →
      res.list.Pairwise (fun a b => a.IsEqual b = false) ∧
      ∀ e, res.Contains e = true → res.count e = 1) ∧
    (r.wf = true → (R 0 0 w h).Intersects r = true →
      ∃ res res', q.Retrieve grow r = .ok res ∧ q.Intersects grow r = .ok res' ∧
        ∀ e, (∀ l ∈ q.node.leaves, l.rect.Intersects e.Rect = true →
            l.entities.Contains e = true) →
          ((∃ l ∈ q.node.leaves, l.rect.Intersects r = true ∧
              l.rect.Intersects e.Rect = true) → res.count e = 1) ∧
          (admissible w h e = true → e.Rect.Intersects r = true →
            res'.count e = 1)) := by
  obtain ⟨h1, h2, h3⟩ := hq.inv
  have hleaves : ∀ l ∈ q.node.leaves,
      l.entities.list.Pairwise (fun a b => a.IsEqual b = false) := fun l hl => (h3 l hl).1
  have hret : ∀ res, q.Retrieve grow r = .ok res →
      res.list.Pairwise (fun a b => a.IsEqual b = false) :=
    fun res hres => node.retrieve_pairwise grow r q.node res hleaves hres
  have hint : ∀ res, q.Intersects grow r = .ok res →
      res.list.Pairwise (fun a b => a.IsEqual b = false) := by
    intro res hres
    cases hn : q.node.retrieve grow r with
    | error p => simp [Quadpix.Intersects, hn] at hres
    | ok es =>
      simp only [Quadpix.Intersects, hn, Except.ok.injEq] at hres
      rw [← hres, Entities.Intersects_list]
      exact (hret es hn).sublist (List.filter_sublist _)
  have hboth : ∀ res, q.Retrieve grow r = .ok res ∨ q.Intersects grow r = .ok res →
      res.list.Pairwise (fun a b => a.IsEqual b = false) := by
    rintro res (hres | hres)
    · exact hret res hres
    · exact hint res hres
  refine ⟨fun res hres => ⟨hboth res hres,
    fun e he => Entities.count_of_pairwise res e (hboth res hres) he⟩, ?_⟩
  intro hr hi
  have hi' : q.node.rect.Intersects r = true := by rw [h2]; exact hi
  obtain ⟨res, g1, g2⟩ := node.retrieve_spec grow r hr q.node h1 hi'
  have g3 : q.Intersects grow r = .ok (res.Intersects grow r) := by
    simp [Quadpix.Intersects, g1]
  refine ⟨res, res.Intersects grow r, g1, g3, ?_⟩
  intro e hheld
  have hfound : (∃ l ∈ q.node.leaves, l.rect.Intersects r = true ∧
      l.rect.Intersects e.Rect = true) → res.Contains e = true := by
    rintro ⟨l, hl, hlr, hle⟩
    rw [g2 e, List.any_eq_true]
    exact ⟨l, (node.routed_iff r q.node h1 hi' l).2 ⟨hl, hlr⟩, hheld l hl hle⟩
  refine ⟨fun hex => Entities.count_of_pairwise _ e (hret _ g1) (hfound hex), ?_⟩
  intro he her
  simp only [admissible, Bool.and_eq_true] at he
  obtain ⟨l, hl, hl1, hl2⟩ := node.common_leaf e.Rect r he.1 hr her q.node h1
    (by rw [h2]; exact he.2) hi'
  have k2 := hfound ⟨l, hl, hl2, hl1⟩
  apply Entities.count_of_pairwise _ e (hint _ g3)
  rw [Entities.Contains_iff] at k2 ⊢
  obtain ⟨x, hx, hxe⟩ := k2
  refine ⟨x, ?_, hxe⟩
  rw [Entities.Intersects_list, List.mem_filter]
  refine ⟨hx, ?_⟩
  simp only [Entity.Intersects]
  rw [Entity.IsEqual_rect hxe]
  exact her

theorem deepTree_built :
    Built goGrow 160 160 1 3 ([k1, k2, k3, k4].reverse ++ []) deepTree :=
  Built.insertEntities [k1, k2, k3, k4] (Built.new (by norm_num) (by norm_num))
    (by decide!) (by decide!) (r := none) (by decide!)

theorem lostTree_built :
    Built goGrow 160 160 1 3 ([k1, k2, k3, k4].reverse ++ []) lostTree :=
  Built.remove k3 deepTree_built (by decide!) (by decide!) (r := none) (by decide!)

/-! ## entity.go: identity, Remove, Merge -/

/-- C17: `Entities.Remove(x)` on a list that has an element equal to `x`
returns a nil error and the list without the first such element, the others
in their order and the length one less, whichever of the three cases of the
switch applies; on a list without such an element it returns the nil slice
and `ErrNoEntityFound`. -/
theorem C17_remove_first_match (e : Entities) (x : Entity) :
    (e.Contains x = true →
      ∃ l₁ a l₂, e.list = l₁ ++ a :: l₂ ∧ a.IsEqual x = true ∧
        (∀ b ∈ l₁, b.IsEqual x = false) ∧
        e.Remove x = (⟨l₁ ++ l₂, e.cap⟩, none) ∧
        (l₁ ++ l₂).length + 1 = e.list.length ∧
        (e.list.length = 1 → l₁ = [] ∧ l₂ = []) ∧
        (e.list.length = l₁.length + 1 → l₂ = [])) ∧
    (e.Contains x = false → e.Remove x = (Entities.nil, some ErrNoEntityFound)) := by
  constructor
  · intro hc
    rw [Entities.Remove_eq, if_pos hc]
    have hex : ∃ a ∈ e.list, (fun y : Entity => y.IsEqual x) a = true := by
      simpa [Entities.Contains] using hc
    obtain ⟨a0, ha0, hp0⟩ := hex
    obtain ⟨a, l₁, l₂, h1, h2, h3, h4⟩ :=
      List.exists_of_eraseP (p := fun y : Entity => y.IsEqual x) ha0 hp0
    refine ⟨l₁, a, l₂, h3, h2, fun b hb => by simpa using h1 b hb, by rw [h4], ?_, ?_, ?_⟩
    · rw [h3]; simp; omega
    · intro hlen
      rw [h3] at hlen
      simp only [List.length_append, List.length_cons] at hlen
      constructor
      · apply List.length_eq_zero.1; omega
      · apply List.length_eq_zero.1; omega
    · intro hlen
      rw [h3] at hlen
      simp only [List.length_append, List.length_cons] at hlen
      apply List.length_eq_zero.1; omega
  · intro hc
    rw [Entities.Remove_eq]
    simp [hc]

theorem Entities.mergeLoop_list (grow : Nat → Nat) (l : List Entity) :
    ∀ e : Entities,
      (l.foldl (fun acc x => if !acc.Contains x then acc.append grow x else acc) e).list =
        e.list ++ Entities.fresh e.list l := by
  induction l with
  | nil => intro e; simp [Entities.fresh]
  | cons x xs ih =>
    intro e
    rw [List.foldl_cons, ih]
    by_cases hx : e.Contains x = true
    · have hx' : e.list.any (fun a => a.IsEqual x) = true := hx
      simp [hx, Entities.fresh, hx']
    · have hx' : e.Contains x = false := by simpa using hx
      have hx'' : e.list.any (fun a => a.IsEqual x) = false := hx'
      simp [hx', Entities.fresh, hx'', Entities.append]

theorem Entities.mergeLoop_self (grow : Nat → Nat) (e : Entities) (l : List Entity)
    (h : ∀ x ∈ l, e.Contains x = true) :
    l.foldl (fun acc x => if !acc.Contains x then acc.append grow x else acc) e = e := by
  induction l with
  | nil => rfl
  | cons x xs ih =>
    rw [List.foldl_cons]
    have hx := h x (List.mem_cons_self _ _)
    simp only [hx, Bool.not_true, Bool.false_eq_true, if_false]
    exact ih (fun y hy => h y (List.mem_cons_of_mem _ hy))

/-! ## The tree handle -/

theorem insertOneByOne_eq (grow : Nat → Nat) (es : List Entity) :
    ∀ q : Quadpix, insertOneByOne grow es q =
      match insertAll grow q.maxDepth es q.node with
      | .error p => .error p
      | .ok n => .ok ⟨n, q.maxDepth⟩ := by
  induction es with
  | nil => intro q; simp [insertOneByOne, insertAll]
  | cons e es ih =>
    intro q
    cases hn : q.node.insert grow e q.maxDepth with
    | error p => simp [insertOneByOne, Quadpix.InsertEntities, insertAll, hn]
    | ok n =>
      simp only [insertOneByOne, Quadpix.InsertEntities, insertAll, hn, List.length_singleton,
        one_ne_zero, if_false]
      rw [ih]

/-- C11: `InsertEntities` returns `ErrNoEntitiesGiven` if and only if the list
is empty, and then the tree is unchanged (a fresh tree still retrieves the
empty list over its whole region); a call with a non-empty list that returns,
returns nil and leaves the tree that inserting the entities one by one in the
given order leaves (and panics exactly when that panics); on a reachable tree
with admissible entities it returns. -/
theorem C11_insertEntities (grow : Nat → Nat) :
    (∀ q : Quadpix, q.InsertEntities grow [] = .ok (q, some ErrNoEntitiesGiven)) ∧
    (∀ (q q' : Quadpix) (es : List Entity) (r : Option Err),
      q.InsertEntities grow es = .ok (q', r) →
        (r = some ErrNoEntitiesGiven ↔ es = []) ∧ (es ≠ [] → r = none)) ∧
    (∀ (w h : ℚ) (me md : Nat),
      (New w h me md).Retrieve grow (R 0 0 w h) = .ok (Entities.make me)) ∧
    (∀ (q : Quadpix) (es : List Entity), es ≠ [] →
      q.InsertEntities grow es =
        match insertOneByOne grow es q with
        | .error p => .error p
        | .ok q' => .ok (q', none)) ∧
    (∀ (w h : ℚ) (me md : Nat) (q : Quadpix) (es : List Entity),
      Reachable grow w h me md q → es ≠ [] → (∀ e ∈ es, admissible w h e = true) →
        ∃ q', q.InsertEntities grow es = .ok (q', none)) := by
  refine ⟨fun q => by simp [Quadpix.InsertEntities], ?_, ?_, ?_, ?_⟩
  · intro q q' es r h
    by_cases hlen : es.length = 0
    · have hes : es = [] := List.length_eq_zero.1 hlen
      simp only [Quadpix.InsertEntities, hlen, if_true, Except.ok.injEq, Prod.mk.injEq] at h
      rw [← h.2]
      simp [hes]
    · have hes : es ≠ [] := fun h0 => hlen (by rw [h0]; rfl)
      cases hn : insertAll grow q.maxDepth es q.node with
      | error p => simp [Quadpix.InsertEntities, hlen, hn] at h
      | ok n =>
        simp only [Quadpix.InsertEntities, hlen, if_false, hn, Except.ok.injEq,
          Prod.mk.injEq] at h
        rw [← h.2]
        simp [hes]
  · intro w h me md
    simp [Quadpix.Retrieve, New, node.retrieve]
  · intro q es hes
    have hlen : ¬ es.length = 0 := fun h0 => hes (List.length_eq_zero.1 h0)
    rw [insertOneByOne_eq]
    cases hn : insertAll grow q.maxDepth es q.node with
    | error p => simp [Quadpix.InsertEntities, hlen, hn]
    | ok n => simp [Quadpix.InsertEntities, hlen, hn]
  · intro w h me md q es hq hes hadm
    have hlen : ¬ es.length = 0 := fun h0 => hes (List.length_eq_zero.1 h0)
    obtain ⟨h1, h2, -⟩ := hq.shape
    obtain ⟨n', g1, -, -⟩ := insertAll_spec grow q.maxDepth (R 0 0 w h) es q.node h1 h2
      (fun e he => by simpa [Entity.fits, admissible] using hadm e he)
    exact ⟨⟨n', q.maxDepth⟩, by simp [Quadpix.InsertEntities, hlen, g1]⟩

/-! ## Quadrant routing -/

/-- C13, counterexample: the root of `deepTree` has been split into its four
quadrant children and `far` is a well-formed rectangle, yet `getQuadrant(far)`
is empty, and `Retrieve(far)`, `Intersect(far)` and an `Insert` of `far` reach
the panic with `ErrNoNodeFound`. -/
theorem C13_counterexample :
    deepTree.node.children.map node.rect = deepTree.node.rect.quadrants ∧
      far.wf = true ∧ deepTree.node.getQuadrant far = [] ∧
      deepTree.Retrieve goGrow far = .error ErrNoNodeFound ∧
      deepTree.Intersect far = .error ErrNoNodeFound ∧
      deepTree.Insert goGrow 9 far [] = .error ErrNoNodeFound :=
  ⟨by decide!, by decide!, by decide!, by decide!, by decide!, by decide!⟩

/-- C13, amended: for a node with a well-formed region that has been split
into its four quadrant children, and a well-formed rectangle `r`,
`getQuadrant(r)` is non-empty if and only if `r` intersects the region of the
node. -/
theorem C13_getQuadrant_nonempty (n : node) (r : Rect)
    (hq : n.children.map node.rect = n.rect.quadrants) (hn : n.rect.wf = true)
    (hr : r.wf = true) :
    n.getQuadrant r ≠ [] ↔ n.rect.Intersects r = true := by
  constructor
  · intro h
    obtain ⟨c, hc⟩ := List.exists_mem_of_ne_nil _ h
    simp only [node.getQuadrant, List.mem_filter] at hc
    have hcq : c.rect ∈ n.rect.quadrants := by
      rw [← hq]; exact List.mem_map_of_mem _ hc.1
    exact Rect.quadrants_sub hn hcq hc.2
  · intro h
    obtain ⟨c, hc, hi⟩ := getQuadrant_ne_nil hq hr h
    have : c ∈ n.getQuadrant r := by
      simp only [node.getQuadrant, List.mem_filter]
      exact ⟨hc, hi⟩
    exact List.ne_nil_of_mem this

/-- Witness of C13 (amended): the root of `deepTree` and the rectangle
`probe`. -/
theorem C13_witness :
    deepTree.node.getQuadrant probe ≠ [] ↔ deepTree.node.rect.Intersects probe = true :=
  C13_getQuadrant_nonempty deepTree.node probe (by decide!) (by decide!) (by decide!)

/-! ## Insert-only trees -/

theorem insertAll_within (grow : Nat → Nat) (md : Nat) (rect : Rect) (es : List Entity) :
    ∀ (S : List Entity) (n : node), n.ok = true → n.rect = rect →
      (∀ e ∈ es, e.fits rect = true) →
      (∀ l ∈ n.leaves, ∀ x ∈ l.entities.list, x ∈ S) →
      ∃ n', insertAll grow md es n = .ok n' ∧ n'.ok = true ∧ n'.rect = rect ∧
        ∀ l ∈ n'.leaves, ∀ x ∈ l.entities.list, x ∈ es ∨ x ∈ S := by
  induction es with
  | nil =>
    intro S n hok hr _ hS
    exact ⟨n, rfl, hok, hr, fun l hl x hx => Or.inr (hS l hl x hx)⟩
  | cons e es ih =>
    intro S n hok hr hfit hS
    have he := hfit e (List.mem_cons_self _ _)
    simp only [Entity.fits, Bool.and_eq_true] at he
    obtain ⟨n1, h1, g⟩ := node.insert_spec grow e md he.1 n hok (by rw [hr]; exact he.2)
    have hS1 : ∀ l ∈ n1.leaves, ∀ x ∈ l.entities.list, x ∈ e :: S := by
      intro l' hl' x hx
      obtain ⟨l, hl, hs⟩ := g.frame l' hl'
      have := hs.subset hx
      rw [List.mem_append, List.mem_singleton] at this
      rcases this with h | rfl
      · exact List.mem_cons_of_mem _ (hS l hl x h)
      · exact List.mem_cons_self _ _
    obtain ⟨n2, k1, k2, k3, k4⟩ := ih (e :: S) n1 g.ok (g.rect.trans hr)
      (fun x hx => hfit x (List.mem_cons_of_mem _ hx)) hS1
    refine ⟨n2, by simp [insertAll, h1, k1], k2, k3, fun l hl x hx => ?_⟩
    rcases k4 l hl x hx with h | h
    · exact Or.inl (List.mem_cons_of_mem _ h)
    · rcases List.mem_cons.1 h with rfl | h
      · exact Or.inl (List.mem_cons_self _ _)
      · exact Or.inr h

/-- C14: on the tree that `InsertEntities(L)` builds from
`New(w,h,maxEntities,maxDepth)`, for admissible entities `L`, `IsEntity(E)`
returns false for every admissible `E` that differs from every member of `L`
in its ID or in its bounds, whether or not the root has split. -/
theorem C14_isEntity_no_false_positive (grow : Nat → Nat) (w h : ℚ) (me md : Nat)
    (L : List Entity) (hw : 0 ≤ w) (hh : 0 ≤ h) (hL : ∀ e ∈ L, admissible w h e = true) :
    ∃ q r, (New w h me md).InsertEntities grow L = .ok (q, r) ∧
      ∀ E, admissible w h E = true → (∀ x ∈ L, ¬ (x.ID = E.ID ∧ x.Rect = E.Rect)) →
        q.IsEntity E = .ok false := by
  have hnew := New_ok w h me md hw hh
  have hkey : ∀ n : node, n.ok = true → n.rect = R 0 0 w h →
      (∀ l ∈ n.leaves, ∀ x ∈ l.entities.list, x ∈ L) →
      ∀ E, admissible w h E = true → (∀ x ∈ L, ¬ (x.ID = E.ID ∧ x.Rect = E.Rect)) →
        n.isEntity E = .ok false := by
    intro n hok hr hin E hE hdiff
    simp only [admissible, Bool.and_eq_true] at hE
    have hi : n.rect.Intersects E.Rect = true := by rw [hr]; exact hE.2
    rw [node.isEntity_eq E hE.1 n hok hi]
    have : (n.routed E.Rect).any (fun l => l.entities.Contains E) = false := by
      rw [List.any_eq_false]
      intro l hl hcon
      have hl' := ((node.routed_iff E.Rect n hok hi l).1 hl).1
      have hcon' : l.entities.Contains E = true := by simpa using hcon
      rw [Entities.Contains_iff] at hcon'
      obtain ⟨x, hx, hxe⟩ := hcon'
      exact hdiff x (hin l hl' x hx) ((Entity.IsEqual_iff x E).1 hxe)
    rw [this]
  by_cases hlen : L.length = 0
  · refine ⟨New w h me md, some ErrNoEntitiesGiven, by simp [Quadpix.InsertEntities, hlen], ?_⟩
    apply hkey _ hnew rfl
    intro l hl x hx
    simp only [New, node.leaves, List.length_nil, gt_iff_lt, lt_self_iff_false, if_false,
      List.mem_singleton] at hl
    subst hl
    simp [Entities.make] at hx
  · obtain ⟨n', g1, g2, g3, g4⟩ := insertAll_within grow md (R 0 0 w h) L [] (New w h me md).node
      hnew rfl (fun e he => by simpa [Entity.fits, admissible] using hL e he)
      (by
        intro l hl x hx
        simp only [New, node.leaves, List.length_nil, gt_iff_lt, lt_self_iff_false, if_false,
          List.mem_singleton] at hl
        subst hl
        simp [Entities.make] at hx)
    refine ⟨⟨n', md⟩, none, ?_, ?_⟩
    · have : (New w h me md).maxDepth = md := rfl
      simp [Quadpix.InsertEntities, hlen, this, g1]
    · intro E hE hdiff
      apply hkey n' g2 g3 _ E hE hdiff
      intro l hl x hx
      rcases g4 l hl x hx with h1 | h1
      · exact h1
      · cases h1

/-- Witness of C14: the four entities of `deepTree` and the absent `s1`. -/
theorem C14_witness :
    ∃ q r, (New 160 160 1 3).InsertEntities goGrow [k1, k2, k3, k4] = .ok (q, r) ∧
      ∀ E, admissible 160 160 E = true →
        (∀ x ∈ [k1, k2, k3, k4], ¬ (x.ID = E.ID ∧ x.Rect = E.Rect)) →
        q.IsEntity E = .ok false :=
  C14_isEntity_no_false_positive goGrow 160 160 1 3 [k1, k2, k3, k4] (by norm_num)
    (by norm_num) (by decide!)

/-! ## Node shape -/

theorem nodesEach_mem {cs : List node} {m : node} :
    m ∈ nodesEach cs ↔ ∃ c ∈ cs, m ∈ c.nodes := by
  induction cs with
  | nil => simp [nodesEach]
  | cons c cs ih => simp [nodesEach, ih]

/-- Every node of a well-shaped tree is well-shaped. -/
theorem node.nodes_ok (n : node) : n.ok = true → ∀ m ∈ n.nodes, m.ok = true := by
  induction n using node.induct with
  | h rect es cs d ih =>
    intro hok m hm
    simp only [node.nodes, List.mem_cons] at hm
    rcases hm with rfl | hm
    · exact hok
    · obtain ⟨c, hc, hmc⟩ := nodesEach_mem.1 hm
      have hlen : 0 < cs.length := List.length_pos_of_mem hc
      exact ih c hc (((node.ok_inner _ _ _ _ hlen).1 hok).2.2.2 c hc) m hmc

/-- C19: in every reachable tree each node either has no children or has
exactly four children and an empty own entity list, its children having, in
order, the regions `(minX,minY)-(cX,cY)`, `(cX,minY)-(maxX,cY)`,
`(minX,cY)-(cX,maxY)`, `(cX,cY)-(maxX,maxY)` for the midpoint `(cX,cY)` of its
region; a well-formed rectangle intersects the region of such a node if and
only if it intersects the region of one of the children. The split step of
insert (`split` then `moveEntities`) and `collapse` turn well-shaped nodes
into well-shaped nodes. -/
theorem C19_node_shape (grow : Nat → Nat) (w h : ℚ) (me md : Nat) (q : Quadpix)
    (hq : Reachable grow w h me md q) :
    (∀ m ∈ q.node.nodes, m.children = [] ∨
      (m.children.length = 4 ∧ m.entities.list = [] ∧
        m.children.map node.rect =
          [R m.rect.Min.X m.rect.Min.Y ((m.rect.Min.X + m.rect.Max.X) / 2)
              ((m.rect.Min.Y + m.rect.Max.Y) / 2),
           R ((m.rect.Min.X + m.rect.Max.X) / 2) m.rect.Min.Y m.rect.Max.X
              ((m.rect.Min.Y + m.rect.Max.Y) / 2),
           R m.rect.Min.X ((m.rect.Min.Y + m.rect.Max.Y) / 2)
              ((m.rect.Min.X + m.rect.Max.X) / 2) m.rect.Max.Y,
           R ((m.rect.Min.X + m.rect.Max.X) / 2) ((m.rect.Min.Y + m.rect.Max.Y) / 2)
              m.rect.Max.X m.rect.Max.Y] ∧
        ∀ s : Rect, s.wf = true →
          (m.rect.Intersects s = true ↔ ∃ c ∈ m.children, c.rect.Intersects s = true))) ∧
    (∀ (e : Entity) (rect : Rect) (es : Entities) (d : Nat),
      (node.mk rect es [] d).ok = true → e.fits rect = true →
        ∃ n', (node.mk rect es [] d).split.moveEntities grow (es.append grow e) = .ok n' ∧
          n'.ok = true ∧ n'.children.length = 4 ∧ n'.entities.list = []) ∧
    (∀ n : node, n.ok = true → (n.collapse grow).ok = true) := by
  refine ⟨?_, ?_, ?_⟩
  · intro m hm
    have hmok := node.nodes_ok q.node hq.shape.1 m hm
    cases m with
    | mk rect es cs d =>
      by_cases hc : 0 < cs.length
      · right
        obtain ⟨hwf, hnil, hquad, hcs⟩ := (node.ok_inner _ _ _ _ hc).1 hmok
        refine ⟨?_, hnil, hquad, fun s hs => ⟨fun hi => getQuadrant_ne_nil hquad hs hi, ?_⟩⟩
        · have := congrArg List.length hquad
          simpa [Rect.quadrants] using this
        · rintro ⟨c, hcm, hi⟩
          have hcq : c.rect ∈ rect.quadrants := by
            rw [← hquad]; exact List.mem_map_of_mem _ hcm
          exact Rect.quadrants_sub hwf hcq hi
      · left
        cases cs with
        | nil => rfl
        | cons a b => simp at hc
  · intro e rect es d hok hfit
    simp only [Entity.fits, Bool.and_eq_true] at hfit
    obtain ⟨n', g1, g⟩ := node.insert_split grow e rect es d hok hfit.1 hfit.2
    refine ⟨n', g1, g.ok, ?_⟩
    obtain ⟨cs, hsplit, hlen, hquad, -⟩ := node.split_leaf rect es d
    have hfit' : ∀ x ∈ (es.append grow e).list, x.fits rect = true := by
      intro x hx
      simp only [Entities.append, List.mem_append, List.mem_singleton] at hx
      rcases hx with hx | rfl
      · exact ((node.ok_leaf _ _ _).1 hok).2 x hx
      · simp [Entity.fits, hfit.1, hfit.2]
    rw [hsplit, node.moveEntities_eq grow rect es cs d _ hquad hfit', Except.ok.injEq] at g1
    rw [← g1]
    have := congrArg List.length hquad
    simp only [List.length_map, Rect.quadrants, List.length_cons, List.length_nil] at this
    simp [this]
  · intro n hok
    cases n with
    | mk rect es cs d =>
      by_cases hc : 0 < cs.length
      · exact (node.collapse_spec grow rect es cs d hc hok).1
      · have hnil : cs = [] := by
          cases cs with
          | nil => rfl
          | cons a b => simp at hc
        subst hnil
        have hwf := ((node.ok_leaf _ _ _).1 hok).1
        simp only [node.collapse, node.children_mk, List.foldl_nil, Entities.make,
          List.length_nil, Nat.zero_le, if_true, node.rect_mk, node.depth_mk, List.take_nil]
        rw [node.ok_leaf]
        exact ⟨hwf, by simp⟩

/-- Witness of C19: the tree `deepTree`. -/
theorem C19_witness :
    (∀ m ∈ deepTree.node.nodes, m.children = [] ∨
      (m.children.length = 4 ∧ m.entities.list = [] ∧
        m.children.map node.rect =
          [R m.rect.Min.X m.rect.Min.Y ((m.rect.Min.X + m.rect.Max.X) / 2)
              ((m.rect.Min.Y + m.rect.Max.Y) / 2),
           R ((m.rect.Min.X + m.rect.Max.X) / 2) m.rect.Min.Y m.rect.Max.X
              ((m.rect.Min.Y + m.rect.Max.Y) / 2),
           R m.rect.Min.X ((m.rect.Min.Y + m.rect.Max.Y) / 2)
              ((m.rect.Min.X + m.rect.Max.X) / 2) m.rect.Max.Y,
           R ((m.rect.Min.X + m.rect.Max.X) / 2) ((m.rect.Min.Y + m.rect.Max.Y) / 2)
              m.rect.Max.X m.rect.Max.Y] ∧
        ∀ s : Rect, s.wf = true →
          (m.rect.Intersects s = true ↔ ∃ c ∈ m.children, c.rect.Intersects s = true))) ∧
    (∀ (e : Entity) (rect : Rect) (es : Entities) (d : Nat),
      (node.mk rect es [] d).ok = true → e.fits rect = true →
        ∃ n', (node.mk rect es [] d).split.moveEntities goGrow (es.append goGrow e) = .ok n' ∧
          n'.ok = true ∧ n'.children.length = 4 ∧ n'.entities.list = []) ∧
    (∀ n : node, n.ok = true → (n.collapse goGrow).ok = true) :=
  C19_node_shape goGrow 160 160 1 3 deepTree deepTree_reachable

/-! ## Induction over the runs of insert and remove -/

theorem insertEach_rel (grow : Nat → Nat) (e : Entity) (md : Nat) (P : node → node → Prop)
    (cs : List node)
    (ih : ∀ c ∈ cs, c.ok = true → c.rect.Intersects e.Rect = true →
      ∃ c', c.insert grow e md = .ok c' ∧ P c c')
    (hok : ∀ c ∈ cs, c.ok = true) :
    ∃ cs', insertEach grow e md cs = .ok cs' ∧
      List.Forall₂ (fun c c' =>
        (c.rect.Intersects e.Rect = true → c.insert grow e md = .ok c' ∧ P c c') ∧
        (c.rect.Intersects e.Rect = false → c' = c)) cs cs' := by
  induction cs with
  | nil => exact ⟨[], by simp [insertEach], List.Forall₂.nil⟩
  | cons c cs ihl =>
    obtain ⟨cs', h1, h2⟩ := ihl (fun c hc => ih c (List.mem_cons_of_mem _ hc))
      (fun c hc => hok c (List.mem_cons_of_mem _ hc))
    by_cases hi : c.rect.Intersects e.Rect = true
    · obtain ⟨c', g1, g2⟩ :=
        ih c (List.mem_cons_self _ _) (hok c (List.mem_cons_self _ _)) hi
      refine ⟨c' :: cs', by simp [insertEach, hi, g1, h1], List.Forall₂.cons ⟨fun _ => ⟨g1, g2⟩,
        fun hf => ?_⟩ h2⟩
      rw [hi] at hf
      cases hf
    · refine ⟨c :: cs', by simp [insertEach, hi, h1], List.Forall₂.cons ⟨fun ht => absurd ht hi,
        fun _ => rfl⟩ h2⟩

/-- Induction over a run of insert on a well-shaped tree, for an entity that
fits the root region: a property of the pair (tree before, tree after) holds
when it holds for a leaf that is appended to, for a leaf that splits, and for
a node whose children in reach were inserted into with the property. -/
theorem node.insert_induct (grow : Nat → Nat) (e : Entity) (md : Nat)
    (he : e.Rect.wf = true) (P : node → node → Prop)
    (happend : ∀ rect es d, (node.mk rect es [] d).ok = true →
      ¬ (es.list.length + 1 > es.cap ∧ d < md) →
      P (.mk rect es [] d) (.mk rect (es.append grow e) [] d))
    (hsplit : ∀ (rect : Rect) (es : Entities) (d : Nat) (cs : List node),
      (node.mk rect es [] d).ok = true →
      (es.list.length + 1 > es.cap ∧ d < md) →
      cs.map node.rect = rect.quadrants →
      (∀ a ∈ cs, a.children = [] ∧ a.entities = Entities.make es.cap ∧
        a.depth = (d + 1) % 65536) →
      P (.mk rect es [] d)
        (.mk rect ⟨[], es.cap⟩ (cs.map (node.receive grow (es.append grow e).list)) d))
    (hinner : ∀ rect es cs cs' d, (node.mk rect es cs d).ok = true → 0 < cs.length →
      List.Forall₂ (fun c c' =>
        (c.rect.Intersects e.Rect = true → c.insert grow e md = .ok c' ∧ P c c') ∧
        (c.rect.Intersects e.Rect = false → c' = c)) cs cs' →
      P (.mk rect es cs d) (.mk rect es cs' d))
    (n : node) :
    n.ok = true → n.rect.Intersects e.Rect = true →
      ∃ n', n.insert grow e md = .ok n' ∧ P n n' := by
  induction n using node.induct with
  | h rect es cs d ih =>
    intro hok hi
    by_cases hc : 0 < cs.length
    · have hok' := (node.ok_inner _ _ _ _ hc).1 hok
      obtain ⟨hwf, hnil, hq, hcs⟩ := hok'
      have hne := getQuadrant_ne_nil hq he hi
      obtain ⟨cs', h1, h2⟩ := insertEach_rel grow e md P cs
        (fun c hc hcok hic => ih c hc hcok hic) hcs
      refine ⟨.mk rect es cs' d, ?_, hinner rect es cs cs' d hok hc h2⟩
      simp only [node.insert, gt_iff_lt, hc, if_true, getQuadrant_length hne, if_false, h1]
    · have hnil : cs = [] := by
        cases cs with
        | nil => rfl
        | cons a b => simp at hc
      subst hnil
      by_cases hs : es.list.length + 1 > es.cap ∧ d < md
      · have hfit : ∀ x ∈ (es.append grow e).list, x.fits rect = true := by
          intro x hx
          simp only [Entities.append, List.mem_append, List.mem_singleton] at hx
          rcases hx with hx | rfl
          · exact ((node.ok_leaf _ _ _).1 hok).2 x hx
          · simp only [Entity.fits, he, Bool.true_and]
            exact hi
        obtain ⟨cs, hsp, -, hq, hcs⟩ := node.split_leaf rect es d
        refine ⟨_, ?_, hsplit rect es d cs hok hs hq hcs⟩
        simp only [node.insert, List.length_nil, gt_iff_lt, lt_self_iff_false, if_false]
        rw [if_pos hs, hsp, node.moveEntities_eq grow rect es cs d _ hq hfit]
      · refine ⟨.mk rect (es.append grow e) [] d, ?_, happend rect es d hok hs⟩
        simp only [node.insert, List.length_nil, gt_iff_lt, lt_self_iff_false, if_false]
        rw [if_neg hs]

theorem removeEach_rel (grow : Nat → Nat) (e : Entity) (P : node → node → Option Err → Prop)
    (cs : List node)
    (ih : ∀ c ∈ cs, c.ok = true → c.rect.Intersects e.Rect = true →
      ∃ c' r, c.remove grow e = .ok (c', r) ∧ P c c' r)
    (hok : ∀ c ∈ cs, c.ok = true) :
    ∃ cs' r, removeEach grow e cs = .ok (cs', r) ∧
      List.Forall₂ (fun c c' => c' = c ∨
        (c.rect.Intersects e.Rect = true ∧
          ∃ rc, c.remove grow e = .ok (c', rc) ∧ P c c' rc)) cs cs' := by
  induction cs with
  | nil => exact ⟨[], none, by simp [removeEach], List.Forall₂.nil⟩
  | cons c cs ihl =>
    obtain ⟨cs', r, h1, h2⟩ := ihl (fun c hc => ih c (List.mem_cons_of_mem _ hc))
      (fun c hc => hok c (List.mem_cons_of_mem _ hc))
    have hsame : List.Forall₂ (fun c c' => c' = c ∨
        (c.rect.Intersects e.Rect = true ∧
          ∃ rc, c.remove grow e = .ok (c', rc) ∧ P c c' rc)) cs cs := by
      clear h1 h2 ihl ih hok
      induction cs with
      | nil => exact List.Forall₂.nil
      | cons a t iht => exact List.Forall₂.cons (Or.inl rfl) iht
    by_cases hi : c.rect.Intersects e.Rect = true
    · obtain ⟨c', rc, g1, g2⟩ :=
        ih c (List.mem_cons_self _ _) (hok c (List.mem_cons_self _ _)) hi
      cases rc with
      | some err =>
        exact ⟨c' :: cs, some err, by simp [removeEach, hi, g1],
          List.Forall₂.cons (Or.inr ⟨hi, _, g1, g2⟩) hsame⟩
      | none =>
        exact ⟨c' :: cs', r, by simp [removeEach, hi, g1, h1],
          List.Forall₂.cons (Or.inr ⟨hi, _, g1, g2⟩) h2⟩
    · exact ⟨c :: cs', r, by simp [removeEach, hi, h1], List.Forall₂.cons (Or.inl rfl) h2⟩

theorem removeEach_rel_ok (grow : Nat → Nat) (e : Entity) (he : e.Rect.wf = true)
    (P : node → node → Option Err → Prop) (cs cs' : List node)
    (hrel : List.Forall₂ (fun c c' => c' = c ∨
        (c.rect.Intersects e.Rect = true ∧
          ∃ rc, c.remove grow e = .ok (c', rc) ∧ P c c' rc)) cs cs')
    (hok : ∀ c ∈ cs, c.ok = true) :
    cs'.map node.rect = cs.map node.rect ∧ ∀ c' ∈ cs', c'.ok = true := by
  induction hrel with
  | nil => exact ⟨rfl, by simp⟩
  | @cons c c' cs cs' hhead _ ihl =>
    obtain ⟨h1, h2⟩ := ihl (fun x hx => hok x (List.mem_cons_of_mem _ hx))
    have hcok := hok c (List.mem_cons_self _ _)
    have hc' : c'.rect = c.rect ∧ c'.ok = true := by
      rcases hhead with rfl | ⟨hi, rc, hrem, -⟩
      · exact ⟨rfl, hcok⟩
      · obtain ⟨c'', r'', g1, g⟩ := node.remove_spec grow e he c hcok hi
        rw [hrem, Except.ok.injEq, Prod.mk.injEq] at g1
        obtain ⟨rfl, rfl⟩ := g1
        exact ⟨g.rect, g.ok⟩
    refine ⟨by simp [hc'.1, h1], fun x hx => ?_⟩
    rcases List.mem_cons.1 hx with rfl | hx
    · exact hc'.2
    · exact h2 x hx

/-- Induction over a run of remove on a well-shaped tree, for an entity that
fits the root region: a property of (tree before, tree after, returned error)
holds when it holds for a leaf that has the entity, for a leaf that lacks it,
and for a node each of whose children was left alone or removed from with the
property, both when the loop stopped on an error and when it ended and the
node was passed to collapse. -/
theorem node.remove_induct (grow : Nat → Nat) (e : Entity) (he : e.Rect.wf = true)
    (P : node → node → Option Err → Prop)
    (hfound : ∀ (rect : Rect) (es : Entities) (d : Nat), (node.mk rect es [] d).ok = true →
      es.Contains e = true →
      P (.mk rect es [] d) (.mk rect ⟨es.list.eraseP (fun y => y.IsEqual e), es.cap⟩ [] d) none)
    (hmiss : ∀ (rect : Rect) (es : Entities) (d : Nat), (node.mk rect es [] d).ok = true →
      es.Contains e = false →
      P (.mk rect es [] d) (.mk rect es [] d) (some ErrNoEntityFound))
    (herr : ∀ (rect : Rect) (es : Entities) (cs cs' : List node) (d : Nat) (err : Err),
      (node.mk rect es cs d).ok = true → 0 < cs.length →
      List.Forall₂ (fun c c' => c' = c ∨
        (c.rect.Intersects e.Rect = true ∧
          ∃ rc, c.remove grow e = .ok (c', rc) ∧ P c c' rc)) cs cs' →
      (node.mk rect es cs' d).ok = true →
      P (.mk rect es cs d) (.mk rect es cs' d) (some err))
    (hdone : ∀ (rect : Rect) (es : Entities) (cs cs' : List node) (d : Nat),
      (node.mk rect es cs d).ok = true → 0 < cs.length →
      List.Forall₂ (fun c c' => c' = c ∨
        (c.rect.Intersects e.Rect = true ∧
          ∃ rc, c.remove grow e = .ok (c', rc) ∧ P c c' rc)) cs cs' →
      (node.mk rect es cs' d).ok = true →
      P (.mk rect es cs d) ((node.mk rect es cs' d).collapse grow) none)
    (n : node) :
    n.ok = true → n.rect.Intersects e.Rect = true →
      ∃ n' r, n.remove grow e = .ok (n', r) ∧ P n n' r := by
  induction n using node.induct with
  | h rect es cs d ih =>
    intro hok hi
    by_cases hc : 0 < cs.length
    · have hok' := (node.ok_inner _ _ _ _ hc).1 hok
      obtain ⟨hwf, hnil, hq, hcs⟩ := hok'
      have hne := getQuadrant_ne_nil hq he hi
      obtain ⟨cs', r, h1, h2⟩ := removeEach_rel grow e P cs
        (fun c hc hcok hic => ih c hc hcok hic) hcs
      obtain ⟨k1, k2⟩ := removeEach_rel_ok grow e he P cs cs' h2 hcs
      have hc' : 0 < cs'.length := by
        have := congrArg List.length k1
        simp only [List.length_map] at this
        omega
      have hok2 : (node.mk rect es cs' d).ok = true := by
        rw [node.ok_inner _ _ _ _ hc']
        exact ⟨hwf, hnil, k1.trans hq, k2⟩
      cases r with
      | some err =>
        refine ⟨.mk rect es cs' d, some err, ?_, herr rect es cs cs' d err hok hc h2 hok2⟩
        simp only [node.remove, gt_iff_lt, hc, if_true, getQuadrant_length hne, if_false, h1]
      | none =>
        refine ⟨(node.mk rect es cs' d).collapse grow, none, ?_,
          hdone rect es cs cs' d hok hc h2 hok2⟩
        simp only [node.remove, gt_iff_lt, hc, if_true, getQuadrant_length hne, if_false, h1]
    · have hnil : cs = [] := by
        cases cs with
        | nil => rfl
        | cons a b => simp at hc
      subst hnil
      by_cases hcon : es.Contains e = true
      · exact ⟨_, none, by simp [node.remove, Entities.Remove_eq, hcon],
          hfound rect es d hok hcon⟩
      · have hcon' : es.Contains e = false := by simpa using hcon
        exact ⟨_, some ErrNoEntityFound, by simp [node.remove, Entities.Remove_eq, hcon'],
          hmiss rect es d hok hcon'⟩

/-! ## Depth -/

theorem depthOkEach_iff (md d : Nat) (cs : List node) :
    depthOkEach md d cs = true ↔ ∀ c ∈ cs, c.depth = d + 1 ∧ c.depthOk md = true := by
  induction cs with
  | nil => simp [depthOkEach]
  | cons c cs ih => simp [depthOkEach, ih, and_assoc]

theorem node.depthOk_mk (md : Nat) (rect : Rect) (es : Entities) (cs : List node) (d : Nat) :
    (node.mk rect es cs d).depthOk md = true ↔
      d ≤ md ∧ ∀ c ∈ cs, c.depth = d + 1 ∧ c.depthOk md = true := by
  simp [node.depthOk, depthOkEach_iff]

theorem depthOk_forall₂ {md d : Nat} {R : node → node → Prop} {cs cs' : List node}
    (hrel : List.Forall₂ R cs cs')
    (hR : ∀ c c', c ∈ cs → R c c' →
      c'.depth = c.depth ∧ (c.depthOk md = true → c'.depthOk md = true))
    (h : ∀ c ∈ cs, c.depth = d + 1 ∧ c.depthOk md = true) :
    ∀ c' ∈ cs', c'.depth = d + 1 ∧ c'.depthOk md = true := by
  induction hrel with
  | nil => simp
  | @cons c c' cs cs' hhead _ ihl =>
    intro x hx
    rcases List.mem_cons.1 hx with rfl | hx
    · obtain ⟨h1, h2⟩ := hR c x (List.mem_cons_self _ _) hhead
      obtain ⟨h3, h4⟩ := h c (List.mem_cons_self _ _)
      exact ⟨h1.trans h3, h2 h4⟩
    · exact ihl (fun a b ha => hR a b (List.mem_cons_of_mem _ ha))
        (fun a ha => h a (List.mem_cons_of_mem _ ha)) x hx

/-- Insert keeps the depth of the node it is called on and, for a depth bound
that fits a `uint16`, the depth invariant. -/
theorem node.insert_depth (grow : Nat → Nat) (e : Entity) (md : Nat) (hmd : md < 65536)
    (he : e.Rect.wf = true) (n : node) (hok : n.ok = true)
    (hi : n.rect.Intersects e.Rect = true) :
    ∃ n', n.insert grow e md = .ok n' ∧ n'.depth = n.depth ∧
      (n.depthOk md = true → n'.depthOk md = true) := by
  apply node.insert_induct grow e md he
    (fun n n' => n'.depth = n.depth ∧ (n.depthOk md = true → n'.depthOk md = true))
    _ _ _ n hok hi
  · intro rect es d _ _
    exact ⟨rfl, fun h => by rw [node.depthOk_mk] at h ⊢; exact ⟨h.1, by simp⟩⟩
  · intro rect es d cs _ hs _ hcs
    refine ⟨rfl, fun h => ?_⟩
    rw [node.depthOk_mk] at h ⊢
    refine ⟨h.1, fun c hc => ?_⟩
    obtain ⟨a, ha, rfl⟩ := List.mem_map.1 hc
    obtain ⟨h1, -, h3⟩ := hcs a ha
    have hd : (d + 1) % 65536 = d + 1 := Nat.mod_eq_of_lt (by omega)
    cases a with
    | mk r es' cs' d' =>
      simp only [node.children_mk, node.depth_mk] at h1 h3
      subst h1
      simp only [node.receive, node.depth_mk, node.children_mk, node.depthOk_mk]
      rw [h3, hd]
      exact ⟨rfl, by omega, by simp⟩
  · intro rect es cs cs' d _ _ hrel
    refine ⟨rfl, fun h => ?_⟩
    rw [node.depthOk_mk] at h ⊢
    refine ⟨h.1, depthOk_forall₂ hrel (fun c c' _ hR => ?_) h.2⟩
    by_cases hic : c.rect.Intersects e.Rect = true
    · exact (hR.1 hic).2
    · have := hR.2 (by simpa using hic)
      subst this
      exact ⟨rfl, fun h => h⟩

/-- Remove keeps the depth of the node it is called on and the depth
invariant. -/
theorem node.remove_depth (grow : Nat → Nat) (e : Entity) (md : Nat)
    (he : e.Rect.wf = true) (n : node) (hok : n.ok = true)
    (hi : n.rect.Intersects e.Rect = true) :
    ∃ n' r, n.remove grow e = .ok (n', r) ∧ n'.depth = n.depth ∧
      (n.depthOk md = true → n'.depthOk md = true) := by
  have hstep : ∀ (rect : Rect) (es : Entities) (cs cs' : List node) (d : Nat),
      List.Forall₂ (fun c c' => c' = c ∨
        (c.rect.Intersects e.Rect = true ∧
          ∃ rc, c.remove grow e = .ok (c', rc) ∧
            c'.depth = c.depth ∧ (c.depthOk md = true → c'.depthOk md = true))) cs cs' →
      (node.mk rect es cs d).depthOk md = true → (node.mk rect es cs' d).depthOk md = true := by
    intro rect es cs cs' d hrel h
    rw [node.depthOk_mk] at h ⊢
    refine ⟨h.1, depthOk_forall₂ hrel (fun c c' _ hR => ?_) h.2⟩
    rcases hR with rfl | ⟨-, rc, -, h1, h2⟩
    · exact ⟨rfl, fun h => h⟩
    · exact ⟨h1, h2⟩
  apply node.remove_induct grow e he
    (fun n n' _ => n'.depth = n.depth ∧ (n.depthOk md = true → n'.depthOk md = true))
    _ _ _ _ n hok hi
  · intro rect es d _ _
    exact ⟨rfl, fun h => by rw [node.depthOk_mk] at h ⊢; exact ⟨h.1, by simp⟩⟩
  · intro rect es d _ _
    exact ⟨rfl, fun h => h⟩
  · intro rect es cs cs' d err _ _ hrel _
    exact ⟨rfl, hstep rect es cs cs' d hrel⟩
  · intro rect es cs cs' d _ _ hrel _
    have h1 := hstep rect es cs cs' d hrel
    by_cases hfit : (cs'.foldl (fun acc c => acc.Merge grow c.entities)
        (Entities.make 0)).list.length ≤ es.cap
    · simp only [node.collapse, node.children_mk, node.entities_mk, node.rect_mk,
        node.depth_mk, hfit, if_true, List.take_zero]
      exact ⟨trivial, fun h => by rw [node.depthOk_mk] at h ⊢; exact ⟨h.1, by simp⟩⟩
    · simp only [node.collapse, node.children_mk, node.entities_mk, node.rect_mk,
        node.depth_mk, hfit, if_false]
      exact ⟨trivial, h1⟩

theorem insertAll_depth (grow : Nat → Nat) (md : Nat) (hmd : md < 65536) (rect : Rect)
    (es : List Entity) :
    ∀ n n' : node, n.ok = true → n.rect = rect → (∀ e ∈ es, e.fits rect = true) →
      insertAll grow md es n = .ok n' →
      n'.depth = n.depth ∧ (n.depthOk md = true → n'.depthOk md = true) := by
  induction es with
  | nil =>
    intro n n' _ _ _ h
    simp only [insertAll, Except.ok.injEq] at h
    subst h
    exact ⟨rfl, fun h => h⟩
  | cons e es ih =>
    intro n n' hok hr hfit h
    have he := hfit e (List.mem_cons_self _ _)
    simp only [Entity.fits, Bool.and_eq_true] at he
    have hi : n.rect.Intersects e.Rect = true := by rw [hr]; exact he.2
    obtain ⟨n1, h1, h2, h3⟩ := node.insert_depth grow e md hmd he.1 n hok hi
    obtain ⟨n1', h1', g⟩ := node.insert_spec grow e md he.1 n hok hi
    rw [h1, Except.ok.injEq] at h1'
    subst h1'
    simp only [insertAll, h1] at h
    obtain ⟨k1, k2⟩ := ih n1 n' g.ok (g.rect.trans hr)
      (fun x hx => hfit x (List.mem_cons_of_mem _ hx)) h
    exact ⟨k1.trans h2, fun h => k2 (h3 h)⟩

/-- In every reachable tree, for a depth bound that fits a `uint16`, the root
has depth 0 and the depth invariant holds. -/
theorem Reachable.depth {grow : Nat → Nat} {w h : ℚ} {me md : Nat} {q : Quadpix}
    (hq : Reachable grow w h me md q) (hmd : md < 65536) :
    q.node.depth = 0 ∧ q.node.depthOk md = true := by
  induction hq with
  | new hw hh => exact ⟨rfl, by simp [New, node.depthOk, depthOkEach]⟩
  | @insert q q' id rect action hq0 ha hins ih =>
    obtain ⟨h1, h2, h3⟩ := hq0.shape
    simp only [admissible, Bool.and_eq_true] at ha
    obtain ⟨n', g1, g2, g3⟩ := node.insert_depth grow (E id rect action) md hmd ha.1
      q.node h1 (by rw [h2]; exact ha.2)
    simp only [Quadpix.Insert, h3, g1, Except.ok.injEq] at hins
    subst hins
    exact ⟨g2.trans ih.1, g3 ih.2⟩
  | @insertEntities q q' r entities hq0 ha hins ih =>
    obtain ⟨h1, h2, h3⟩ := hq0.shape
    by_cases hlen : entities.length = 0
    · simp only [Quadpix.InsertEntities, hlen, if_true, Except.ok.injEq, Prod.mk.injEq] at hins
      rw [← hins.1]
      exact ih
    · cases hn : insertAll grow md entities q.node with
      | error p => simp [Quadpix.InsertEntities, hlen, h3, hn] at hins
      | ok n' =>
        simp only [Quadpix.InsertEntities, hlen, if_false, h3, hn, Except.ok.injEq,
          Prod.mk.injEq] at hins
        rw [← hins.1]
        obtain ⟨k1, k2⟩ := insertAll_depth grow md hmd (R 0 0 w h) entities q.node n' h1 h2
          (fun e he => by simpa [Entity.fits, admissible] using ha e he) hn
        exact ⟨k1.trans ih.1, k2 ih.2⟩
  | @remove q q' r entity hq0 ha hrem ih =>
    obtain ⟨h1, h2, h3⟩ := hq0.shape
    simp only [admissible, Bool.and_eq_true] at ha
    obtain ⟨n', r', g1, g2, g3⟩ := node.remove_depth grow entity md ha.1 q.node h1
      (by rw [h2]; exact ha.2)
    simp only [Quadpix.Remove, g1, Except.ok.injEq, Prod.mk.injEq] at hrem
    rw [← hrem.1]
    exact ⟨g2.trans ih.1, g3 ih.2⟩

/-- In a tree with the depth invariant no node is deeper than the bound and
every child is one level below its parent. -/
theorem node.nodes_depth (md : Nat) (n : node) :
    n.depthOk md = true → ∀ m ∈ n.nodes, m.depth ≤ md ∧ ∀ c ∈ m.children, c.depth = m.depth + 1 := by
  induction n using node.induct with
  | h rect es cs d ih =>
    intro hd m hm
    rw [node.depthOk_mk] at hd
    simp only [node.nodes, List.mem_cons] at hm
    rcases hm with rfl | hm
    · exact ⟨hd.1, fun c hc => (hd.2 c hc).1⟩
    · obtain ⟨c, hc, hmc⟩ := nodesEach_mem.1 hm
      exact ih c hc (hd.2 c hc).2 m hmc

theorem insertAll_at_bound (grow : Nat → Nat) (md : Nat) (rect : Rect) (d : Nat)
    (hd : ¬ d < md) (L : List Entity) :
    ∀ es : Entities, insertAll grow md L (.mk rect es [] d) =
      .ok (.mk rect (es.appendAll grow L) [] d) := by
  induction L with
  | nil => intro es; simp [insertAll, Entities.appendAll]
  | cons e L ih =>
    intro es
    have hs : ¬ (es.list.length + 1 > es.cap ∧ d < md) := fun h => hd h.2
    have : (node.mk rect es [] d).insert grow e md = .ok (.mk rect (es.append grow e) [] d) := by
      simp only [node.insert, List.length_nil, gt_iff_lt, lt_self_iff_false, if_false]
      rw [if_neg hs]
    simp only [insertAll, this, ih]
    simp [Entities.appendAll]

/-- C12: in every tree reachable from `New(w,h,maxEntities,maxDepth)`, with
`maxDepth` a `uint16`, the root has depth 0, no node is deeper than `maxDepth`,
and the depth of every child is the depth of its parent plus one as a natural
number (the `uint16` addition does not wrap). With `maxDepth = 0` a call
`InsertEntities(L)`, for any entities `L`, leaves a root without children
whose entity list is `L` in insertion order. -/
theorem C12_depth_bound (grow : Nat → Nat) (w h : ℚ) (me md : Nat) (q : Quadpix)
    (hq : Reachable grow w h me md q) (hmd : md < 65536) :
    (q.node.depth = 0 ∧
      ∀ m ∈ q.node.nodes, m.depth ≤ md ∧ ∀ c ∈ m.children, c.depth = m.depth + 1) ∧
    (∀ (w' h' : ℚ) (me' : Nat) (L : List Entity), L ≠ [] →
      ∃ c, (New w' h' me' 0).InsertEntities grow L =
        .ok (⟨.mk (R 0 0 w' h') ⟨L, c⟩ [] 0, 0⟩, none)) := by
  obtain ⟨h1, h2⟩ := hq.depth hmd
  refine ⟨⟨h1, node.nodes_depth md q.node h2⟩, ?_⟩
  intro w' h' me' L hL
  have hlen : ¬ L.length = 0 := fun h0 => hL (List.length_eq_zero.1 h0)
  have key := insertAll_at_bound grow 0 (R 0 0 w' h') 0 (by omega) L (Entities.make me')
  refine ⟨((Entities.make me').appendAll grow L).cap, ?_⟩
  have hlist : ((Entities.make me').appendAll grow L).list = L := by
    rw [Entities.appendAll_list]; simp [Entities.make]
  simp only [Quadpix.InsertEntities, hlen, if_false, New, key]
  congr 3
  cases hE : (Entities.make me').appendAll grow L with
  | mk l c =>
    rw [hE] at hlist
    simp only at hlist
    rw [hlist]

/-- Witness of C12: the tree `deepTree`, of depth bound 3. -/
theorem C12_witness :
    (deepTree.node.depth = 0 ∧
      ∀ m ∈ deepTree.node.nodes,
        m.depth ≤ 3 ∧ ∀ c ∈ m.children, c.depth = m.depth + 1) ∧
    (∀ (w' h' : ℚ) (me' : Nat) (L : List Entity), L ≠ [] →
      ∃ c, (New w' h' me' 0).InsertEntities goGrow L =
        .ok (⟨.mk (R 0 0 w' h') ⟨L, c⟩ [] 0, 0⟩, none)) :=
  C12_depth_bound goGrow 160 160 1 3 deepTree deepTree_reachable (by norm_num)

/-! ## Collapse and capacity at concrete runs -/

theorem nestTree_built :
    Built goGrow 160 160 1 2 ([u1, u3, u2].reverse ++ []) nestTree :=
  Built.insertEntities [u1, u3, u2] (Built.new (by norm_num) (by norm_num))
    (by decide!) (by decide!) (r := none) (by decide!)

/-- C15, the code at the failing input: `nestTree` is built from
`New(160,160,1,2)` by inserting the pairwise non-equal entities `u1`, `u3`,
`u2`, which splits the root. `Remove(u3)` returns nil and leaves the root as a
leaf with an empty entity list; `Remove(u2)` then returns `ErrNoEntityFound`;
the root has no children but does not hold the remaining entity `u1`, and
`IsEntity(u1)` is false. -/
theorem C15_collapse_loses_remaining :
    Built goGrow 160 160 1 2 ([u1, u3, u2].reverse ++ []) nestTree ∧
      nestTree.node.children.map (fun c => (c.children.length, c.entities.list.length)) =
        [(4, 0), (0, 0), (0, 0), (0, 1)] ∧
      nestTree.IsEntity u1 = .ok true ∧
      nestTree.Remove goGrow u3 = .ok (emptiedTree, none) ∧
      emptiedTree.Remove goGrow u2 = .ok (emptiedTree, some ErrNoEntityFound) ∧
      emptiedTree.node.children = [] ∧ emptiedTree.node.entities.list = [] ∧
      emptiedTree.IsEntity u1 = .ok false :=
  ⟨nestTree_built, by decide!, by decide!, by decide!, by decide!, by decide!, by decide!,
    by decide!⟩

theorem splitTree3_reachable : Reachable goGrow 800 600 2 4 splitTree3 :=
  Reachable.insertEntities [s1, s2, s3] (Reachable.new (by norm_num) (by norm_num))
    (by decide!) (r := none) (by decide!)

/-- C20, the code at the failing input: after `InsertEntities(s1, s2, s3)` on
`New(800,600,2,4)` has completed, the root has four children of depth 1
without children, and the first of them holds three entities, more than the
leaf capacity 2, at a depth below the depth bound 4. -/
theorem C20_leaf_over_capacity :
    Reachable goGrow 800 600 2 4 splitTree3 ∧
      (New 800 600 2 4).InsertEntities goGrow [s1, s2, s3] = .ok (splitTree3, none) ∧
      splitTree3.maxDepth = 4 ∧
      splitTree3.node.children.map
          (fun c => (c.depth, c.children.length, c.entities.list.length)) =
        [(1, 0, 3), (1, 0, 0), (1, 0, 0), (1, 0, 0)] :=
  ⟨splitTree3_reachable, by decide!, by decide!, by decide!⟩

/-! ## The traversals on trees of any shape -/

theorem isEntityEach_sound (e : Entity) (cs : List node)
    (ih : ∀ c ∈ cs, ∀ b, c.isEntity e = .ok b →
      b = (c.routed e.Rect).any (fun l => l.entities.Contains e)) :
    ∀ b, isEntityEach e cs = .ok b →
      b = (routedEach e.Rect cs).any (fun l => l.entities.Contains e) := by
  induction cs with
  | nil => intro b h; simp [isEntityEach] at h; simp [routedEach, ← h]
  | cons c cs ihl =>
    intro b h
    have ihl := ihl (fun c hc => ih c (List.mem_cons_of_mem _ hc))
    by_cases hi : c.rect.Intersects e.Rect = true
    · simp only [isEntityEach, hi, if_true] at h
      cases hc : node.isEntity e c with
      | error p => rw [hc] at h; cases h
      | ok bc =>
        have h1 := ih c (List.mem_cons_self _ _) bc hc
        rw [hc] at h
        simp only [routedEach, hi, if_true, List.any_append, ← h1]
        cases bc with
        | true =>
          simp only [Except.ok.injEq] at h
          simp [← h]
        | false =>
          simp only at h
          simpa using ihl b h
    · simp only [isEntityEach, hi, if_false] at h
      simpa [routedEach, hi] using ihl b h

/-- On a tree of any shape, when `isEntity` returns, it answers whether some
visited leaf contains the entity. -/
theorem node.isEntity_sound (e : Entity) (n : node) :
    ∀ b, n.isEntity e = .ok b →
      b = (n.routed e.Rect).any (fun l => l.entities.Contains e) := by
  induction n using node.induct with
  | h rect es cs d ih =>
    intro b h
    by_cases hc : 0 < cs.length
    · simp only [node.isEntity, gt_iff_lt, hc, if_true] at h
      by_cases hq : ((node.mk rect es cs d).getQuadrant e.Rect).length = 0
      · rw [if_pos hq] at h; cases h
      · rw [if_neg hq] at h
        simp only [node.routed, gt_iff_lt, hc, if_true]
        exact isEntityEach_sound e cs ih b h
    · simp only [node.isEntity, gt_iff_lt, hc, if_false, Except.ok.injEq] at h
      simp [node.routed, hc, h]

theorem intersectEach_sound (r : Rect) (cs : List node)
    (ih : ∀ c ∈ cs, ∀ b, c.intersect r = .ok b →
      b = (c.routed r).any (fun l => l.entities.Intersect r)) :
    ∀ b, intersectEach r cs = .ok b →
      b = (routedEach r cs).any (fun l => l.entities.Intersect r) := by
  induction cs with
  | nil => intro b h; simp [intersectEach] at h; simp [routedEach, ← h]
  | cons c cs ihl =>
    intro b h
    have ihl := ihl (fun c hc => ih c (List.mem_cons_of_mem _ hc))
    by_cases hi : c.rect.Intersects r = true
    · simp only [intersectEach, hi, if_true] at h
      cases hc : node.intersect r c with
      | error p => rw [hc] at h; cases h
      | ok bc =>
        have h1 := ih c (List.mem_cons_self _ _) bc hc
        rw [hc] at h
        simp only [routedEach, hi, if_true, List.any_append, ← h1]
        cases bc with
        | true =>
          simp only [Except.ok.injEq] at h
          simp [← h]
        | false =>
          simp only at h
          simpa using ihl b h
    · simp only [intersectEach, hi, if_false] at h
      simpa [routedEach, hi] using ihl b h

/-- On a tree of any shape, when `intersect` returns, it answers whether some
visited leaf has an entity that intersects the rectangle. -/
theorem node.intersect_sound (r : Rect) (n : node) :
    ∀ b, n.intersect r = .ok b →
      b = (n.routed r).any (fun l => l.entities.Intersect r) := by
  induction n using node.induct with
  | h rect es cs d ih =>
    intro b h
    by_cases hc : 0 < cs.length
    · simp only [node.intersect, gt_iff_lt, hc, if_true] at h
      by_cases hq : ((node.mk rect es cs d).getQuadrant r).length = 0
      · rw [if_pos hq] at h; cases h
      · rw [if_neg hq] at h
        simp only [node.routed, gt_iff_lt, hc, if_true]
        exact intersectEach_sound r cs ih b h
    · simp only [node.intersect, gt_iff_lt, hc, if_false, Except.ok.injEq] at h
      simp [node.routed, hc, h]

theorem retrieveEach_sound (grow : Nat → Nat) (r : Rect) (cs : List node)
    (ih : ∀ c ∈ cs, ∀ res, c.retrieve grow r = .ok res →
      ∀ y, res.Contains y = (c.routed r).any (fun l => l.entities.Contains y)) :
    ∀ acc res, retrieveEach grow r acc cs = .ok res →
      ∀ y, res.Contains y =
        (acc.Contains y || (routedEach r cs).any (fun l => l.entities.Contains y)) := by
  induction cs with
  | nil =>
    intro acc res h y
    simp only [retrieveEach, Except.ok.injEq] at h
    simp [routedEach, h]
  | cons c cs ihl =>
    intro acc res h y
    have ihl := ihl (fun c hc => ih c (List.mem_cons_of_mem _ hc))
    by_cases hi : c.rect.Intersects r = true
    · simp only [retrieveEach, hi, if_true] at h
      cases hc : node.retrieve grow r c with
      | error p => rw [hc] at h; cases h
      | ok es =>
        rw [hc] at h
        rw [ihl _ res h y, Entities.Merge_Contains, ih c (List.mem_cons_self _ _) es hc y]
        simp [routedEach, hi, Bool.or_assoc]
    · simp only [retrieveEach, hi, if_false] at h
      rw [ihl acc res h y]
      simp [routedEach, hi]

/-- On a tree of any shape, when `retrieve` returns, the result contains
exactly what the visited leaves contain. -/
theorem node.retrieve_sound (grow : Nat → Nat) (r : Rect) (n : node) :
    ∀ res, n.retrieve grow r = .ok res →
      ∀ y, res.Contains y = (n.routed r).any (fun l => l.entities.Contains y) := by
  induction n using node.induct with
  | h rect es cs d ih =>
    intro res h y
    by_cases hc : 0 < cs.length
    · simp only [node.retrieve, gt_iff_lt, hc, if_true] at h
      by_cases hq : ((node.mk rect es cs d).getQuadrant r).length = 0
      · rw [if_pos hq] at h; cases h
      · rw [if_neg hq] at h
        rw [retrieveEach_sound grow r cs ih _ res h y]
        simp [node.routed, hc, Entities.Contains, Entities.nil]
    · simp only [node.retrieve, gt_iff_lt, hc, if_false, Except.ok.injEq] at h
      simp [node.routed, hc, h]

/-- On a tree of any shape, whenever `intersect(r)` and `retrieve(r)` both
return, `intersect(r)` is true if and only if `retrieve(r).Intersects(r)` is
not empty. -/
theorem node.intersect_iff_retrieve (grow : Nat → Nat) (n : node) (r : Rect) (b : Bool)
    (res : Entities) (hb : n.intersect r = .ok b) (hres : n.retrieve grow r = .ok res) :
    b = true ↔ (res.Intersects grow r).list ≠ [] := by
  have h1 := node.intersect_sound r n b hb
  have h2 := node.retrieve_sound grow r n res hres
  rw [Entities.Intersects_list]
  constructor
  · intro hbt
    rw [hbt] at h1
    obtain ⟨l, hl, hli⟩ := List.any_eq_true.1 h1.symm
    simp only [Entities.Intersect, List.any_eq_true] at hli
    obtain ⟨y, hy, hyr⟩ := hli
    have hcon : res.Contains y = true := by
      rw [h2 y, List.any_eq_true]
      exact ⟨l, hl, (Entities.Contains_iff _ _).2 ⟨y, hy, Entity.IsEqual_refl y⟩⟩
    obtain ⟨x, hx, hxy⟩ := (Entities.Contains_iff _ _).1 hcon
    have hxr : x.Intersects r = true := by
      simp only [Entity.Intersects] at hyr ⊢
      rw [Entity.IsEqual_rect hxy]; exact hyr
    exact List.ne_nil_of_mem (List.mem_filter.2 ⟨hx, hxr⟩)
  · intro hne
    obtain ⟨x, hx⟩ := List.exists_mem_of_ne_nil _ hne
    rw [List.mem_filter] at hx
    have hcon : res.Contains x = true :=
      (Entities.Contains_iff _ _).2 ⟨x, hx.1, Entity.IsEqual_refl x⟩
    rw [h2 x, List.any_eq_true] at hcon
    obtain ⟨l, hl, hlx⟩ := hcon
    obtain ⟨y, hy, hyx⟩ := (Entities.Contains_iff _ _).1 hlx
    rw [h1]
    rw [List.any_eq_true]
    refine ⟨l, hl, ?_⟩
    simp only [Entities.Intersect, List.any_eq_true]
    refine ⟨y, hy, ?_⟩
    have := hx.2
    simp only [Entity.Intersects] at this ⊢
    rw [Entity.IsEqual_rect hyx]; exact this

theorem intersectEach_returns (grow : Nat → Nat) (r : Rect) (cs : List node)
    (ih : ∀ c ∈ cs, ∀ res, c.retrieve grow r = .ok res → ∃ b, c.intersect r = .ok b) :
    ∀ acc res, retrieveEach grow r acc cs = .ok res → ∃ b, intersectEach r cs = .ok b := by
  induction cs with
  | nil => intro acc res _; exact ⟨false, rfl⟩
  | cons c cs ihl =>
    intro acc res h
    have ihl := ihl (fun c hc => ih c (List.mem_cons_of_mem _ hc))
    by_cases hi : c.rect.Intersects r = true
    · simp only [retrieveEach, hi, if_true] at h
      cases hc : node.retrieve grow r c with
      | error p => rw [hc] at h; cases h
      | ok es =>
        rw [hc] at h
        obtain ⟨bc, hbc⟩ := ih c (List.mem_cons_self _ _) es hc
        obtain ⟨bt, hbt⟩ := ihl _ res h
        cases bc with
        | true => exact ⟨true, by simp [intersectEach, hi, hbc]⟩
        | false => exact ⟨bt, by simp [intersectEach, hi, hbc, hbt]⟩
    · simp only [retrieveEach, hi, if_false] at h
      obtain ⟨bt, hbt⟩ := ihl acc res h
      exact ⟨bt, by simp [intersectEach, hi, hbt]⟩

/-- On a tree of any shape, where `retrieve(r)` returns, `intersect(r)`
returns too. -/
theorem node.intersect_returns (grow : Nat → Nat) (r : Rect) (n : node) :
    ∀ res, n.retrieve grow r = .ok res → ∃ b, n.intersect r = .ok b := by
  induction n using node.induct with
  | h rect es cs d ih =>
    intro res h
    by_cases hc : 0 < cs.length
    · simp only [node.retrieve, gt_iff_lt, hc, if_true] at h
      by_cases hq : ((node.mk rect es cs d).getQuadrant r).length = 0
      · rw [if_pos hq] at h; cases h
      · rw [if_neg hq] at h
        obtain ⟨b, hb⟩ := intersectEach_returns grow r cs ih _ res h
        exact ⟨b, by simp only [node.intersect, gt_iff_lt, hc, if_true, if_neg hq, hb]⟩
    · exact ⟨es.Intersect r, by simp [node.intersect, hc]⟩

/-- C26: on a tree of any shape and for any rectangle `r` on which
`retrieve(r)` returns, `intersect(r)` returns too, and it is true if and only
if `retrieve(r).Intersects(r)` is not empty. -/
theorem C26_intersect_iff_intersects (grow : Nat → Nat) (n : node) (r : Rect)
    (res : Entities) (hres : n.retrieve grow r = .ok res) :
    ∃ b, n.intersect r = .ok b ∧ (b = true ↔ (res.Intersects grow r).list ≠ []) := by
  obtain ⟨b, hb⟩ := node.intersect_returns grow r n res hres
  exact ⟨b, hb, node.intersect_iff_retrieve grow n r b res hb hres⟩

/-- Witness of C26: the query `probe` on `deepTree`. -/
theorem C26_witness :
    ∃ b, deepTree.node.intersect probe = .ok b ∧
      (b = true ↔ ((⟨[k1], 1⟩ : Entities).Intersects goGrow probe).list ≠ []) :=
  C26_intersect_iff_intersects goGrow deepTree.node probe ⟨[k1], 1⟩ (by decide!)

/-! ## No routing panic on input inside the region -/

/-- C23: in every reachable tree (a) every entity held by a leaf is
well-formed and its bounds intersect that leaf's region, (b) every
well-formed rectangle that intersects the region of a node with children
intersects the region of at least one of its children, so `getQuadrant` is
not empty there, and (c) for every well-formed entity or rectangle that
intersects the root region, `Insert` (with the `moveEntities` of a split),
`InsertEntities`, `Remove`, `IsEntity`, `Retrieve`, `Intersects` and
`Intersect` return: none of them ends in the panic on `ErrNoNodeFound`. -/
theorem C23_no_routing_panic (grow : Nat → Nat) (w h : ℚ) (me md : Nat) (q : Quadpix)
    (hq : Reachable grow w h me md q) :
    (∀ l ∈ q.node.leaves, ∀ x ∈ l.entities.list,
      x.Rect.wf = true ∧ l.rect.Intersects x.Rect = true) ∧
    (∀ m ∈ q.node.nodes, 0 < m.children.length →
      ∀ s : Rect, s.wf = true → m.rect.Intersects s = true →
        (∃ c ∈ m.children, c.rect.Intersects s = true) ∧ (m.getQuadrant s).length ≠ 0) ∧
    (∀ e : Entity, admissible w h e = true →
      (∃ q', q.Insert grow e.ID e.Rect e.Actions = .ok q') ∧
      (∃ q' r, q.Remove grow e = .ok (q', r)) ∧
      (∃ b, q.IsEntity e = .ok b)) ∧
    (∀ es : List Entity, (∀ e ∈ es, admissible w h e = true) →
      ∃ q' r, q.InsertEntities grow es = .ok (q', r)) ∧
    (∀ r : Rect, r.wf = true → (R 0 0 w h).Intersects r = true →
      (∃ res, q.Retrieve grow r = .ok res) ∧
      (∃ res, q.Intersects grow r = .ok res) ∧
      (∃ b, q.Intersect r = .ok b)) := by
  obtain ⟨hok, hrect, -⟩ := hq.shape
  refine ⟨?_, ?_, ?_, ?_, ?_⟩
  · intro l hl x hx
    obtain ⟨h1, -, -⟩ := node.leaves_ok q.node hok l hl
    have := node.ok_fits h1 x hx
    simpa [Entity.fits] using this
  · intro m hm hc s hs hi
    have hmok := node.nodes_ok q.node hok m hm
    cases m with
    | mk rect es cs d =>
      simp only [node.children_mk] at hc
      obtain ⟨-, -, hquad, -⟩ := (node.ok_inner _ _ _ _ hc).1 hmok
      have hne := getQuadrant_ne_nil hquad hs (by simpa using hi)
      refine ⟨by simpa using hne, ?_⟩
      rw [Ne, getQuadrant_length hne]
      exact not_false
  · intro e he
    simp only [admissible, Bool.and_eq_true] at he
    have hi : q.node.rect.Intersects e.Rect = true := by rw [hrect]; exact he.2
    refine ⟨?_, ?_, ?_⟩
    · obtain ⟨n', h1, -⟩ := node.insert_spec grow e q.maxDepth he.1 q.node hok hi
      have he' : E e.ID e.Rect e.Actions = e := rfl
      exact ⟨⟨n', q.maxDepth⟩, by simp only [Quadpix.Insert, he', h1]⟩
    · obtain ⟨n', r, h1, -⟩ := node.remove_spec grow e he.1 q.node hok hi
      exact ⟨⟨n', q.maxDepth⟩, r, by simp only [Quadpix.Remove, h1]⟩
    · exact ⟨_, node.isEntity_eq e he.1 q.node hok hi⟩
  · intro es hes
    by_cases hlen : es.length = 0
    · exact ⟨q, some ErrNoEntitiesGiven, by simp [Quadpix.InsertEntities, hlen]⟩
    · obtain ⟨n', h1, -, -⟩ := insertAll_spec grow q.maxDepth (R 0 0 w h) es q.node hok hrect
        (fun e he => by simpa [Entity.fits, admissible] using hes e he)
      exact ⟨⟨n', q.maxDepth⟩, none, by simp only [Quadpix.InsertEntities, hlen, if_false, h1]⟩
  · intro r hr hi
    have hi' : q.node.rect.Intersects r = true := by rw [hrect]; exact hi
    obtain ⟨res, h1, -⟩ := node.retrieve_spec grow r hr q.node hok hi'
    exact ⟨⟨res, h1⟩, ⟨res.Intersects grow r, by simp only [Quadpix.Intersects, h1]⟩,
      ⟨(q.node.routed r).any (fun l => l.entities.Intersect r),
        node.intersect_eq r hr q.node hok hi'⟩⟩

/-- Witness of C23: the tree `deepTree`. -/
theorem C23_witness :
    (∀ l ∈ deepTree.node.leaves, ∀ x ∈ l.entities.list,
      x.Rect.wf = true ∧ l.rect.Intersects x.Rect = true) ∧
    (∀ m ∈ deepTree.node.nodes, 0 < m.children.length →
      ∀ s : Rect, s.wf = true → m.rect.Intersects s = true →
        (∃ c ∈ m.children, c.rect.Intersects s = true) ∧ (m.getQuadrant s).length ≠ 0) ∧
    (∀ e : Entity, admissible 160 160 e = true →
      (∃ q', deepTree.Insert goGrow e.ID e.Rect e.Actions = .ok q') ∧
      (∃ q' r, deepTree.Remove goGrow e = .ok (q', r)) ∧
      (∃ b, deepTree.IsEntity e = .ok b)) ∧
    (∀ es : List Entity, (∀ e ∈ es, admissible 160 160 e = true) →
      ∃ q' r, deepTree.InsertEntities goGrow es = .ok (q', r)) ∧
    (∀ r : Rect, r.wf = true → (R 0 0 160 160).Intersects r = true →
      (∃ res, deepTree.Retrieve goGrow r = .ok res) ∧
      (∃ res, deepTree.Intersects goGrow r = .ok res) ∧
      (∃ b, deepTree.Intersect r = .ok b)) :=
  C23_no_routing_panic goGrow 160 160 1 3 deepTree deepTree_reachable

/-! ## The collapse condition -/

theorem Entities.fresh_append (a b : List Entity) :
    ∀ acc : List Entity,
      Entities.fresh acc (a ++ b) =
        Entities.fresh acc a ++ Entities.fresh (acc ++ Entities.fresh acc a) b := by
  induction a with
  | nil => intro acc; simp [Entities.fresh]
  | cons x xs ih =>
    intro acc
    by_cases hx : acc.any (fun a => a.IsEqual x) = true
    · simp only [List.cons_append, Entities.fresh, hx, if_true]
      exact ih acc
    · simp only [List.cons_append, Entities.fresh, hx, if_false, Bool.false_eq_true]
      rw [List.append_eq, ih (acc ++ [x])]
      simp

/-- The slice that collapse builds lists the own entities of the children, in
order, without those equal to one already taken. -/
theorem mergeChildren_list (grow : Nat → Nat) (cs : List node) :
    ∀ e : Entities,
      (cs.foldl (fun acc c => acc.Merge grow c.entities) e).list =
        e.list ++ Entities.fresh e.list (cs.flatMap (fun c => c.entities.list)) := by
  induction cs with
  | nil => intro e; simp [Entities.fresh]
  | cons c cs ih =>
    intro e
    rw [List.foldl_cons, ih]
    have h : (e.Merge grow c.entities).list =
        e.list ++ Entities.fresh e.list c.entities.list :=
      Entities.mergeLoop_list grow c.entities.list e
    rw [h, List.flatMap_cons, Entities.fresh_append, List.append_assoc]

/-- When the loop of remove over the children ends without an error, every
child whose region the bounds intersect has been replaced by the node its own
remove left behind, which returned nil, and every other child is untouched. -/
theorem removeEach_done (grow : Nat → Nat) (e : Entity) (cs : List node) :
    ∀ cs', removeEach grow e cs = .ok (cs', none) →
      List.Forall₂ (fun c c' =>
        if c.rect.Intersects e.Rect = true then c.remove grow e = .ok (c', none)
        else c' = c) cs cs' := by
  induction cs with
  | nil =>
    intro cs' h
    simp only [removeEach, Except.ok.injEq, Prod.mk.injEq] at h
    rw [← h.1]; exact List.Forall₂.nil
  | cons c cs ih =>
    intro cs' h
    by_cases hi : c.rect.Intersects e.Rect = true
    · simp only [removeEach, hi, if_true] at h
      cases hc : node.remove grow e c with
      | error p => rw [hc] at h; cases h
      | ok pr =>
        obtain ⟨c', rc⟩ := pr
        rw [hc] at h
        cases rc with
        | some err => simp at h
        | none =>
          simp only at h
          cases ht : removeEach grow e cs with
          | error p => rw [ht] at h; cases h
          | ok pt =>
            obtain ⟨t', rt⟩ := pt
            rw [ht] at h
            simp only [Except.ok.injEq, Prod.mk.injEq] at h
            obtain ⟨h1, h2⟩ := h
            subst h2
            rw [← h1]
            exact List.Forall₂.cons (by rw [if_pos hi]; exact hc) (ih t' ht)
    · simp only [removeEach, hi, if_false, Bool.false_eq_true] at h
      cases ht : removeEach grow e cs with
      | error p => rw [ht] at h; cases h
      | ok pt =>
        obtain ⟨t', rt⟩ := pt
        rw [ht] at h
        simp only [Except.ok.injEq, Prod.mk.injEq] at h
        obtain ⟨h1, h2⟩ := h
        subst h2
        rw [← h1]
        exact List.Forall₂.cons (by rw [if_neg hi]) (ih t' ht)

/-- C21: for every node, `collapse` computes the union `U`, deduplicated by
`IsEqual`, of the own entity lists of its children (their elements in order,
each kept unless it is equal to one already taken, so no two elements of `U`
are equal and `U` contains exactly what some child's list contains); when
`|U|` is at most the capacity of the node's own slice the node afterwards has
no children and its entity list is `U`, otherwise the node is unchanged. A
remove through a node with children that returns nil has run the removes of
the children it routes to first, each of which returned nil, and then applied
this check to the node; a remove that returns an error applies no check. -/
theorem C21_collapse_condition (grow : Nat → Nat) :
    (∀ n : node, ∃ U : Entities,
      U.list = Entities.fresh [] (n.children.flatMap (fun c => c.entities.list)) ∧
      U.list.Pairwise (fun a b => a.IsEqual b = false) ∧
      (∀ x, U.Contains x = true ↔ ∃ c ∈ n.children, c.entities.Contains x = true) ∧
      (U.list.length ≤ n.entities.cap → n.collapse grow = .mk n.rect U [] n.depth) ∧
      (¬ U.list.length ≤ n.entities.cap → n.collapse grow = n)) ∧
    (∀ (e : Entity) (rect : Rect) (es : Entities) (cs : List node) (d : Nat) (n' : node)
        (r : Option Err), 0 < cs.length →
      (node.mk rect es cs d).remove grow e = .ok (n', r) →
      ∃ cs', removeEach grow e cs = .ok (cs', r) ∧
        (r = none → n' = (node.mk rect es cs' d).collapse grow ∧
          List.Forall₂ (fun c c' =>
            if c.rect.Intersects e.Rect = true then c.remove grow e = .ok (c', none)
            else c' = c) cs cs') ∧
        (r ≠ none → n' = .mk rect es cs' d)) := by
  constructor
  · intro n
    refine ⟨n.children.foldl (fun acc c => acc.Merge grow c.entities) (Entities.make 0),
      ?_, ?_, ?_, ?_, ?_⟩
    · rw [mergeChildren_list]; simp [Entities.make]
    · exact mergeChildren_pairwise grow _ _ (by simp [Entities.make])
    · intro x
      rw [mergeChildren_Contains]
      simp [Entities.make, Entities.Contains]
    · intro h
      simp only [node.collapse, h, if_true, List.take_zero]
    · intro h
      simp only [node.collapse, h, if_false]
  · intro e rect es cs d n' r hc h
    simp only [node.remove, gt_iff_lt, hc, if_true] at h
    by_cases hq : ((node.mk rect es cs d).getQuadrant e.Rect).length = 0
    · rw [if_pos hq] at h; cases h
    · rw [if_neg hq] at h
      cases ht : removeEach grow e cs with
      | error p => rw [ht] at h; cases h
      | ok pt =>
        obtain ⟨cs', rt⟩ := pt
        rw [ht] at h
        cases rt with
        | some err =>
          simp only [Except.ok.injEq, Prod.mk.injEq] at h
          refine ⟨cs', ?_, ?_, ?_⟩
          · rw [← h.2]
          · intro hr; rw [hr] at h; cases h.2
          · intro _; exact h.1.symm
        | none =>
          simp only [Except.ok.injEq, Prod.mk.injEq] at h
          refine ⟨cs', ?_, ?_, ?_⟩
          · rw [← h.2]
          · intro _; exact ⟨h.1.symm, removeEach_done grow e cs cs' ht⟩
          · intro hr; exact absurd h.2.symm hr

/-! ## The capacity of the entity slices -/

theorem emptiedTree_reachable : Reachable goGrow 160 160 1 2 emptiedTree :=
  Reachable.remove u3
    (Reachable.insertEntities [u1, u3, u2] (Reachable.new (by norm_num) (by norm_num))
      (by decide!) (r := none) (show _ = Except.ok (nestTree, none) by decide!))
    (by decide!) (r := none) (by decide!)

theorem mergedTree_reachable : Reachable goGrow 160 160 3 2 mergedTree :=
  Reachable.remove v4
    (Reachable.insertEntities [v1, v2, v3, v4] (Reachable.new (by norm_num) (by norm_num))
      (by decide!) (r := none) (show _ = Except.ok (quadTree, none) by decide!))
    (by decide!) (r := none) (by decide!)

/-- C22, the code at the failing inputs. (1) After `InsertEntities(s1, s2, s3)`
on `New(800,600,2,4)` the first child of the root is a leaf whose slice has
capacity 4, not 2: `moveEntities` appended a third entity to it. (2) A root
leaf at the depth bound that is appended a second entity has the capacity the
runtime chose, `grow 1`, not 1. (3) `Remove(v4)` on `quadTree`, built with
capacity 3, collapses the root; the root's slice is then the merged slice, of
capacity 4. (4) `Remove(u3)` on `nestTree`, built with capacity 1, leaves a
root leaf of capacity 0; the next insert of one entity splits that empty root,
and all nodes it creates have capacity 0 or what the runtime chose. -/
theorem C22_capacity_drifts :
    (Reachable goGrow 800 600 2 4 splitTree3 ∧
      (New 800 600 2 4).node.entities.cap = 2 ∧
      splitTree3.node.nodes.map
          (fun m => (m.depth, m.children.length, m.entities.list.length, m.entities.cap)) =
        [(0, 4, 0, 2), (1, 0, 3, 4), (1, 0, 0, 2), (1, 0, 0, 2), (1, 0, 0, 2)]) ∧
    (∀ grow : Nat → Nat,
      Reachable grow 800 600 1 0 (fullLeaf grow) ∧
      (fullLeaf grow).node.children = [] ∧ (fullLeaf grow).node.entities.cap = grow 1) ∧
    (Reachable goGrow 160 160 3 2 mergedTree ∧
      quadTree.node.nodes.map
          (fun m => (m.depth, m.children.length, m.entities.list.length, m.entities.cap)) =
        [(0, 4, 0, 3), (1, 0, 1, 3), (1, 0, 1, 3), (1, 0, 1, 3), (1, 0, 1, 3)] ∧
      quadTree.Remove goGrow v4 = .ok (mergedTree, none) ∧
      mergedTree.node.nodes.map
          (fun m => (m.depth, m.children.length, m.entities.list.length, m.entities.cap)) =
        [(0, 0, 3, 4)]) ∧
    (Reachable goGrow 160 160 1 2 emptiedTree ∧
      (New 160 160 1 2).node.entities.cap = 1 ∧
      nestTree.Remove goGrow u3 = .ok (emptiedTree, none) ∧
      emptiedTree.node.nodes.map
          (fun m => (m.depth, m.children.length, m.entities.list.length, m.entities.cap)) =
        [(0, 0, 0, 0)] ∧
      emptiedTree.InsertEntities goGrow [u3] = .ok (resplitTree, none) ∧
      resplitTree.node.nodes.map
          (fun m => (m.depth, m.children.length, m.entities.list.length, m.entities.cap)) =
        [(0, 4, 0, 0), (1, 0, 0, 0), (1, 0, 0, 0), (1, 0, 0, 0), (1, 0, 1, 1)]) := by
  refine ⟨⟨splitTree3_reachable, by decide!, by decide!⟩, fun grow => ⟨?_, ?_, ?_⟩,
    ⟨mergedTree_reachable, by decide!, by decide!, by decide!⟩,
    ⟨emptiedTree_reachable, by decide!, by decide!, by decide!, by decide!, by decide!⟩⟩
  · have h : (New 800 600 1 0).InsertEntities grow [s1, s2] =
        .ok (fullLeaf grow, none) := by
      simp [fullLeaf, Quadpix.after, Quadpix.InsertEntities, insertAll, node.insert, New,
        Entities.make, Entities.append]
    exact Reachable.insertEntities [s1, s2] (Reachable.new (by norm_num) (by norm_num))
      (by decide!) h
  · simp [fullLeaf, Quadpix.after, Quadpix.InsertEntities, insertAll, node.insert, New,
      Entities.make, Entities.append]
  · simp [fullLeaf, Quadpix.after, Quadpix.InsertEntities, insertAll, node.insert, New,
      Entities.make, Entities.append]

/-! ## Leaf contents of a tree built by insertions only -/

theorem forall₂_mem_right {α β : Type} {R : α → β → Prop} {l : List α} {l' : List β}
    (h : List.Forall₂ R l l') : ∀ b ∈ l', ∃ a ∈ l, R a b := by
  induction h with
  | nil => intro b hb; cases hb
  | @cons a b l l' hab _ ih =>
    intro b' hb'
    rcases List.mem_cons.1 hb' with rfl | hb'
    · exact ⟨a, List.mem_cons_self _ _, hab⟩
    · obtain ⟨a', ha', hr⟩ := ih b' hb'
      exact ⟨a', List.mem_cons_of_mem _ ha', hr⟩

theorem forall₂_mem_left {α β : Type} {R : α → β → Prop} {l : List α} {l' : List β}
    (h : List.Forall₂ R l l') : ∀ a ∈ l, ∃ b ∈ l', R a b := by
  induction h with
  | nil => intro a ha; cases ha
  | @cons a b l l' hab _ ih =>
    intro a' ha'
    rcases List.mem_cons.1 ha' with rfl | ha'
    · exact ⟨b, List.mem_cons_self _ _, hab⟩
    · obtain ⟨b', hb', hr⟩ := ih a' ha'
      exact ⟨b', List.mem_cons_of_mem _ hb', hr⟩

/-- The leaves of a node whose children were just created by a split and have
received entities are these children. -/
theorem leavesEach_receive (grow : Nat → Nat) (xs : List Entity) (cs : List node)
    (h : ∀ a ∈ cs, a.children = []) :
    leavesEach (cs.map (node.receive grow xs)) = cs.map (node.receive grow xs) := by
  induction cs with
  | nil => rfl
  | cons a t ih =>
    have ha := h a (List.mem_cons_self _ _)
    cases a with
    | mk rect es ch d =>
      simp only [node.children_mk] at ha
      subst ha
      simp only [List.map_cons, leavesEach]
      rw [ih (fun b hb => h b (List.mem_cons_of_mem _ hb))]
      simp [node.receive, node.leaves]

/-- One insert keeps the leaves filtered: when every leaf holds the entities
of `S` that intersect its region, in order, afterwards every leaf holds those
of `S` followed by the inserted entity. -/
theorem node.insert_filter (grow : Nat → Nat) (e : Entity) (md : Nat)
    (he : e.Rect.wf = true) (n : node) (hok : n.ok = true)
    (hi : n.rect.Intersects e.Rect = true) :
    ∃ n', n.insert grow e md = .ok n' ∧
      ∀ S : List Entity,
        (∀ l ∈ n.leaves, l.entities.list = S.filter (fun x => l.rect.Intersects x.Rect)) →
        ∀ l' ∈ n'.leaves,
          l'.entities.list = (S ++ [e]).filter (fun x => l'.rect.Intersects x.Rect) := by
  have key := node.insert_induct grow e md he
    (fun n n' => n.rect.Intersects e.Rect = true → ∀ S : List Entity,
      (∀ l ∈ n.leaves, l.entities.list = S.filter (fun x => l.rect.Intersects x.Rect)) →
      ∀ l' ∈ n'.leaves,
        l'.entities.list = (S ++ [e]).filter (fun x => l'.rect.Intersects x.Rect))
    ?_ ?_ ?_ n hok hi
  · obtain ⟨n', h1, h2⟩ := key
    exact ⟨n', h1, h2 hi⟩
  · intro rect es d _ _ hir S hS l' hl'
    simp only [node.leaves, List.length_nil, gt_iff_lt, lt_self_iff_false, if_false,
      List.mem_singleton] at hl' hS
    subst hl'
    have hir' : rect.Intersects e.Rect = true := by simpa using hir
    have := hS _ rfl
    simp only [node.entities_mk, node.rect_mk] at this ⊢
    simp [Entities.append, this, List.filter_append, hir']
  · intro rect es d cs hok _ hq hcs hir S hS l' hl'
    have hwf := node.ok_wf hok
    simp only [node.rect_mk] at hwf
    have hlen : 0 < (cs.map (node.receive grow (es.append grow e).list)).length := by
      have := congrArg List.length hq
      simp only [List.length_map, Rect.quadrants, List.length_cons, List.length_nil] at this
      simp only [List.length_map]; omega
    simp only [node.leaves, gt_iff_lt, hlen, if_true] at hl'
    rw [leavesEach_receive grow _ cs (fun a ha => (hcs a ha).1), List.mem_map] at hl'
    obtain ⟨a, ha, rfl⟩ := hl'
    simp only [node.leaves, List.length_nil, gt_iff_lt, lt_self_iff_false, if_false,
      List.mem_singleton] at hS
    have hes := hS _ rfl
    simp only [node.entities_mk, node.rect_mk] at hes
    have haq : a.rect ∈ rect.quadrants := by
      rw [← hq]; exact List.mem_map_of_mem _ ha
    have hae : a.entities.list = [] := by rw [(hcs a ha).2.1]; rfl
    simp only [node.receive, node.entities_mk, node.rect_mk, Entities.appendAll_list, hae,
      List.nil_append, Entities.append, hes, List.filter_append, List.filter_filter]
    congr 1
    apply List.filter_congr
    intro x _
    by_cases hx : a.rect.Intersects x.Rect = true
    · simp [hx, Rect.quadrants_sub hwf haq hx]
    · simp [hx]
  · intro rect es cs cs' d hok hc hrel _ S hS l' hl'
    obtain ⟨-, -, -, hcs⟩ := (node.ok_inner _ _ _ _ hc).1 hok
    have hc' : 0 < cs'.length := by rw [← hrel.length_eq]; exact hc
    simp only [node.leaves, gt_iff_lt, hc, hc', if_true, leavesEach_mem] at hS hl'
    obtain ⟨c', hc'm, hl'c⟩ := hl'
    obtain ⟨c, hcm, h1, h2⟩ := forall₂_mem_right hrel c' hc'm
    by_cases hic : c.rect.Intersects e.Rect = true
    · exact (h1 hic).2 hic S (fun l hl => hS l ⟨c, hcm, hl⟩) l' hl'c
    · have hic' : c.rect.Intersects e.Rect = false := by simpa using hic
      have hcc := h2 hic'
      subst hcc
      have hl'e : l'.rect.Intersects e.Rect = false := by
        by_contra hcon
        have hcon' : l'.rect.Intersects e.Rect = true := by simpa using hcon
        exact hic ((node.leaves_ok _ (hcs _ hcm) l' hl'c).2.2 _ hcon')
      rw [hS l' ⟨_, hcm, hl'c⟩]
      simp [List.filter_append, hl'e]

theorem insertAll_filter (grow : Nat → Nat) (md : Nat) (rect : Rect) (es : List Entity) :
    ∀ (n : node) (S : List Entity), n.ok = true → n.rect = rect →
      (∀ e ∈ es, e.fits rect = true) →
      (∀ l ∈ n.leaves, l.entities.list = S.filter (fun x => l.rect.Intersects x.Rect)) →
      ∃ n', insertAll grow md es n = .ok n' ∧
        ∀ l' ∈ n'.leaves,
          l'.entities.list = (S ++ es).filter (fun x => l'.rect.Intersects x.Rect) := by
  induction es with
  | nil => intro n S _ _ _ hS; exact ⟨n, rfl, by simpa using hS⟩
  | cons e es ih =>
    intro n S hok hr hes hS
    have he := hes e (List.mem_cons_self _ _)
    simp only [Entity.fits, Bool.and_eq_true] at he
    have hi : n.rect.Intersects e.Rect = true := by rw [hr]; exact he.2
    obtain ⟨n1, h1, g⟩ := node.insert_spec grow e md he.1 n hok hi
    obtain ⟨n1', h1', g'⟩ := node.insert_filter grow e md he.1 n hok hi
    rw [h1, Except.ok.injEq] at h1'
    subst h1'
    obtain ⟨n2, k1, k2⟩ := ih n1 (S ++ [e]) g.ok (g.rect.trans hr)
      (fun x hx => hes x (List.mem_cons_of_mem _ hx)) (g' S hS)
    refine ⟨n2, by simp [insertAll, h1, k1], ?_⟩
    simpa using k2

theorem Grown.reachable {grow : Nat → Nat} {w h : ℚ} {me md : Nat} {L : List Entity}
    {q : Quadpix} (hq : Grown grow w h me md L q) : Reachable grow w h me md q := by
  induction hq with
  | new hw hh => exact Reachable.new hw hh
  | insert id rect action _ ha hins ih => exact Reachable.insert id rect action ih ha hins
  | insertEntities es _ ha hins ih => exact Reachable.insertEntities es ih ha hins

/-- C24: in a tree built from `New` by `Insert` and `InsertEntities` only, where
`L` lists the inserted entities in insertion order, the entity list of every
leaf is the sublist of `L`, in insertion order, of the entities whose bounds
intersect that leaf's region; so an entity of `L` is in the list of every leaf
its bounds intersect and of no other. Such a tree exists for every list of
well-formed entities that intersect the root region. -/
theorem C24_leaf_contents (grow : Nat → Nat) (w h : ℚ) (me md : Nat) (L : List Entity)
    (q : Quadpix) (hq : Grown grow w h me md L q) :
    (∀ l ∈ q.node.leaves,
      l.entities.list = L.filter (fun x => l.rect.Intersects x.Rect)) ∧
    (∀ x ∈ L, ∀ l ∈ q.node.leaves,
      x ∈ l.entities.list ↔ l.rect.Intersects x.Rect = true) ∧
    (∀ es : List Entity, (∀ e ∈ es, admissible w h e = true) →
      ∃ q' r, q.InsertEntities grow es = .ok (q', r) ∧ Grown grow w h me md (L ++ es) q') := by
  have main : ∀ l ∈ q.node.leaves,
      l.entities.list = L.filter (fun x => l.rect.Intersects x.Rect) := by
    induction hq with
    | new hw hh =>
      intro l hl
      simp [New, node.leaves, Entities.make] at hl
      subst hl
      rfl
    | @insert L q q' id rect action hg ha hins ih =>
      obtain ⟨hok, hrect, -⟩ := hg.reachable.shape
      simp only [admissible, Bool.and_eq_true] at ha
      obtain ⟨n', h1, h2⟩ := node.insert_filter grow (E id rect action) q.maxDepth ha.1
        q.node hok (by rw [hrect]; exact ha.2)
      simp only [Quadpix.Insert, h1, Except.ok.injEq] at hins
      subst hins
      exact h2 L ih
    | @insertEntities L q q' r es hg ha hins ih =>
      obtain ⟨hok, hrect, -⟩ := hg.reachable.shape
      by_cases hlen : es.length = 0
      · simp only [Quadpix.InsertEntities, hlen, if_true, Except.ok.injEq,
          Prod.mk.injEq] at hins
        have hnil : es = [] := List.length_eq_zero.1 hlen
        rw [← hins.1, hnil, List.append_nil]
        exact ih
      · obtain ⟨n', h1, h2⟩ := insertAll_filter grow q.maxDepth (R 0 0 w h) es q.node L hok
          hrect (fun e he => by simpa [Entity.fits, admissible] using ha e he) ih
        simp only [Quadpix.InsertEntities, hlen, if_false, h1, Except.ok.injEq,
          Prod.mk.injEq] at hins
        rw [← hins.1]
        exact h2
  refine ⟨main, ?_, ?_⟩
  · intro x hx l hl
    rw [main l hl, List.mem_filter]
    exact ⟨fun h => h.2, fun h => ⟨hx, h⟩⟩
  · intro es hes
    obtain ⟨hok, hrect, -⟩ := hq.reachable.shape
    by_cases hlen : es.length = 0
    · have h1 : q.InsertEntities grow es = .ok (q, some ErrNoEntitiesGiven) := by
        simp [Quadpix.InsertEntities, hlen]
      exact ⟨q, _, h1, Grown.insertEntities es hq hes h1⟩
    · obtain ⟨n', h1, -, -⟩ := insertAll_spec grow q.maxDepth (R 0 0 w h) es q.node hok hrect
        (fun e he => by simpa [Entity.fits, admissible] using hes e he)
      have h2 : q.InsertEntities grow es = .ok (⟨n', q.maxDepth⟩, none) := by
        simp only [Quadpix.InsertEntities, hlen, if_false, h1]
      exact ⟨_, _, h2, Grown.insertEntities es hq hes h2⟩

/-- Witness of C24: the tree `deepTree`, built by `InsertEntities(k1, k2, k3,
k4)`. -/
theorem C24_witness :
    (∀ l ∈ deepTree.node.leaves,
      l.entities.list = ([] ++ [k1, k2, k3, k4]).filter (fun x => l.rect.Intersects x.Rect)) ∧
    (∀ x ∈ [] ++ [k1, k2, k3, k4], ∀ l ∈ deepTree.node.leaves,
      x ∈ l.entities.list ↔ l.rect.Intersects x.Rect = true) ∧
    (∀ es : List Entity, (∀ e ∈ es, admissible 160 160 e = true) →
      ∃ q' r, deepTree.InsertEntities goGrow es = .ok (q', r) ∧
        Grown goGrow 160 160 1 3 ([] ++ [k1, k2, k3, k4] ++ es) q') :=
  C24_leaf_contents goGrow 160 160 1 3 ([] ++ [k1, k2, k3, k4]) deepTree
    (Grown.insertEntities [k1, k2, k3, k4] (Grown.new (by norm_num) (by norm_num))
      (by decide!) (r := none) (by decide!))

/-! ## Insert does not disturb what is stored -/

theorem node.routed_sub (r : Rect) (n : node) : ∀ l ∈ n.routed r, l ∈ n.leaves := by
  induction n using node.induct with
  | h rect es cs d ih =>
    intro l hl
    by_cases hc : 0 < cs.length
    · simp only [node.routed, node.leaves, gt_iff_lt, hc, if_true, routedEach_mem,
        leavesEach_mem] at hl ⊢
      obtain ⟨c, hcm, -, hlc⟩ := hl
      exact ⟨c, hcm, ih c hcm l hlc⟩
    · simpa [node.routed, node.leaves, hc] using hl

theorem Rect.Intersects_comm (r s : Rect) : r.Intersects s = s.Intersects r := by
  rw [Bool.eq_iff_iff, Rect.Intersects_iff, Rect.Intersects_iff]
  constructor <;> rintro ⟨h1, h2, h3, h4⟩ <;> exact ⟨h2, h1, h4, h3⟩

theorem Rect.Intersects_self {r : Rect} (h : r.wf = true) : r.Intersects r = true := by
  rw [Rect.wf_iff] at h
  rw [Rect.Intersects_iff]
  exact ⟨h.1, h.1, h.2, h.2⟩

/-- One insert keeps every visit: for a well-formed rectangle `r` that
intersects the region and an entity whose bounds intersect `r`, when a leaf
visited for `r` contains the entity before the insert, a leaf visited for `r`
contains it afterwards. -/
theorem node.insert_keeps (grow : Nat → Nat) (e : Entity) (md : Nat)
    (he : e.Rect.wf = true) (n : node) (hok : n.ok = true)
    (hi : n.rect.Intersects e.Rect = true) :
    ∃ n', n.insert grow e md = .ok n' ∧ n'.rect = n.rect ∧
      ∀ (r : Rect) (x : Entity), r.wf = true → n.rect.Intersects r = true →
        x.Rect.Intersects r = true →
        (∃ l ∈ n.routed r, l.entities.Contains x = true) →
        ∃ l' ∈ n'.routed r, l'.entities.Contains x = true := by
  refine node.insert_induct grow e md he
    (fun n n' => n'.rect = n.rect ∧
      ∀ (r : Rect) (x : Entity), r.wf = true → n.rect.Intersects r = true →
        x.Rect.Intersects r = true →
        (∃ l ∈ n.routed r, l.entities.Contains x = true) →
        ∃ l' ∈ n'.routed r, l'.entities.Contains x = true)
    ?_ ?_ ?_ n hok hi
  · intro rect es d _ _
    refine ⟨rfl, ?_⟩
    intro r x _ _ _ hl
    obtain ⟨l, hl, hlx⟩ := hl
    simp only [node.routed, List.length_nil, gt_iff_lt, lt_self_iff_false, if_false,
      List.mem_singleton] at hl
    subst hl
    refine ⟨.mk rect (es.append grow e) [] d, by simp [node.routed], ?_⟩
    simp only [node.entities_mk] at hlx ⊢
    rw [Entities.Contains_append, hlx, Bool.true_or]
  · intro rect es d cs hok _ hq hcs
    refine ⟨rfl, ?_⟩
    intro r x hr hir hxr hl
    obtain ⟨l, hl, hlx⟩ := hl
    simp only [node.routed, List.length_nil, gt_iff_lt, lt_self_iff_false, if_false,
      List.mem_singleton] at hl
    subst hl
    simp only [node.entities_mk, node.rect_mk] at hlx hir
    obtain ⟨y, hy, hyx⟩ := (Entities.Contains_iff _ _).1 hlx
    have hfit := ((node.ok_leaf rect es d).1 hok).2 y hy
    simp only [Entity.fits, Bool.and_eq_true] at hfit
    have hry : r.Intersects y.Rect = true := by
      rw [Entity.IsEqual_rect hyx, Rect.Intersects_comm]; exact hxr
    obtain ⟨qr, hqr, hq1, hq2⟩ := Rect.quadrants_cover2 hr hfit.1 hir hfit.2 hry
    rw [← hq, List.mem_map] at hqr
    obtain ⟨a, ha, rfl⟩ := hqr
    have hlen : 0 < (cs.map (node.receive grow (es.append grow e).list)).length := by
      simp only [List.length_map]; exact List.length_pos_of_mem ha
    have hach := (hcs a ha).1
    refine ⟨node.receive grow (es.append grow e).list a, ?_, ?_⟩
    · simp only [node.routed, gt_iff_lt, hlen, if_true, routedEach_mem]
      refine ⟨_, List.mem_map_of_mem _ ha, by simpa [node.receive] using hq1, ?_⟩
      simp [node.receive, node.routed, hach]
    · rw [Entities.Contains_iff]
      refine ⟨y, ?_, hyx⟩
      simp only [node.receive, node.entities_mk, Entities.appendAll_list, Entities.append,
        List.mem_append, List.mem_filter]
      exact Or.inr ⟨Or.inl hy, hq2⟩
  · intro rect es cs cs' d hok hc hrel
    refine ⟨rfl, ?_⟩
    intro r x hr _ hxr hl
    obtain ⟨l, hl, hlx⟩ := hl
    have hc' : 0 < cs'.length := by rw [← hrel.length_eq]; exact hc
    simp only [node.routed, gt_iff_lt, hc, hc', if_true, routedEach_mem] at hl ⊢
    obtain ⟨c, hcm, hcr, hlc⟩ := hl
    obtain ⟨c', hc'm, h1, h2⟩ := forall₂_mem_left hrel c hcm
    by_cases hic : c.rect.Intersects e.Rect = true
    · obtain ⟨-, hrc, hP⟩ := h1 hic
      obtain ⟨l', hl', hl'x⟩ := hP r x hr hcr hxr ⟨l, hlc, hlx⟩
      exact ⟨l', ⟨c', hc'm, by rw [hrc]; exact hcr, hl'⟩, hl'x⟩
    · have hic' : c.rect.Intersects e.Rect = false := by simpa using hic
      have hcc := h2 hic'
      subst hcc
      exact ⟨l, ⟨_, hc'm, hcr, hlc⟩, hlx⟩

/-- C25, the claim fails in its second part. (1) A rectangle with swapped
corners: `midTree` is a reachable root leaf that holds `mid`; `flipped` passes
the intersection test with the root region, and `Intersects(flipped)` returns
`mid`. After the insert of the well-formed entity `s1`, which splits the root,
`Intersects(flipped)` no longer returns: no child region passes the
intersection test with `flipped`, and the call panics. (2) Two stored entities
equal by `IsEqual`: `twinTree` is a reachable root leaf that holds `s1` and
`twin`, and `Intersects` of the well-formed rectangle `(0,0,50,50)` returns
both. After the insert of the well-formed entity `s2`, which splits the root,
the call returns `s1` and `s2`: `twin` is not in the list, although the list
contains an entity equal to it by `IsEqual`. -/
theorem C25_counterexample :
    (Reachable goGrow 800 600 1 4 midTree ∧ admissible 800 600 s1 = true ∧
      (R 0 0 800 600).Intersects flipped = true ∧ flipped.wf = false ∧
      midTree.Intersects goGrow flipped = .ok ⟨[mid], 1⟩ ∧
      midTree.Insert goGrow s1.ID s1.Rect s1.Actions = .ok midSplitTree ∧
      midSplitTree.node.getQuadrant flipped = [] ∧
      midSplitTree.Intersects goGrow flipped = .error ErrNoNodeFound) ∧
    (Reachable goGrow 800 600 2 4 twinTree ∧ admissible 800 600 s2 = true ∧
      (R 0 0 50 50).wf = true ∧ (R 0 0 800 600).Intersects (R 0 0 50 50) = true ∧
      twinTree.Intersects goGrow (R 0 0 50 50) = .ok ⟨[s1, twin], 2⟩ ∧
      twinTree.Insert goGrow s2.ID s2.Rect s2.Actions = .ok twinSplitTree ∧
      twinSplitTree.Intersects goGrow (R 0 0 50 50) = .ok ⟨[s1, s2], 2⟩ ∧
      twin ∉ [s1, s2] ∧ (⟨[s1, s2], 2⟩ : Entities).Contains twin = true) :=
  ⟨⟨Reachable.insertEntities [mid] (Reachable.new (by norm_num) (by norm_num))
      (by decide!) (r := none) (by decide!),
    by decide!, by decide!, by decide!, by decide!, by decide!, by decide!, by decide!⟩,
   ⟨Reachable.insertEntities [s1, twin] (Reachable.new (by norm_num) (by norm_num))
      (by decide!) (r := none) (by decide!),
    by decide!, by decide!, by decide!, by decide!, by decide!, by decide!, by decide!,
    by decide!⟩⟩

/-- C25, amended: for every reachable tree and every well-formed entity `e`
that intersects the root region, `Insert` of `e` returns, also when it splits
nodes; every entity for which `IsEntity` was true before the call has
`IsEntity` true after it; and for every well-formed rectangle `r` that
intersects the root region, `Intersects(r)` returns before and after the
call, and every entity it returned before is contained (up to `IsEqual`) in
what it returns after. -/
theorem C25_insert_frame (grow : Nat → Nat) (w h : ℚ) (me md : Nat) (q : Quadpix)
    (hq : Reachable grow w h me md q) (e : Entity) (he : admissible w h e = true) :
    ∃ q', q.Insert grow e.ID e.Rect e.Actions = .ok q' ∧
      (∀ x : Entity, q.IsEntity x = .ok true → q'.IsEntity x = .ok true) ∧
      (∀ r : Rect, r.wf = true → (R 0 0 w h).Intersects r = true →
        ∃ res res', q.Intersects grow r = .ok res ∧ q'.Intersects grow r = .ok res' ∧
          ∀ x ∈ res.list, res'.Contains x = true) := by
  obtain ⟨hok, hrect, -⟩ := hq.shape
  simp only [admissible, Bool.and_eq_true] at he
  have hi : q.node.rect.Intersects e.Rect = true := by rw [hrect]; exact he.2
  obtain ⟨n', h1, hrect', hkeep⟩ := node.insert_keeps grow e q.maxDepth he.1 q.node hok hi
  obtain ⟨n'', h1', hpost⟩ := node.insert_spec grow e q.maxDepth he.1 q.node hok hi
  rw [h1, Except.ok.injEq] at h1'
  subst h1'
  have hok' := hpost.ok
  have he' : E e.ID e.Rect e.Actions = e := rfl
  refine ⟨⟨n', q.maxDepth⟩, by simp only [Quadpix.Insert, he', h1], ?_, ?_⟩
  · intro x hx
    have hany := node.isEntity_sound x q.node true hx
    obtain ⟨l, hl, hlx⟩ := List.any_eq_true.1 hany.symm
    obtain ⟨y, hy, hyx⟩ := (Entities.Contains_iff _ _).1 hlx
    have hleaf := node.routed_sub x.Rect q.node l hl
    obtain ⟨hlok, -, hsub⟩ := node.leaves_ok q.node hok l hleaf
    have hfit := node.ok_fits hlok y hy
    simp only [Entity.fits, Bool.and_eq_true] at hfit
    have hxy : y.Rect = x.Rect := Entity.IsEqual_rect hyx
    have hxwf : x.Rect.wf = true := by rw [← hxy]; exact hfit.1
    have hxi : q.node.rect.Intersects x.Rect = true := by
      rw [← hxy]; exact hsub _ hfit.2
    obtain ⟨l', hl', hl'x⟩ := hkeep x.Rect x hxwf hxi (Rect.Intersects_self hxwf)
      ⟨l, hl, hlx⟩
    have := node.isEntity_eq x hxwf n' hok' (by rw [hrect']; exact hxi)
    simp only [Quadpix.IsEntity]
    rw [this, Except.ok.injEq, List.any_eq_true]
    exact ⟨l', hl', hl'x⟩
  · intro r hr hir
    have hir' : q.node.rect.Intersects r = true := by rw [hrect]; exact hir
    obtain ⟨ret, g1, g2⟩ := node.retrieve_spec grow r hr q.node hok hir'
    obtain ⟨ret', g1', g2'⟩ := node.retrieve_spec grow r hr n' hok'
      (by rw [hrect']; exact hir')
    refine ⟨ret.Intersects grow r, ret'.Intersects grow r,
      by simp only [Quadpix.Intersects, g1], by simp only [Quadpix.Intersects, g1'], ?_⟩
    intro x hx
    rw [Entities.Intersects_list, List.mem_filter] at hx
    obtain ⟨hxm, hxr⟩ := hx
    have hcon : ret.Contains x = true :=
      (Entities.Contains_iff _ _).2 ⟨x, hxm, Entity.IsEqual_refl x⟩
    rw [g2 x, List.any_eq_true] at hcon
    obtain ⟨l, hl, hlx⟩ := hcon
    obtain ⟨l', hl', hl'x⟩ := hkeep r x hr hir' hxr ⟨l, hl, hlx⟩
    have hcon' : ret'.Contains x = true := by
      rw [g2' x, List.any_eq_true]; exact ⟨l', hl', hl'x⟩
    obtain ⟨y, hy, hyx⟩ := (Entities.Contains_iff _ _).1 hcon'
    rw [Entities.Contains_iff]
    refine ⟨y, ?_, hyx⟩
    rw [Entities.Intersects_list, List.mem_filter]
    refine ⟨hy, ?_⟩
    simp only [Entity.Intersects] at hxr ⊢
    rw [Entity.IsEqual_rect hyx]; exact hxr

/-- Witness of C25 (amended): inserting `s1` into `midTree`, which splits the
root. -/
theorem C25_witness :
    ∃ q', midTree.Insert goGrow s1.ID s1.Rect s1.Actions = .ok q' ∧
      (∀ x : Entity, midTree.IsEntity x = .ok true → q'.IsEntity x = .ok true) ∧
      (∀ r : Rect, r.wf = true → (R 0 0 800 600).Intersects r = true →
        ∃ res res', midTree.Intersects goGrow r = .ok res ∧
          q'.Intersects goGrow r = .ok res' ∧ ∀ x ∈ res.list, res'.Contains x = true) :=
  C25_insert_frame goGrow 800 600 1 4 midTree
    (Reachable.insertEntities [mid] (Reachable.new (by norm_num) (by norm_num))
      (by decide!) (r := none) (by decide!)) s1 (by decide!)

/-! ## entity.go over `float64` bounds: identity and Merge -/

theorem F64.eq_iff (a b : F64) : F64.eq a b = true ↔ a = b ∧ a.isNaN = false := by
  cases a <;> cases b <;> simp [F64.eq, F64.isNaN]

theorem FRect.DeepEqual_iff (r s : FRect) :
    r.DeepEqual s = true ↔ r = s ∧ r.hasNaN = false := by
  obtain ⟨⟨a, b⟩, ⟨c, d⟩⟩ := r
  obtain ⟨⟨a', b'⟩, ⟨c', d'⟩⟩ := s
  simp only [FRect.DeepEqual, FRect.hasNaN, Bool.and_eq_true, F64.eq_iff, Bool.or_eq_false_iff,
    FRect.mk.injEq, FVec.mk.injEq]
  tauto

theorem FEntity.isEqual64_iff (a b : FEntity) :
    a.IsEqual b = true ↔ a.ID = b.ID ∧ a.Rect = b.Rect ∧ a.Rect.hasNaN = false := by
  simp [FEntity.IsEqual, FRect.DeepEqual_iff]

theorem FEntity.isEqual64_symm {a b : FEntity} (h : a.IsEqual b = true) :
    b.IsEqual a = true := by
  rw [FEntity.isEqual64_iff] at h ⊢
  obtain ⟨h1, h2, h3⟩ := h
  exact ⟨h1.symm, h2.symm, by rw [← h2]; exact h3⟩

theorem FEntity.isEqual64_trans {a b c : FEntity} (h : a.IsEqual b = true)
    (h' : b.IsEqual c = true) : a.IsEqual c = true := by
  rw [FEntity.isEqual64_iff] at h h' ⊢
  exact ⟨h.1.trans h'.1, h.2.1.trans h'.2.1, h.2.2⟩

/-- On entities with number coordinates `IsEqual` over `float64` bounds is
`IsEqual` over numbers. -/
theorem Entity.toF64_IsEqual (a b : Entity) :
    a.toF64.IsEqual b.toF64 = a.IsEqual b := by
  obtain ⟨⟨⟨x1, y1⟩, ⟨x2, y2⟩⟩, ia, aa⟩ := a
  obtain ⟨⟨⟨x1', y1'⟩, ⟨x2', y2'⟩⟩, ib, ab⟩ := b
  rw [Bool.eq_iff_iff]
  simp [Entity.toF64, Rect.toF64, FEntity.IsEqual, FRect.DeepEqual, F64.eq, Entity.IsEqual,
    and_assoc]

theorem FEntities.contains64_iff (e : FEntities) (y : FEntity) :
    e.Contains y = true ↔ ∃ x ∈ e.list, x.IsEqual y = true := by
  simp [FEntities.Contains]

theorem FEntities.contains64_append (grow : Nat → Nat) (e : FEntities) (x y : FEntity) :
    (e.append grow x).Contains y = (e.Contains y || x.IsEqual y) := by
  simp [FEntities.Contains, FEntities.append]

theorem FEntities.mergeLoop64_Contains (grow : Nat → Nat) (y : FEntity) (l : List FEntity) :
    ∀ e : FEntities,
      (l.foldl (fun acc x => if !acc.Contains x then acc.append grow x else acc) e).Contains y
        = (e.Contains y || l.any (fun x => x.IsEqual y)) := by
  induction l with
  | nil => intro e; simp
  | cons x xs ih =>
    intro e
    rw [List.foldl_cons, ih]
    by_cases hx : e.Contains x = true
    · simp only [hx, Bool.not_true, Bool.false_eq_true, if_false, List.any_cons]
      by_cases hxy : x.IsEqual y = true
      · have : e.Contains y = true := by
          rw [FEntities.contains64_iff] at hx ⊢
          obtain ⟨z, hz, hzx⟩ := hx
          exact ⟨z, hz, FEntity.isEqual64_trans hzx hxy⟩
        simp [this]
      · simp [hxy]
    · simp only [hx, Bool.not_false, if_true, List.any_cons, FEntities.contains64_append,
        Bool.or_assoc]

theorem FEntities.mergeLoop64_pairwise (grow : Nat → Nat) (l : List FEntity) :
    ∀ e : FEntities, e.list.Pairwise (fun a b => a.IsEqual b = false) →
      (l.foldl (fun acc x => if !acc.Contains x then acc.append grow x else acc)
        e).list.Pairwise (fun a b => a.IsEqual b = false) := by
  induction l with
  | nil => intro e h; exact h
  | cons x xs ih =>
    intro e h
    rw [List.foldl_cons]
    apply ih
    by_cases hx : e.Contains x = true
    · simpa [hx] using h
    · have hx' : e.Contains x = false := by simpa using hx
      simp only [hx', Bool.not_false, if_true, FEntities.append]
      rw [List.pairwise_append]
      refine ⟨h, List.pairwise_singleton _ _, fun a ha b hb => ?_⟩
      rw [List.mem_singleton] at hb
      subst hb
      simp only [FEntities.Contains, List.any_eq_false] at hx'
      simpa using hx' a ha

theorem FEntities.mergeLoop64_list (grow : Nat → Nat) (l : List FEntity) :
    ∀ e : FEntities,
      (l.foldl (fun acc x => if !acc.Contains x then acc.append grow x else acc) e).list =
        e.list ++ FEntities.fresh e.list l := by
  induction l with
  | nil => intro e; simp [FEntities.fresh]
  | cons x xs ih =>
    intro e
    rw [List.foldl_cons, ih]
    by_cases hx : e.Contains x = true
    · have hx' : e.list.any (fun a => a.IsEqual x) = true := hx
      simp [hx, FEntities.fresh, hx']
    · have hx' : e.Contains x = false := by simpa using hx
      have hx'' : e.list.any (fun a => a.IsEqual x) = false := hx'
      simp [hx', FEntities.fresh, hx'', FEntities.append]

theorem FEntities.mergeLoop64_self (grow : Nat → Nat) (e : FEntities) (l : List FEntity)
    (h : ∀ x ∈ l, e.Contains x = true) :
    l.foldl (fun acc x => if !acc.Contains x then acc.append grow x else acc) e = e := by
  induction l with
  | nil => rfl
  | cons x xs ih =>
    rw [List.foldl_cons]
    have hx := h x (List.mem_cons_self _ _)
    simp only [hx, Bool.not_true, Bool.false_eq_true, if_false]
    exact ih (fun y hy => h y (List.mem_cons_of_mem _ hy))

theorem Entities.toF64_Contains (e : Entities) (x : Entity) :
    e.toF64.Contains x.toF64 = e.Contains x := by
  obtain ⟨l, c⟩ := e
  simp only [Entities.toF64, FEntities.Contains, Entities.Contains]
  induction l with
  | nil => rfl
  | cons a t ih => simp only [List.map_cons, List.any_cons, ih, Entity.toF64_IsEqual]

theorem Entities.toF64_mergeLoop (grow : Nat → Nat) (l : List Entity) :
    ∀ e : Entities,
      (l.foldl (fun acc x => if !acc.Contains x then acc.append grow x else acc) e).toF64 =
        (l.map Entity.toF64).foldl
          (fun acc x => if !acc.Contains x then acc.append grow x else acc) e.toF64 := by
  induction l with
  | nil => intro e; rfl
  | cons x xs ih =>
    intro e
    rw [List.foldl_cons, List.map_cons, List.foldl_cons, ih, Entities.toF64_Contains]
    by_cases hx : e.Contains x = true
    · simp [hx]
    · have hx' : e.Contains x = false := by simpa using hx
      simp [hx', Entities.toF64, Entities.append, FEntities.append]

/-- On slices of entities with number coordinates `Merge` over `float64`
bounds is `Merge` over numbers. -/
theorem Entities.toF64_Merge (grow : Nat → Nat) (e m : Entities) :
    (e.Merge grow m).toF64 = e.toF64.Merge grow m.toF64 :=
  Entities.toF64_mergeLoop grow m.list e

/-- C16, the claim fails for an entity with a NaN coordinate: `nanEntity` is
not `IsEqual` to itself, although both sides have the same ID and the same
bounds, so `IsEqual` is not reflexive. -/
theorem C16_counterexample :
    nanEntity.IsEqual nanEntity = false ∧ nanEntity.ID = nanEntity.ID ∧
      nanEntity.Rect = nanEntity.Rect ∧ nanEntity.Rect.hasNaN = true :=
  ⟨by decide, rfl, rfl, by decide⟩

/-- C16, amended: `a.IsEqual(b)` is true if and only if the IDs are equal and
each of the four coordinates of the bounds is `==` to its counterpart; for
entities whose bounds hold no NaN coordinate that is: if and only if the IDs
are equal and the bounds are the same. The `Actions` field plays no part;
entities with the same ID and different bounds are not equal; `IsEqual` is
symmetric and transitive, and it is reflexive exactly on the entities whose
bounds hold no NaN coordinate. -/
theorem C16_identity :
    (∀ a b : FEntity, a.IsEqual b = true ↔
      a.ID = b.ID ∧ F64.eq a.Rect.Min.X b.Rect.Min.X = true ∧
        F64.eq a.Rect.Min.Y b.Rect.Min.Y = true ∧ F64.eq a.Rect.Max.X b.Rect.Max.X = true ∧
        F64.eq a.Rect.Max.Y b.Rect.Max.Y = true) ∧
    (∀ a b : FEntity, a.Rect.hasNaN = false → b.Rect.hasNaN = false →
      (a.IsEqual b = true ↔ a.ID = b.ID ∧ a.Rect = b.Rect)) ∧
    (∀ (rect rect' : FRect) (id id' : Nat) (acts acts' : List Nat),
      (FEntity.mk rect id acts).IsEqual (FEntity.mk rect' id' acts') =
        (FEntity.mk rect id []).IsEqual (FEntity.mk rect' id' [])) ∧
    (∀ a b : FEntity, a.ID = b.ID → a.Rect ≠ b.Rect → a.IsEqual b = false) ∧
    (∀ a : FEntity, a.IsEqual a = true ↔ a.Rect.hasNaN = false) ∧
    (∀ a b : FEntity, a.IsEqual b = true → b.IsEqual a = true) ∧
    (∀ a b c : FEntity, a.IsEqual b = true → b.IsEqual c = true → a.IsEqual c = true) ∧
    (∀ a b : Entity, a.toF64.Rect.hasNaN = false ∧ a.toF64.IsEqual b.toF64 = a.IsEqual b) := by
  refine ⟨?_, ?_, ?_, ?_, ?_, fun a b => FEntity.isEqual64_symm,
    fun a b c => FEntity.isEqual64_trans, ?_⟩
  · intro a b
    simp [FEntity.IsEqual, FRect.DeepEqual, and_assoc]
  · intro a b ha _
    rw [FEntity.isEqual64_iff]
    exact ⟨fun h => ⟨h.1, h.2.1⟩, fun h => ⟨h.1, h.2, ha⟩⟩
  · intro rect rect' id id' acts acts'
    rfl
  · intro a b _ hne
    cases h : a.IsEqual b with
    | false => rfl
    | true => exact absurd ((FEntity.isEqual64_iff a b).1 h).2.1 hne
  · intro a
    rw [FEntity.isEqual64_iff]
    exact ⟨fun h => h.2.2, fun h => ⟨rfl, rfl, h⟩⟩
  · intro a b
    exact ⟨by simp [Entity.toF64, Rect.toF64, FRect.hasNaN, F64.isNaN],
      Entity.toF64_IsEqual a b⟩

/-- C18, the claim fails for a list that holds an entity with a NaN
coordinate: the list of the one entity `nanEntity` has no two equal elements,
and merging it into itself appends `nanEntity` a second time, because
`Contains` does not find it. -/
theorem C18_counterexample :
    (⟨[nanEntity], 1⟩ : FEntities).list.Pairwise (fun a b => a.IsEqual b = false) ∧
      (⟨[nanEntity], 1⟩ : FEntities).Contains nanEntity = false ∧
      (⟨[nanEntity], 1⟩ : FEntities).Merge goGrow ⟨[nanEntity], 1⟩ =
        ⟨[nanEntity, nanEntity], 2⟩ :=
  ⟨by decide, by decide, by decide⟩

/-- C18, amended: `e.Merge(m)` is `e` followed, in order, by those elements of
`m` that are not `IsEqual` to any element already in the result; an entity is
contained in the result if and only if it is contained in `e` or in `m`; if
`e` has no two elements that are `IsEqual`, neither has the result; and
`e.Merge(e)` is `e` when no entity of `e` has a NaN coordinate in its
bounds. On slices of entities with number coordinates this `Merge` is the
`Merge` of the tree code. -/
theorem C18_merge (grow : Nat → Nat) (e m : FEntities) :
    (e.Merge grow m).list = e.list ++ FEntities.fresh e.list m.list ∧
    (∀ x, (e.Merge grow m).Contains x = true ↔ e.Contains x = true ∨ m.Contains x = true) ∧
    (e.list.Pairwise (fun a b => a.IsEqual b = false) →
      (e.Merge grow m).list.Pairwise (fun a b => a.IsEqual b = false)) ∧
    ((∀ x ∈ e.list, x.Rect.hasNaN = false) → e.Merge grow e = e) ∧
    (∀ a b : Entities, (a.Merge grow b).toF64 = a.toF64.Merge grow b.toF64) := by
  refine ⟨FEntities.mergeLoop64_list grow m.list e, fun x => ?_,
    FEntities.mergeLoop64_pairwise grow m.list e, ?_, Entities.toF64_Merge grow⟩
  · rw [FEntities.Merge, FEntities.mergeLoop64_Contains, Bool.or_eq_true]
    rfl
  · intro h
    apply FEntities.mergeLoop64_self
    intro x hx
    exact (FEntities.contains64_iff e x).2
      ⟨x, hx, (FEntity.isEqual64_iff x x).2 ⟨rfl, rfl, h x hx⟩⟩

/-! ## A straddling entity that a query misses -/

/-- C7, the code at the failing input: `deepTree` and `lostTree` are built from
`New(160,160,1,3)` by inserting the pairwise non-equal entities `k1`, `k2`,
`k3`, `k4` and, for `lostTree`, removing `k3`. The bounds of `k1` span the
bottom-left and the bottom-right quadrant of the root, and `probe` is a
well-formed rectangle inside the bottom-left quadrant that intersects the
bounds of `k1`. In `deepTree` both `Retrieve(probe)` and `Intersects(probe)`
return `k1` exactly once. In `lostTree`, where `IsEntity(k1)` is still true,
both return the empty list: `k1` appears zero times. -/
theorem C7_straddling_entity_missed :
    Built goGrow 160 160 1 3 ([k1, k2, k3, k4].reverse ++ []) deepTree ∧
    Built goGrow 160 160 1 3 ([k1, k2, k3, k4].reverse ++ []) lostTree ∧
    deepTree.Remove goGrow k3 = .ok (lostTree, none) ∧
    lostTree.node.children.map (fun c => (c.rect.Intersects k1.Rect, c.rect.Intersects probe)) =
      [(true, true), (true, false), (false, false), (false, false)] ∧
    probe.wf = true ∧ (R 0 0 160 160).Intersects probe = true ∧
    k1.Rect.Intersects probe = true ∧
    (∃ res res', deepTree.Retrieve goGrow probe = .ok res ∧
      deepTree.Intersects goGrow probe = .ok res' ∧ res.count k1 = 1 ∧ res'.count k1 = 1) ∧
    lostTree.IsEntity k1 = .ok true ∧
    (∃ res res', lostTree.Retrieve goGrow probe = .ok res ∧
      lostTree.Intersects goGrow probe = .ok res' ∧ res.list = [] ∧ res'.list = [] ∧
      res.count k1 = 0 ∧ res'.count k1 = 0) :=
  ⟨deepTree_built, lostTree_built, by decide!, by decide!, by decide!, by decide!, by decide!,
    ⟨⟨[k1], 1⟩, ⟨[k1], 1⟩, by decide!, by decide!, by decide!, by decide!⟩,
    by decide!,
    ⟨Entities.make 0, Entities.nil, by decide!, by decide!, rfl, rfl, by decide!, by decide!⟩⟩

end quadpix
